import Mathlib

/-!
# BobbySync: the operation log service and the sync client

A shallow embedding of `src/server/server.js` (the ordered operation log:
`normalizeOp`, `POST /v1/push`, `pruneOps`, `GET /v1/pull`, and the snapshot
kept by `PUT` and `GET /v1/snapshot`) and of `src/extension/sw.js` (the
identity map, the apply/merge engine, the push and pull cycles, and
`hydrateFromSnapshot`).

JavaScript numbers are modelled as `Int` (no NaN, no fractions), strings as
`String`, a property that may be `undefined` or `null` as an `Option`.
-/

namespace BobbySync

/-! ## Values on the wire -/

/-- The string of a property when it is truthy in JavaScript: present and not
the empty string. -/
def nonEmpty? : Option String → Option String
  | some s => if s = "" then none else some s
  | none => none

/-- JavaScript truthiness of a string-valued property. -/
def truthy (v : Option String) : Bool := (nonEmpty? v).isSome

/-- The `index` property of an operation on the wire: missing, `null`, or a number. -/
inductive JIndex where
  | undefined
  | null
  | num (n : Int)
deriving DecidableEq, Repr

/-- An operation as a JSON object, before the server normalises it and as the
client reads it: every property is optional. -/
structure RawOp where
  op : Option String := none
  uid : Option String := none
  parentUid : Option String := none
  index : JIndex := JIndex.undefined
  title : Option String := none
  url : Option String := none
  type : Option String := none
  ts : Option Int := none
  deviceId : Option String := none
  opId : Option String := none
  version : Option Int := none
deriving DecidableEq, Repr

/-- The object `normalizeOp` returns: the version is not stamped yet and the
`type` property is not carried over. -/
structure NormOp where
  op : String
  uid : String
  parentUid : Option String
  index : Option Int
  title : Option String
  url : Option String
  ts : Int
  deviceId : Option String
  opId : String
deriving DecidableEq, Repr

/-- A log entry: a normalised operation with the version stamped by push. -/
structure Op extends NormOp where
  version : Int
deriving DecidableEq, Repr

/-- The JSON a client receives for a log entry. -/
def Op.toRaw (o : Op) : RawOp :=
  { op := some o.op
    uid := some o.uid
    parentUid := o.parentUid
    index := match o.index with
      | some n => JIndex.num n
      | none => JIndex.null
    title := o.title
    url := o.url
    type := none
    ts := some o.ts
    deviceId := o.deviceId
    opId := some o.opId
    version := some o.version }

/-! ## The operation log service (`src/server/server.js`) -/

/-- The environment variables read at start-up, with their defaults. -/
structure Config where
  MAX_PULL_LIMIT : Int := 1000
  MAX_LOG_OPS : Int := 50000
deriving DecidableEq, Repr

/-- What one request observes of `randomUUID()` and `Date.now()`: the values
they return while the entry at position `i` of the batch is normalised. A
UUID is never the empty string. -/
structure Host where
  randomUUID : Nat → String
  now : Nat → Int
  uuid_ne : ∀ i, randomUUID i ≠ ""

/-- The in-memory `state` of the server: version counter, log, and the `Set`
of known opIds in insertion order. -/
structure Server where
  version : Int
  ops : List Op
  opLookup : List String
deriving DecidableEq, Repr

/-- The state a fresh server starts from (no store file on disk). -/
def Server.empty : Server := { version := 0, ops := [], opLookup := [] }

/-- `Set.prototype.add`. -/
def setAdd (s : List String) (x : String) : List String :=
  if x ∈ s then s else s ++ [x]

/-- `Set.prototype.delete`. -/
def setDelete (s : List String) (x : String) : List String :=
  s.filter (fun y => decide (y ≠ x))

/-- `normalizeOp(raw)`, for the entry at position `i` of the batch; `none` on
the wire side stands for an entry that is not an object. -/
def normalizeOp (h : Host) (i : Nat) : Option RawOp → Option NormOp
  | none => none
  | some raw =>
    match nonEmpty? raw.uid, nonEmpty? raw.op with
    | some uid, some op =>
      some
        { op := op
          uid := uid
          parentUid := raw.parentUid
          index := match raw.index with
            | JIndex.num n => some n
            | JIndex.null => some 0
            | JIndex.undefined => none
          title := raw.title
          url := raw.url
          ts := match raw.ts with
            | some t => if t = 0 then h.now i else t
            | none => h.now i
          deviceId := nonEmpty? raw.deviceId
          opId := (nonEmpty? raw.opId).getD (h.randomUUID i) }
    | _, _ => none

/-- One turn of the loop of `POST /v1/push`: `none` when the entry is skipped
(`continue`), the new state when it is accepted. -/
def pushOne (h : Host) (i : Nat) (s : Server) (raw : Option RawOp) : Option Server :=
  match normalizeOp h i raw with
  | none => none
  | some op =>
    if op.opId ≠ "" ∧ op.opId ∈ s.opLookup then none
    else
      some
        { version := s.version + 1
          ops := s.ops ++ [{ toNormOp := op, version := s.version + 1 }]
          opLookup := if op.opId ≠ "" then setAdd s.opLookup op.opId else s.opLookup }

/-- The `for (const raw of incoming)` loop of push, from position `i` on: the
state and the `accepted` counter. -/
def pushLoop (h : Host) : Nat → List (Option RawOp) → Server × Nat → Server × Nat
  | _, [], acc => acc
  | i, raw :: rest, (s, accepted) =>
    match pushOne h i s raw with
    | none => pushLoop h (i + 1) rest (s, accepted)
    | some s1 => pushLoop h (i + 1) rest (s1, accepted + 1)

/-- The entries `pruneOps` is about to splice off the front of the log. -/
def pruned (cfg : Config) (s : Server) : List Op :=
  let overflow : Int := (s.ops.length : Int) - cfg.MAX_LOG_OPS
  if overflow ≤ 0 then [] else s.ops.take overflow.toNat

/-- `pruneOps()`. -/
def pruneOps (cfg : Config) (s : Server) : Server :=
  let overflow : Int := (s.ops.length : Int) - cfg.MAX_LOG_OPS
  if overflow ≤ 0 then s
  else
    let removed := s.ops.take overflow.toNat
    { version := s.version
      ops := s.ops.drop overflow.toNat
      opLookup := removed.foldl
        (fun set op => if op.opId ≠ "" then setDelete set op.opId else set) s.opLookup }

/-- The JSON body push answers with. -/
structure PushResponse where
  ok : Bool
  accepted : Nat
  newVersion : Int
deriving DecidableEq, Repr

/-- The handler of `POST /v1/push` for an authorised request whose body holds
the array `incoming`. -/
def push (cfg : Config) (h : Host) (s : Server) (incoming : List (Option RawOp)) :
    Server × PushResponse :=
  if incoming.isEmpty then (s, { ok := true, accepted := 0, newVersion := s.version })
  else
    let r := pushLoop h 0 incoming (s, 0)
    let s2 := pruneOps cfg r.1
    (s2, { ok := true, accepted := r.2, newVersion := s2.version })

/-- The JSON body pull answers with. -/
structure PullResponse where
  ops : List Op
  latest : Int
deriving DecidableEq, Repr

/-- The handler of `GET /v1/pull`; a query parameter that is missing or empty
is `none`. -/
def pull (cfg : Config) (s : Server) (after limit : Option Int) : PullResponse :=
  let after := after.getD 0
  let limitRaw := limit.getD cfg.MAX_PULL_LIMIT
  let limit := max 1 (min limitRaw cfg.MAX_PULL_LIMIT)
  { ops := (s.ops.filter (fun op => decide (op.version > after))).take limit.toNat
    latest := s.version }

/-- The two guards of `normalizeOp`: the entry is an object, and its `uid`
and `op` are truthy. -/
def wellFormed : Option RawOp → Bool
  | none => false
  | some raw => truthy raw.uid && truthy raw.op

/-- The positions, counted from `i`, of the well-formed entries of a batch. -/
def wellFormedPositions : Nat → List (Option RawOp) → List Nat
  | _, [] => []
  | i, e :: rest =>
    if wellFormed e then i :: wellFormedPositions (i + 1) rest
    else wellFormedPositions (i + 1) rest

/-- The host as a request observes it whose batch is shorter: while the entry
at position `j` of the shorter batch is normalised, `randomUUID()` and
`Date.now()` return what `h` returns at position `pos[j]`. -/
def Host.atPositions (h : Host) (pos : List Nat) : Host :=
  { randomUUID := fun j => h.randomUUID (pos.getD j j)
    now := fun j => h.now (pos.getD j j)
    uuid_ne := fun j => h.uuid_ne (pos.getD j j) }

/-- A run of the server: the pushes it serves in order, each with what the
request observes of the host. Returns the final state and, in order of
acceptance, every log entry ever appended (the entries push appended behind
the log it found). -/
def run (cfg : Config) : Server → List (Host × List (Option RawOp)) → Server × List Op
  | s, [] => (s, [])
  | s, (h, batch) :: rest =>
    let appended := (pushLoop h 0 batch (s, 0)).1.ops.drop s.ops.length
    let r := run cfg (push cfg h s batch).1 rest
    (r.1, appended ++ r.2)

/-- Modelled from the spec: the caller of the pagination property (section 8),
which is not code of the repository. It pulls from `cursor`, advances the
cursor to the version of the last entry returned and stops at the first empty
page. Returns the pages in order, or `none` when `fuel` calls were not enough. -/
def pullPages (cfg : Config) (s : Server) (limit : Int) : Nat → Int → Option (List (List Op))
  | 0, _ => none
  | fuel + 1, cursor =>
    let page := (pull cfg s (some cursor) (some limit)).ops
    match page.getLast? with
    | none => some []
    | some last => (pullPages cfg s limit fuel last.version).map (fun pages => page :: pages)

/-- A sample log entry: a create of `uid` sent by `device`. -/
def sampleOp (uid opId device : String) (v : Int) : Op :=
  { op := "create", uid := uid, parentUid := none, index := none, title := none, url := none,
    ts := 1, deviceId := some device, opId := opId, version := v }

/-- A sample operation as a client sends it: a create of `uid` by `device`. -/
def sampleRaw (uid opId device : String) : RawOp :=
  { op := some "create", uid := some uid, deviceId := some device, opId := some opId,
    ts := some 1 }

/-- A sample host: every UUID drawn is "uuid", the clock stands at 7. -/
def sampleHost : Host :=
  { randomUUID := fun _ => "uuid", now := fun _ => 7, uuid_ne := fun _ => (by decide : "uuid" ≠ "") }

/-- A sample log: two entries, versions 1 and 2. -/
def sampleLog : List Op := [sampleOp "u" "a" "A" 1, sampleOp "v" "b" "B" 2]

/-- The log is ascending in version (strictly: no two entries share a version). -/
def Ascending (l : List Op) : Prop := l.Pairwise (fun a b => a.version < b.version)

/-- The versions of `l` are the consecutive integers `b + 1, b + 2, ...`. -/
def ConsecutiveFrom (b : Int) (l : List Op) : Prop :=
  l.map (fun o => o.version) = (List.range l.length).map (fun (i : Nat) => b + 1 + (i : Int))

instance (l : List Op) : Decidable (Ascending l) := by
  unfold Ascending; infer_instance

instance (b : Int) (l : List Op) : Decidable (ConsecutiveFrom b l) := by
  unfold ConsecutiveFrom; infer_instance

/-- The invariant of a run: `hist` is everything accepted so far, in order,
and `s` the server state. The version counter counts the accepted entries, the
i-th of which has version i; the log is the suffix of `hist` that retention
kept, all of it while `hist` fits the limit; opIds in the log are pairwise
distinct and known to the lookup set. -/
structure LogInv (cfg : Config) (hist : List Op) (s : Server) : Prop where
  version_eq : s.version = (hist.length : Int)
  consecutive : ConsecutiveFrom 0 hist
  suffix : ∃ pre, hist = pre ++ s.ops
  fits : (hist.length : Int) ≤ cfg.MAX_LOG_OPS → hist = s.ops
  nodup : (s.ops.map (fun o => o.opId)).Nodup
  known : ∀ o ∈ s.ops, o.opId ∈ s.opLookup

/-! ## The local bookmark tree (the host's `chrome.bookmarks`)

The tree is the extension's collaborator, not code of the repository. It is
modelled as a flat list of nodes in which siblings appear in their order, so
that the `index` of a node is its rank among the nodes with the same parent.
Local ids are the decimal numerals the host hands out, modelled as `Nat`. A
call is rejected (the promise rejects) when the node or the parent it names
does not exist, the parent is a bookmark, the index is out of range, a folder
would move under itself, a non-empty folder is removed without recursion, the
call would modify the root or one of the permanent folders under it, or
bookmark editing is disabled on the host (then every modifying call rejects). -/

/-- A node as the tree stores it. -/
structure TNode where
  id : Nat
  parentId : Option Nat
  title : String
  url : Option String
deriving DecidableEq, Repr

/-- A `BookmarkTreeNode` as `chrome.bookmarks.get` and `create` return it (no
`children` property). -/
structure BNode where
  id : Nat
  parentId : Option Nat
  index : Int
  title : String
  url : Option String
deriving DecidableEq, Repr

/-- The tree: its nodes, the next id the host will hand out, and whether the
host allows bookmarks to be edited. -/
structure Tree where
  nodes : List TNode
  nextId : Nat
  editable : Bool := true
deriving DecidableEq, Repr

/-- The first node with this id. -/
def Tree.find (t : Tree) (id : Nat) : Option TNode :=
  t.nodes.find? (fun n => decide (n.id = id))

/-- The rank of node `id` among the nodes whose parent is `p`. -/
def indexIn : List TNode → Nat → Option Nat → Nat
  | [], _, _ => 0
  | x :: xs, id, p =>
    if x.id = id then 0 else (if x.parentId = p then 1 else 0) + indexIn xs id p

/-- The children of `pid`, in order. -/
def Tree.children (t : Tree) (pid : Nat) : List TNode :=
  t.nodes.filter (fun n => decide (n.parentId = some pid))

/-- `chrome.bookmarks.get(id)`: the node, or `none` when the call rejects. -/
def Tree.get (t : Tree) (id : Nat) : Option BNode :=
  (t.find id).map (fun n =>
    { id := n.id, parentId := n.parentId, index := (indexIn t.nodes id n.parentId : Nat)
      title := n.title, url := n.url })

/-- Insert `n` before the `i`-th child of `pid`, or behind the last node when
`pid` has no more than `i` children. -/
def insertAt : List TNode → Nat → Nat → TNode → List TNode
  | [], _, _, n => [n]
  | x :: xs, pid, i, n =>
    if x.parentId = some pid then
      match i with
      | 0 => n :: x :: xs
      | k + 1 => x :: insertAt xs pid k n
    else x :: insertAt xs pid i n

/-- An id no node of the tree uses and the host never handed out. -/
def Tree.freshId (t : Tree) : Nat :=
  max t.nextId ((t.nodes.map (fun n => n.id)).foldr max 0 + 1)

/-- Whether `a` is `b` or an ancestor of `b`, following at most `fuel` parent links. -/
def Tree.under (t : Tree) (a : Nat) : Nat → Nat → Bool
  | 0, _ => false
  | fuel + 1, b =>
    if b = a then true
    else
      match t.find b with
      | some n =>
        match n.parentId with
        | some p => Tree.under t a fuel p
        | none => false
      | none => false

/-- Whether `id` is the root (a node without parent) or a permanent folder (a
child of the root): the host refuses to modify these. -/
def Tree.isPermanent (t : Tree) (id : Nat) : Bool :=
  match t.find id with
  | some n =>
    match n.parentId with
    | none => true
    | some p =>
      match t.find p with
      | some pn => pn.parentId.isNone
      | none => false
  | none => false

/-- `chrome.bookmarks.create({parentId, index?, title, url?})`. -/
def Tree.create (t : Tree) (parentId : Nat) (index : Option Int) (title : String)
    (url : Option String) : Option (Tree × BNode) :=
  match t.find parentId with
  | none => none
  | some p =>
    if t.editable = false ∨ p.url.isSome ∨ p.parentId.isNone then none
    else
      let count := (t.children parentId).length
      let pos : Int := index.getD count
      if pos < 0 ∨ (count : Int) < pos then none
      else
        let id := t.freshId
        some
          ({ nodes := insertAt t.nodes parentId pos.toNat
                { id := id, parentId := some parentId, title := title, url := url }
             nextId := id + 1
             editable := t.editable },
            { id := id, parentId := some parentId, index := pos, title := title, url := url })

/-- `chrome.bookmarks.move(id, {parentId, index?})`. -/
def Tree.move (t : Tree) (id parentId : Nat) (index : Option Int) : Option Tree :=
  match t.find id, t.find parentId with
  | some n, some p =>
    if t.editable = false ∨ p.url.isSome ∨ p.parentId.isNone ∨ t.isPermanent id = true
        ∨ t.under id (t.nodes.length + 1) parentId = true then none
    else
      let rest := t.nodes.filter (fun m => decide (m.id ≠ id))
      let count := (rest.filter (fun m => decide (m.parentId = some parentId))).length
      let pos : Int := index.getD count
      if pos < 0 ∨ (count : Int) < pos then none
      else
        some
          { nodes := insertAt rest parentId pos.toNat { n with parentId := some parentId }
            nextId := t.nextId
            editable := t.editable }
  | _, _ => none

/-- `chrome.bookmarks.update(id, {title?, url?})`. -/
def Tree.update (t : Tree) (id : Nat) (title url : Option String) : Option Tree :=
  match t.find id with
  | none => none
  | some _ =>
    if t.editable = false ∨ t.isPermanent id = true then none
    else some
      { nodes := t.nodes.map (fun n =>
          if n.id = id then
            { n with title := title.getD n.title, url := if url.isSome then url else n.url }
          else n)
        nextId := t.nextId
        editable := t.editable }

/-- `chrome.bookmarks.remove(id)`. -/
def Tree.remove (t : Tree) (id : Nat) : Option Tree :=
  match t.find id with
  | none => none
  | some _ =>
    if t.editable = true ∧ (t.children id).isEmpty ∧ t.isPermanent id = false then
      some
        { nodes := t.nodes.filter (fun n => decide (n.id ≠ id))
          nextId := t.nextId
          editable := t.editable }
    else none

/-- `chrome.bookmarks.removeTree(id)`. -/
def Tree.removeTree (t : Tree) (id : Nat) : Option Tree :=
  match t.find id with
  | none => none
  | some _ =>
    if t.editable = false ∨ t.isPermanent id = true then none
    else some
      { nodes := t.nodes.filter (fun n => !(t.under id (t.nodes.length + 1) n.id))
        nextId := t.nextId
        editable := t.editable }

/-! ## The sync client (`src/extension/sw.js`) -/

/-- `DEFAULT_ROOT_ID`: the bookmarks bar. -/
def DEFAULT_ROOT_ID : Nat := 1

/-- `CONFLICT_FOLDER_TITLE`. -/
def CONFLICT_FOLDER_TITLE : String := "BobbySync Conflicts"

/-- `ROOT_UID_OVERRIDES`. -/
def ROOT_UID_OVERRIDES : List (Nat × String) :=
  [(1, "root-bookmarks-bar"), (2, "root-other-bookmarks"), (3, "root-mobile-bookmarks")]

/-- `ROOT_UID_TO_LOCAL`. -/
def ROOT_UID_TO_LOCAL : List (String × Nat) :=
  ROOT_UID_OVERRIDES.map (fun e => (e.2, e.1))

/-- `ROOT_LOCAL_IDS`. -/
def ROOT_LOCAL_IDS : List Nat := ROOT_UID_OVERRIDES.map (fun e => e.1)

/-- Reading a property of a plain object used as a dictionary. -/
def dictGet {κ ν : Type} [DecidableEq κ] (d : List (κ × ν)) (k : κ) : Option ν :=
  (d.find? (fun e => decide (e.1 = k))).map (fun e => e.2)

/-- Assigning a property: in place when the key exists, appended otherwise. -/
def dictSet {κ ν : Type} [DecidableEq κ] (d : List (κ × ν)) (k : κ) (v : ν) : List (κ × ν) :=
  if d.any (fun e => decide (e.1 = k)) then
    d.map (fun e => if e.1 = k then (k, v) else e)
  else d ++ [(k, v)]

/-- The `delete` operator. -/
def dictDelete {κ ν : Type} [DecidableEq κ] (d : List (κ × ν)) (k : κ) : List (κ × ν) :=
  d.filter (fun e => decide (e.1 ≠ k))

/-- `state.bookmarkIndex`. -/
structure BookmarkIndex where
  localToUid : List (Nat × String) := []
  uidToLocal : List (String × Nat) := []
deriving DecidableEq, Repr

/-- The settings the sync cycles read. -/
structure Settings where
  pullPageSize : Option Int := some 200
deriving DecidableEq, Repr

/-- The `state` object of the service worker, with the module variable
`bookmarkIndexDirty`. -/
structure Client where
  initialized : Bool := false
  settings : Settings := {}
  opQueue : List RawOp := []
  lastVersion : Int := 0
  deviceId : Option String := none
  bookmarkIndex : BookmarkIndex := {}
  conflictFolderLocalId : Option Nat := none
  pushInFlight : Bool := false
  pullInFlight : Bool := false
  replayDepth : Int := 0
  snapshotHydrated : Bool := false
  bookmarkIndexDirty : Bool := false
deriving DecidableEq, Repr

/-- A call to `chrome.bookmarks`. -/
inductive Call where
  | get (id : Nat)
  | create (parentId : Nat) (index : Option Int) (title : String) (url : Option String)
  | update (id : Nat) (title url : Option String)
  | move (id parentId : Nat) (index : Option Int)
  | remove (id : Nat)
  | removeTree (id : Nat)
deriving DecidableEq, Repr

/-- What a client acts on: its state, the local tree, and the record of every
`chrome.bookmarks` call issued so far, each with whether the tree accepted it. -/
structure World where
  st : Client
  tree : Tree
  calls : List (Call × Bool) := []
deriving DecidableEq, Repr

/-- `await chrome.bookmarks.get(id)`; `none` when it rejects. -/
def bookmarksGet (w : World) (id : Nat) : World × Option BNode :=
  ({ w with calls := w.calls ++ [(Call.get id, (w.tree.get id).isSome)] }, w.tree.get id)

/-- `await chrome.bookmarks.create(payload)`; `none` when it rejects. -/
def bookmarksCreate (w : World) (parentId : Nat) (index : Option Int) (title : String)
    (url : Option String) : World × Option BNode :=
  match w.tree.create parentId index title url with
  | some (t, n) =>
    ({ w with tree := t, calls := w.calls ++ [(Call.create parentId index title url, true)] },
      some n)
  | none =>
    ({ w with calls := w.calls ++ [(Call.create parentId index title url, false)] }, none)

/-- `await chrome.bookmarks.update(id, changes)`; `false` when it rejects. -/
def bookmarksUpdate (w : World) (id : Nat) (title url : Option String) : World × Bool :=
  match w.tree.update id title url with
  | some t => ({ w with tree := t, calls := w.calls ++ [(Call.update id title url, true)] }, true)
  | none => ({ w with calls := w.calls ++ [(Call.update id title url, false)] }, false)

/-- `await chrome.bookmarks.move(id, {parentId, index?})`; `false` when it rejects. -/
def bookmarksMove (w : World) (id parentId : Nat) (index : Option Int) : World × Bool :=
  match w.tree.move id parentId index with
  | some t =>
    ({ w with tree := t, calls := w.calls ++ [(Call.move id parentId index, true)] }, true)
  | none => ({ w with calls := w.calls ++ [(Call.move id parentId index, false)] }, false)

/-- `await chrome.bookmarks.remove(id)`; `false` when it rejects. -/
def bookmarksRemove (w : World) (id : Nat) : World × Bool :=
  match w.tree.remove id with
  | some t => ({ w with tree := t, calls := w.calls ++ [(Call.remove id, true)] }, true)
  | none => ({ w with calls := w.calls ++ [(Call.remove id, false)] }, false)

/-- `await chrome.bookmarks.removeTree(id)`; `false` when it rejects. -/
def bookmarksRemoveTree (w : World) (id : Nat) : World × Bool :=
  match w.tree.removeTree id with
  | some t => ({ w with tree := t, calls := w.calls ++ [(Call.removeTree id, true)] }, true)
  | none => ({ w with calls := w.calls ++ [(Call.removeTree id, false)] }, false)

/-- `lookupLocalId(uid)`. -/
def lookupLocalId (st : Client) (uid : Option String) : Option Nat :=
  match nonEmpty? uid with
  | none => none
  | some u =>
    match dictGet st.bookmarkIndex.uidToLocal u with
    | some l => some l
    | none => dictGet ROOT_UID_TO_LOCAL u

/-- `setMapping(localId, uid)`. -/
def setMapping (st : Client) (localId : Nat) (uid : String) : Client :=
  { st with
    bookmarkIndex :=
      { localToUid := dictSet st.bookmarkIndex.localToUid localId uid
        uidToLocal := dictSet st.bookmarkIndex.uidToLocal uid localId }
    bookmarkIndexDirty := true }

/-- `removeMappingByLocal(localId)`. -/
def removeMappingByLocal (st : Client) (localId : Nat) : Client :=
  if localId ∈ ROOT_LOCAL_IDS then st
  else
    match nonEmpty? (dictGet st.bookmarkIndex.localToUid localId) with
    | none => st
    | some uid =>
      { st with
        bookmarkIndex :=
          { localToUid := dictDelete st.bookmarkIndex.localToUid localId
            uidToLocal := dictDelete st.bookmarkIndex.uidToLocal uid }
        bookmarkIndexDirty := true }

/-- A node object with its `children` array, as a subtree or a removal
notification carries it. -/
inductive NodeTree where
  | mk (id : Nat) (children : List NodeTree)
deriving Repr

/-- A node as `get` returns it has no `children` array. -/
def BNode.toNodeTree (n : BNode) : NodeTree := NodeTree.mk n.id []

mutual
/-- `dropTreeMapping(node)`. -/
def dropTreeMapping (st : Client) : NodeTree → Client
  | NodeTree.mk id children => dropTreeMappings (removeMappingByLocal st id) children
/-- The loop of `dropTreeMapping` over `node.children`. -/
def dropTreeMappings (st : Client) : List NodeTree → Client
  | [] => st
  | child :: rest => dropTreeMappings (dropTreeMapping st child) rest
end

/-- `persistBookmarkIndex()`: the flush clears the dirty flag. -/
def persistBookmarkIndex (st : Client) : Client :=
  if st.bookmarkIndexDirty then { st with bookmarkIndexDirty := false } else st

/-- `getNode(localId)`: the node, `none` (null) when `get` rejects. -/
def getNode (w : World) (localId : Nat) : World × Option BNode :=
  bookmarksGet w localId

/-- `Number.isFinite(index)` and `typeof index === "number"`: the number, if any. -/
def finiteIndex : JIndex → Option Int
  | JIndex.num n => some n
  | _ => none

/-- The test `op.type === "folder" || !op.url`. -/
def isFolderOp (op : RawOp) : Bool :=
  decide (op.type = some "folder") || !truthy op.url

/-- `maybeUpdateNode(localId, op, isFolder)`; a rejected update is caught. -/
def maybeUpdateNode (w : World) (localId : Nat) (op : RawOp) (isFolder : Bool) : World :=
  let title := op.title
  let url := if isFolder then none else op.url
  if title.isNone ∧ url.isNone then w else (bookmarksUpdate w localId title url).1

/-- `maybeMove(localId, parentId, index)`; a rejected get or move is caught. -/
def maybeMove (w : World) (localId parentId : Nat) (index : JIndex) : World :=
  match bookmarksGet w localId with
  | (w1, none) => w1
  | (w1, some node) =>
    let needsParent := decide (node.parentId ≠ some parentId)
    let needsIndex :=
      match finiteIndex index with
      | some i => decide (node.index ≠ i)
      | none => false
    if !needsParent ∧ !needsIndex then w1
    else (bookmarksMove w1 localId parentId (if needsIndex then finiteIndex index else none)).1

/-- The tail of `ensureConflictFolder()`: create the container under the
default root and cache its id; `none` when the creation is rejected (the
rejection is not caught). -/
def createConflictFolder (w : World) : World × Option Nat :=
  match bookmarksCreate w DEFAULT_ROOT_ID none CONFLICT_FOLDER_TITLE none with
  | (w2, none) => (w2, none)
  | (w2, some folder) =>
    ({ w2 with st := { w2.st with conflictFolderLocalId := some folder.id } }, some folder.id)

/-- `ensureConflictFolder()`: the local id of the conflict container, `none`
when it throws. A cached id is probed with `get`; a rejected probe is caught. -/
def ensureConflictFolder (w : World) : World × Option Nat :=
  match w.st.conflictFolderLocalId with
  | some id =>
    match bookmarksGet w id with
    | (w1, some _) => (w1, some id)
    | (w1, none) => createConflictFolder w1
  | none => createConflictFolder w

/-- `resolveParentLocalId(parentUid)`; `none` when `ensureConflictFolder` throws. -/
def resolveParentLocalId (w : World) (parentUid : Option String) : World × Option Nat :=
  if !truthy parentUid then (w, some DEFAULT_ROOT_ID)
  else
    match lookupLocalId w.st parentUid with
    | some l => (w, some l)
    | none => ensureConflictFolder w

/-- `applyCreate(op)`; the flag is false when it throws. -/
def applyCreate (w : World) (op : RawOp) : World × Bool :=
  let localId := lookupLocalId w.st op.uid
  let isFolder := isFolderOp op
  match resolveParentLocalId w op.parentUid with
  | (w1, none) => (w1, false)
  | (w1, some parentId) =>
    match localId with
    | some lid => (maybeMove (maybeUpdateNode w1 lid op isFolder) lid parentId op.index, true)
    | none =>
      let title := (nonEmpty? op.title).getD ""
      let url := if isFolder then none else nonEmpty? op.url
      match bookmarksCreate w1 parentId (finiteIndex op.index) title url with
      | (w2, some created) =>
        ({ w2 with st := persistBookmarkIndex (setMapping w2.st created.id (op.uid.getD "")) },
          true)
      | (w2, none) => (w2, true)

/-- `applyUpdate(op)`. -/
def applyUpdate (w : World) (op : RawOp) : World :=
  match lookupLocalId w.st op.uid with
  | none => w
  | some lid => maybeUpdateNode w lid op (isFolderOp op)

/-- `applyMove(op)`; the flag is false when it throws. -/
def applyMove (w : World) (op : RawOp) : World × Bool :=
  match lookupLocalId w.st op.uid with
  | none => (w, true)
  | some lid =>
    match resolveParentLocalId w op.parentUid with
    | (w1, none) => (w1, false)
    | (w1, some parentId) => (maybeMove w1 lid parentId op.index, true)

/-- `applyRemove(op)`; a rejected removal is caught. -/
def applyRemove (w : World) (op : RawOp) : World :=
  match lookupLocalId w.st op.uid with
  | none => w
  | some lid =>
    match getNode w lid with
    | (w1, none) => w1
    | (w1, some node) =>
      let r := if truthy node.url then bookmarksRemove w1 lid else bookmarksRemoveTree w1 lid
      if r.2 then
        { r.1 with st := persistBookmarkIndex (dropTreeMapping r.1.st node.toNodeTree) }
      else r.1

/-- `withReplay(fn)`: the replay depth is raised around `fn` and restored in
the `finally`, also when `fn` throws (flag false). -/
def withReplay (w : World) (fn : World → World × Bool) : World × Bool :=
  let r := fn { w with st := { w.st with replayDepth := w.st.replayDepth + 1 } }
  ({ r.1 with st := { r.1.st with replayDepth := r.1.st.replayDepth - 1 } }, r.2)

/-- The `switch (op.op)` that `applyOp` runs inside `withReplay`. -/
def applyKind (w : World) (op : RawOp) : World × Bool :=
  if op.op = some "create" then applyCreate w op
  else if op.op = some "update" then (applyUpdate w op, true)
  else if op.op = some "move" then applyMove w op
  else if op.op = some "remove" then (applyRemove w op, true)
  else (w, true)

/-- `applyOp(op)` for an `op` that is an object; the flag is false when it throws. -/
def applyOp (w : World) (op : RawOp) : World × Bool :=
  if !truthy op.uid || !truthy op.op then (w, true)
  else if truthy op.deviceId && decide (op.deviceId = w.st.deviceId) then (w, true)
  else withReplay w (fun w1 => applyKind w1 op)

/-- The parsed body of a pull response as the client reads it: `data.ops`, and
`data.latest` when it is a finite number. -/
structure PullData where
  ops : List Op
  latest : Option Int
deriving DecidableEq, Repr

/-- The parsed body of a push response as the client reads it: `data.newVersion`
when it is a finite number. -/
structure PushData where
  newVersion : Option Int
deriving DecidableEq, Repr

/-- How a sync cycle ended. -/
inductive Outcome where
  | skipped
  | completed
  | transportFailure
  | applyFailure
deriving DecidableEq, Repr

/-- The page size of `pullOps`: `Math.max(50, Number(pullPageSize) || 200)`. -/
def pageSizeOf (s : Settings) : Int :=
  max 50 (match s.pullPageSize with
    | some n => if n = 0 then 200 else n
    | none => 200)

/-- The assignment `state.lastVersion = data.latest` under its `isFinite` guard. -/
def adoptVersion (w : World) (v : Option Int) : World :=
  match v with
  | some n => { w with st := { w.st with lastVersion := n } }
  | none => w

/-- The loop `for (const op of ops) await applyOp(op)`: the world, the entries
handed to `applyOp` in order, and whether no call threw. -/
def applyPage : World → List Op → World × List Op × Bool
  | w, [] => (w, [], true)
  | w, o :: rest =>
    match applyOp w o.toRaw with
    | (w1, false) => (w1, [o], false)
    | (w1, true) =>
      let r := applyPage w1 rest
      (r.1, o :: r.2.1, r.2.2)

/-- The `while (true)` loop of `pullOps`, run for at most `fuel` requests
against a remote in state `σ`; `fetch` answers one request (`none`: network
error or a status that is not ok). Returns the remote, the world, the entries
handed to `applyOp`, and how the loop ended; `none` when the fuel ran out. -/
def pullLoop {σ : Type} (fetch : σ → Int → Int → σ × Option PullData) (pageSize : Int) :
    Nat → σ → World → List Op → Option (σ × World × List Op × Outcome)
  | 0, _, _, _ => none
  | fuel + 1, remote, w, trace =>
    match fetch remote w.st.lastVersion pageSize with
    | (remote1, none) => some (remote1, w, trace, Outcome.transportFailure)
    | (remote1, some data) =>
      if data.ops.isEmpty then
        some (remote1, adoptVersion w data.latest, trace, Outcome.completed)
      else
        let r := applyPage w data.ops
        if r.2.2 = false then some (remote1, r.1, trace ++ r.2.1, Outcome.applyFailure)
        else if (data.ops.length : Int) < pageSize then
          some (remote1, adoptVersion r.1 data.latest, trace ++ r.2.1, Outcome.completed)
        else pullLoop fetch pageSize fuel remote1 (adoptVersion r.1 data.latest) (trace ++ r.2.1)

/-- `pullOps()`. -/
def pullOps {σ : Type} (fetch : σ → Int → Int → σ × Option PullData) (fuel : Nat)
    (remote : σ) (w : World) : Option (σ × World × List Op × Outcome) :=
  if w.st.pullInFlight then some (remote, w, [], Outcome.skipped)
  else
    match pullLoop fetch (pageSizeOf w.st.settings) fuel remote
        { w with st := { w.st with pullInFlight := true } } [] with
    | none => none
    | some (remote1, w1, trace, out) =>
      some (remote1, { w1 with st := { w1.st with pullInFlight := false } }, trace, out)

/-- `pushOps()`, against a remote in state `σ`; `post` answers the request
(`none`: network error or a status that is not ok) and `enqueued` are the
operations the listeners queue while the request is in flight. -/
def pushOps {σ : Type} (post : σ → Int → List RawOp → σ × Option PushData)
    (enqueued : List RawOp) (remote : σ) (w : World) : σ × World × Outcome :=
  if w.st.pushInFlight then (remote, w, Outcome.skipped)
  else if w.st.opQueue.isEmpty then (remote, w, Outcome.skipped)
  else
    let batch := w.st.opQueue
    match post remote w.st.lastVersion batch with
    | (remote1, none) =>
      (remote1,
        { w with st := { w.st with opQueue := w.st.opQueue ++ enqueued, pushInFlight := false } },
        Outcome.transportFailure)
    | (remote1, some data) =>
      (remote1,
        { w with
          st :=
            { w.st with
              opQueue := (w.st.opQueue ++ enqueued).drop batch.length
              lastVersion := data.newVersion.getD w.st.lastVersion
              pushInFlight := false } },
        Outcome.completed)

/-- The server answering the client's pull requests. -/
def serverFetch (cfg : Config) (s : Server) (after limit : Int) : Server × Option PullData :=
  (s, some
    { ops := (pull cfg s (some after) (some limit)).ops
      latest := some (pull cfg s (some after) (some limit)).latest })

/-- The server answering an authorised push request of the client. -/
def serverPost (cfg : Config) (h : Host) (s : Server) (_after : Int) (ops : List RawOp) :
    Server × Option PushData :=
  ((push cfg h s (ops.map some)).1,
    some { newVersion := some (push cfg h s (ops.map some)).2.newVersion })

/-- `enqueueOp(op)`: the operation goes to the end of the queue. -/
def enqueueOp (st : Client) (op : RawOp) : Client :=
  { st with opQueue := st.opQueue ++ [op] }

/-- `ensureUid(localId)`: the state after the call and the returned UID
(`none` is null). A falsy `localId` is `none`; `mint` is what
`crypto.randomUUID()` returns if the call reaches it. -/
def ensureUid (st : Client) (mint : String) : Option Nat → Client × Option String
  | none => (st, none)
  | some key =>
    match dictGet ROOT_UID_OVERRIDES key with
    | some fixed =>
      if dictGet st.bookmarkIndex.uidToLocal fixed ≠ some key then
        ({ st with
           bookmarkIndex :=
             { localToUid := dictSet st.bookmarkIndex.localToUid key fixed
               uidToLocal := dictSet st.bookmarkIndex.uidToLocal fixed key }
           bookmarkIndexDirty := true }, some fixed)
      else (st, some fixed)
    | none =>
      match nonEmpty? (dictGet st.bookmarkIndex.localToUid key) with
      | some uid => (st, some uid)
      | none => (setMapping st key mint, some mint)

mutual
/-- The local ids occurring in a node tree, in the order `dropTreeMapping`
visits them. -/
def NodeTree.ids : NodeTree → List Nat
  | NodeTree.mk id children => id :: NodeTree.idsOfList children
/-- The local ids occurring in a list of node trees. -/
def NodeTree.idsOfList : List NodeTree → List Nat
  | [] => []
  | child :: rest => NodeTree.ids child ++ NodeTree.idsOfList rest
end

/-- The two dictionaries of an identity map are inverse of each other. -/
def Inverse (ix : BookmarkIndex) : Prop :=
  ∀ l u, dictGet ix.localToUid l = some u ↔ dictGet ix.uidToLocal u = some l

/-- No local id is mapped to the empty string. -/
def UidsNonEmpty (ix : BookmarkIndex) : Prop :=
  ∀ l u, dictGet ix.localToUid l = some u → u ≠ ""

/-- A root local id is mapped to nothing but its well-known UID, and a
well-known UID to nothing but its root local id. -/
def RootsFixed (ix : BookmarkIndex) : Prop :=
  ∀ l f, dictGet ROOT_UID_OVERRIDES l = some f →
    (∀ u, dictGet ix.localToUid l = some u → u = f)
      ∧ (∀ l2, dictGet ix.uidToLocal f = some l2 → l2 = l)

/-- The invariant of the identity map: the dictionaries are inverse, no UID
is empty, and the roots keep their well-known UIDs. -/
def IndexInv (ix : BookmarkIndex) : Prop :=
  Inverse ix ∧ UidsNonEmpty ix ∧ RootsFixed ix

/-- One change to the identity map: a call of `ensureUid` (with the value
`crypto.randomUUID()` would return), of `removeMappingByLocal`, of
`dropTreeMapping`, or the recording of a created node by `applyCreate`. -/
inductive IndexStep where
  | ensure (localId : Nat) (mint : String)
  | remove (localId : Nat)
  | dropTree (t : NodeTree)
  | record (localId : Nat) (uid : String)

/-- The state after one change to the identity map; `record` is the
`setMapping(created.id, op.uid)` and flush of `applyCreate`. -/
def indexStep (st : Client) : IndexStep → Client
  | IndexStep.ensure l mint => (ensureUid st mint (some l)).1
  | IndexStep.remove l => removeMappingByLocal st l
  | IndexStep.dropTree t => dropTreeMapping st t
  | IndexStep.record l u => persistBookmarkIndex (setMapping st l u)

/-- What the host guarantees for a step: a minted UID is fresh (not empty and
resolving to nothing), and `applyCreate` records a non-empty UID that resolves
to nothing (its own test) for a local id the tree has just handed out (not a
root, not in the map). -/
def IndexStep.admissible (st : Client) : IndexStep → Prop
  | IndexStep.ensure _ mint => mint ≠ "" ∧ lookupLocalId st (some mint) = none
  | IndexStep.remove _ => True
  | IndexStep.dropTree _ => True
  | IndexStep.record l u =>
    u ≠ "" ∧ lookupLocalId st (some u) = none ∧ l ∉ ROOT_LOCAL_IDS
      ∧ dictGet st.bookmarkIndex.localToUid l = none

/-- The state after a sequence of changes to the identity map. -/
def indexRun (st : Client) : List IndexStep → Client
  | [] => st
  | a :: rest => indexRun (indexStep st a) rest

/-- Every step of the sequence is admissible in the state it is taken in. -/
def indexAdmissible (st : Client) : List IndexStep → Prop
  | [] => True
  | a :: rest => a.admissible st ∧ indexAdmissible (indexStep st a) rest

instance (st : Client) (a : IndexStep) : Decidable (a.admissible st) := by
  cases a <;> unfold IndexStep.admissible <;> infer_instance

/-- Admissibility of a sequence of steps can be computed. -/
instance indexAdmissibleDecidable :
    (st : Client) → (steps : List IndexStep) → Decidable (indexAdmissible st steps)
  | _, [] => isTrue trivial
  | st, a :: rest => by
    unfold indexAdmissible
    exact @instDecidableAnd _ _ _ (indexAdmissibleDecidable (indexStep st a) rest)

/-! ## Snapshots (`/v1/snapshot` in `src/server/server.js`, `hydrateFromSnapshot` in `src/extension/sw.js`) -/

/-- A property of a JSON object: missing, `null`, or a value. -/
inductive JField (α : Type) where
  | undefined
  | null
  | val (a : α)
deriving DecidableEq, Repr

/-- A node of a snapshot, as `hydrateFromSnapshot` reads it. -/
structure SnapNode where
  uid : Option String := none
  parentUid : Option String := none
  index : JIndex := JIndex.undefined
  title : Option String := none
  url : Option String := none
  type : Option String := none
  mtime : Option Int := none
deriving DecidableEq, Repr

/-- The `data` of a snapshot as far as the code looks into it: an object whose
`nodes` property is an array of nodes, or any other JSON value, given by its
text. -/
inductive SnapData where
  | withNodes (nodes : List SnapNode)
  | other (json : String)
deriving DecidableEq, Repr

/-- The object kept in `state.snapshot`; a `data` of null is `none`. -/
structure Snapshot where
  version : Int
  takenAt : String
  data : Option SnapData
deriving DecidableEq, Repr

/-- The body of a `PUT /v1/snapshot` request when it is an object: the
properties the handler reads, and the body itself as a value (`self`). -/
structure SnapshotPayload where
  data : JField SnapData := JField.undefined
  payload : JField SnapData := JField.undefined
  nodes : JField SnapData := JField.undefined
  self : SnapData := SnapData.other ""
  version : JField Int := JField.undefined
  takenAt : Option String := none
deriving DecidableEq, Repr

/-- The whole `state` of the server: the log with its version counter and
dedup set, and the snapshot (`none` is null). -/
structure Store where
  log : Server := Server.empty
  snapshot : Option Snapshot := none
deriving DecidableEq, Repr

/-- What `PUT /v1/snapshot` answers: `{ ok: true, version }` or status 400. -/
inductive PutResponse where
  | ok (version : Int)
  | invalid
deriving DecidableEq, Repr

/-- The left-to-right chain `a ?? b`: the first operand unless it is null or
undefined. -/
def JField.orElse {α : Type} (a : JField α) (b : α) : α :=
  match a with
  | JField.val x => x
  | _ => b

/-- The handler of `PUT /v1/snapshot` for an authorised request; the body is
`none` when it is not an object, and `now` is `new Date().toISOString()`.
`Number(payload.version)` is the number itself, 0 for null, and not finite
for a missing property. -/
def putSnapshot (now : String) (st : Store) : Option SnapshotPayload → Store × PutResponse
  | none => (st, PutResponse.invalid)
  | some payload =>
    let snapshotData : Option SnapData :=
      match payload.data with
      | JField.null => none
      | JField.val d => some d
      | JField.undefined => some (payload.payload.orElse (payload.nodes.orElse payload.self))
    let version : Int :=
      match payload.version with
      | JField.val n => n
      | JField.null => 0
      | JField.undefined => st.log.version
    ({ st with
       snapshot := some
         { version := version
           takenAt := (nonEmpty? payload.takenAt).getD now
           data := snapshotData } },
      PutResponse.ok version)

/-- The handler of `GET /v1/snapshot`: the snapshot, `none` for status 404. -/
def getSnapshot (st : Store) : Option Snapshot := st.snapshot

/-- The create operation `hydrateFromSnapshot` synthesizes for a snapshot
node; `now` is `Date.now()`. -/
def snapshotOp (now : Int) (node : SnapNode) : RawOp :=
  { op := some "create"
    uid := node.uid
    parentUid := node.parentUid
    index := match node.index with
      | JIndex.undefined => JIndex.null
      | i => i
    title := node.title
    url := node.url
    type := some ((nonEmpty? node.type).getD (if truthy node.url then "bookmark" else "folder"))
    deviceId := some "snapshot"
    ts := some (match node.mtime with
      | some t => if t = 0 then now else t
      | none => now) }

/-- The `while (pending.length && iterations < maxIterations)` loop of
`hydrateFromSnapshot`, with `fuel` iterations left: the world, the nodes still
pending, the operations handed to `applyOp` in order, and whether no call
threw. -/
def hydrateLoop (now : Int) : Nat → World → List SnapNode → World × List SnapNode × List RawOp × Bool
  | 0, w, pending => (w, pending, [], true)
  | _ + 1, w, [] => (w, [], [], true)
  | fuel + 1, w, node :: rest =>
    if !truthy node.parentUid || (lookupLocalId w.st node.parentUid).isSome then
      match applyOp w (snapshotOp now node) with
      | (w1, false) => (w1, rest, [snapshotOp now node], false)
      | (w1, true) =>
        let r := hydrateLoop now fuel w1 rest
        (r.1, r.2.1, snapshotOp now node :: r.2.2.1, r.2.2.2)
    else hydrateLoop now fuel w (rest ++ [node])

/-- The loop of `hydrateFromSnapshot` once more, keeping what its bound and
its guard are about: the number of iterations it runs and, for every call of
`applyOp` it makes, the world the call is made in and the node. -/
def hydrateLoopTrace (now : Int) : Nat → World → List SnapNode → Nat × List (World × SnapNode)
  | 0, _, _ => (0, [])
  | _ + 1, _, [] => (0, [])
  | fuel + 1, w, node :: rest =>
    if !truthy node.parentUid || (lookupLocalId w.st node.parentUid).isSome then
      match applyOp w (snapshotOp now node) with
      | (_, false) => (1, [(w, node)])
      | (w1, true) =>
        let r := hydrateLoopTrace now fuel w1 rest
        (r.1 + 1, (w, node) :: r.2)
    else
      let r := hydrateLoopTrace now fuel w (rest ++ [node])
      (r.1 + 1, r.2)

/-- The loop `for (const node of pending)` that applies what the first loop
left pending: the world, the operations handed to `applyOp`, and whether no
call threw. -/
def hydrateRest (now : Int) : World → List SnapNode → World × List RawOp × Bool
  | w, [] => (w, [], true)
  | w, node :: rest =>
    match applyOp w (snapshotOp now node) with
    | (w1, false) => (w1, [snapshotOp now node], false)
    | (w1, true) =>
      let r := hydrateRest now w1 rest
      (r.1, snapshotOp now node :: r.2.1, r.2.2)

/-- `hydrateFromSnapshot()`, given what `fetchSnapshot()` returned (`none` is
null: status 404 or a failed request): the world and the operations handed to
`applyOp`. A throwing `applyOp` ends the function in its `catch`. The version
of a snapshot the server stored is a finite number. -/
def hydrateFromSnapshot (now : Int) (snapshot : Option Snapshot) (w : World) :
    World × List RawOp :=
  match snapshot with
  | none => (w, [])
  | some snap =>
    match snap.data with
    | some (SnapData.withNodes nodes) =>
      let r := hydrateLoop now (nodes.length * 3) w nodes
      if r.2.2.2 = false then (r.1, r.2.2.1)
      else
        let f := hydrateRest now r.1 r.2.1
        if f.2.2 = false then (f.1, r.2.2.1 ++ f.2.1)
        else
          ({ f.1 with
             st := { f.1.st with lastVersion := snap.version, snapshotHydrated := true } },
            r.2.2.1 ++ f.2.1)
    | _ => (w, [])

/-- The call of `hydrateFromSnapshot` in `initialize`, under its guard
`!state.snapshotHydrated && state.lastVersion === 0`. -/
def initHydrate (now : Int) (snapshot : Option Snapshot) (w : World) : World :=
  if !w.st.snapshotHydrated && decide (w.st.lastVersion = 0) then
    (hydrateFromSnapshot now snapshot w).1
  else w

/-- The fields of the client state that the apply engine never assigns. -/
def Client.driver (st : Client) :
    Bool × Settings × List RawOp × Int × Option String × Bool × Bool × Bool :=
  (st.initialized, st.settings, st.opQueue, st.lastVersion, st.deviceId, st.pushInFlight,
    st.pullInFlight, st.snapshotHydrated)

/-! ## A client running against the server -/

/-- The server and one client. -/
structure Sys where
  store : Store
  client : World

/-- One step of a run: another device's push reaches the server, a snapshot is
stored through `PUT /v1/snapshot`, a listener enqueues a local change, or the
client runs its guarded `hydrateFromSnapshot`, `pushOps` or `pullOps`;
`online` tells whether the client's requests reach the server. -/
inductive Action where
  | remotePush (h : Host) (batch : List (Option RawOp))
  | storeSnapshot (now : String) (body : Option SnapshotPayload)
  | enqueue (op : RawOp)
  | hydrate (now : Int) (online : Bool)
  | push (h : Host) (enqueued : List RawOp) (online : Bool)
  | pull (fuel : Nat) (online : Bool)

/-- The system after one step; `none` when a pull runs out of fuel. -/
def sysStep (cfg : Config) (sys : Sys) : Action → Option Sys
  | Action.remotePush h batch =>
    some { sys with store := { sys.store with log := (push cfg h sys.store.log batch).1 } }
  | Action.storeSnapshot now body =>
    some { sys with store := (putSnapshot now sys.store body).1 }
  | Action.enqueue op =>
    some { sys with client := { sys.client with st := enqueueOp sys.client.st op } }
  | Action.hydrate now online =>
    some { sys with
           client := initHydrate now (if online then getSnapshot sys.store else none) sys.client }
  | Action.push h enqueued online =>
    let r := pushOps (if online then serverPost cfg h else fun s _ _ => (s, none)) enqueued
      sys.store.log sys.client
    some { store := { sys.store with log := r.1 }, client := r.2.1 }
  | Action.pull fuel online =>
    match pullOps (if online then serverFetch cfg else fun s _ _ => (s, none)) fuel
        sys.store.log sys.client with
    | none => none
    | some r => some { store := { sys.store with log := r.1 }, client := r.2.1 }

/-- The states a run visits after each of its steps, up to a pull that runs
out of fuel. -/
def sysRun (cfg : Config) : Sys → List Action → List Sys
  | _, [] => []
  | sys, a :: rest =>
    match sysStep cfg sys a with
    | none => []
    | some sys1 => sys1 :: sysRun cfg sys1 rest

/-- A snapshot is stored with a version between 0 and the log's version
counter, unless none is given. -/
def Action.versionOk (sys : Sys) : Action → Prop
  | Action.storeSnapshot _ (some payload) =>
    match payload.version with
    | JField.val n => 0 ≤ n ∧ n ≤ sys.store.log.version
    | _ => True
  | _ => True

instance (sys : Sys) (a : Action) : Decidable (a.versionOk sys) := by
  unfold Action.versionOk
  split
  · split <;> infer_instance
  · infer_instance

/-- Every snapshot of the run is stored with such a version. -/
def versionsOk (cfg : Config) : Sys → List Action → Prop
  | _, [] => True
  | sys, a :: rest =>
    a.versionOk sys ∧
      match sysStep cfg sys a with
      | none => True
      | some sys1 => versionsOk cfg sys1 rest

/-- Whether every snapshot of a run is stored with such a version can be
computed. -/
instance versionsOkDecidable (cfg : Config) :
    (sys : Sys) → (actions : List Action) → Decidable (versionsOk cfg sys actions)
  | _, [] => isTrue trivial
  | sys, a :: rest =>
    match h : sysStep cfg sys a with
    | none =>
      decidable_of_iff (a.versionOk sys) (by unfold versionsOk; rw [h]; simp)
    | some sys1 =>
      have := versionsOkDecidable cfg sys1 rest
      decidable_of_iff (a.versionOk sys ∧ versionsOk cfg sys1 rest)
        (by conv_rhs => unfold versionsOk
            rw [h])

/-- A pull of the run is given fuel for at least two requests. -/
def Action.fuelOk : Action → Prop
  | Action.pull fuel _ => 2 ≤ fuel
  | _ => True

/-- The invariant of a run: the version counter is not negative, bounds the
client's cursor, the version of the stored snapshot and the version of every
log entry. -/
structure SysInv (sys : Sys) : Prop where
  counter_nonneg : 0 ≤ sys.store.log.version
  cursor_le : sys.client.st.lastVersion ≤ sys.store.log.version
  snapshot_le : ∀ snap, sys.store.snapshot = some snap →
    0 ≤ snap.version ∧ snap.version ≤ sys.store.log.version
  entries_le : ∀ o ∈ sys.store.log.ops, o.version ≤ sys.store.log.version

/-! ## Local changes: the listeners and `initialize` (`src/extension/sw.js`) -/

/-- What a handler draws from the host: the values `crypto.randomUUID()`
returns for the node, for its parent and for the operation, each if it is
asked for, and `Date.now()`. -/
structure Draws where
  nodeUid : String
  parentUid : String
  opId : String
  now : Int
deriving DecidableEq, Repr

/-- The properties of its `payload` that `buildOp` reads. -/
structure OpPayload where
  uid : Option String
  parentUid : Option String := none
  index : JIndex := JIndex.undefined
  title : Option String := none
  url : Option String := none
  type : Option String := none
deriving DecidableEq, Repr

/-- `buildOp(kind, payload)`. -/
def buildOp (st : Client) (d : Draws) (kind : String) (payload : OpPayload) : RawOp :=
  { op := some kind
    uid := payload.uid
    parentUid := payload.parentUid
    index := match payload.index with
      | JIndex.num n => JIndex.num n
      | _ => JIndex.null
    title := payload.title
    url := payload.url
    type := some ((nonEmpty? payload.type).getD
      (if truthy payload.url then "bookmark" else "folder"))
    ts := some d.now
    deviceId := st.deviceId
    opId := some d.opId }

/-- The expression `parentId ? ensureUid(parentId) : null` of the handlers. -/
def ensureParentUid (st : Client) (d : Draws) : Option Nat → Client × Option String
  | some p => ensureUid st d.parentUid (some p)
  | none => (st, none)

/-- `handleCreated(localId, node)`. -/
def handleCreated (d : Draws) (w : World) (localId : Nat) (node : BNode) : World :=
  let r1 := ensureUid w.st d.nodeUid (some localId)
  let r2 := ensureParentUid r1.1 d node.parentId
  let op := buildOp r2.1 d "create"
    { uid := r1.2, parentUid := r2.2, index := JIndex.num node.index, title := some node.title
      url := node.url, type := some (if truthy node.url then "bookmark" else "folder") }
  { w with st := persistBookmarkIndex (enqueueOp r2.1 op) }

/-- `handleChanged(localId, changeInfo)`, `changeInfo` holding `title` and `url`. -/
def handleChanged (d : Draws) (w : World) (localId : Nat) (title url : Option String) : World :=
  let r1 := ensureUid w.st d.nodeUid (some localId)
  let g := getNode { w with st := r1.1 } localId
  let r2 := ensureParentUid g.1.st d (g.2.bind (fun n => n.parentId))
  let op := buildOp r2.1 d "update"
    { uid := r1.2, parentUid := r2.2
      title := if title.isSome then title else g.2.map (fun n => n.title)
      url := if url.isSome then url else g.2.bind (fun n => n.url)
      type := some (if truthy (g.2.bind (fun n => n.url)) then "bookmark" else "folder") }
  { g.1 with st := enqueueOp r2.1 op }

/-- The `node` of a removal notification: the removed subtree, its title and
url, and whether it has a `children` array. -/
structure RemovedNode where
  tree : NodeTree
  title : Option String
  url : Option String
  hasChildren : Bool

/-- `handleRemoved(localId, removeInfo)`, `removeInfo` holding `parentId` and `node`. -/
def handleRemoved (d : Draws) (w : World) (localId : Nat) (parentId : Option Nat)
    (node : Option RemovedNode) : World :=
  let r1 := ensureUid w.st d.nodeUid (some localId)
  let r2 := ensureParentUid r1.1 d parentId
  let op := buildOp r2.1 d "remove"
    { uid := r1.2, parentUid := r2.2
      title := node.bind (fun n => n.title)
      url := node.bind (fun n => n.url)
      type := some (if (node.map (fun n => n.hasChildren)).getD false then "folder"
        else "bookmark") }
  let st3 := dropTreeMapping r2.1 ((node.map (fun n => n.tree)).getD (NodeTree.mk localId []))
  { w with st := enqueueOp (persistBookmarkIndex st3) op }

/-- `handleMoved(localId, moveInfo)`, `moveInfo` holding `parentId` and `index`. -/
def handleMoved (d : Draws) (w : World) (localId : Nat) (parentId : Option Nat)
    (index : Int) : World :=
  let r1 := ensureUid w.st d.nodeUid (some localId)
  let r2 := ensureParentUid r1.1 d parentId
  let op := buildOp r2.1 d "move" { uid := r1.2, parentUid := r2.2, index := JIndex.num index }
  { w with st := enqueueOp r2.1 op }

/-- A notification of `chrome.bookmarks`: `onCreated`, `onChanged`,
`onRemoved` or `onMoved`, with what it carries. -/
inductive Notification where
  | created (id : Nat) (node : BNode)
  | changed (id : Nat) (title url : Option String)
  | removed (id : Nat) (parentId : Option Nat) (node : Option RemovedNode)
  | moved (id : Nat) (parentId : Option Nat) (index : Int)

/-- The handler a listener calls for a notification. -/
def handle (d : Draws) (w : World) : Notification → World
  | Notification.created id node => handleCreated d w id node
  | Notification.changed id title url => handleChanged d w id title url
  | Notification.removed id parentId node => handleRemoved d w id parentId node
  | Notification.moved id parentId index => handleMoved d w id parentId index

/-- The task a `chrome.bookmarks.on*` listener starts for a notification
raised while the state was `w`. Its `await ensureInit()` lets the task go on
in `w` when the state is initialised; while `initialize` is still running,
the task goes on in the state `settled` that `initialize` ends in. Then comes
the guard on `replayDepth`, then the handler. -/
def listener (d : Draws) (settled : World) (w : World) (n : Notification) : World :=
  let w1 := if w.st.initialized then w else settled
  if w1.st.replayDepth > 0 then w1 else handle d w1 n

/-- What `initialize` reads from `chrome.storage.local`; a key that is not
stored is `none`. -/
structure LocalData where
  opQueue : Option (List RawOp) := none
  lastVersion : Option Int := none
  bookmarkIndex : Option BookmarkIndex := none
  deviceId : Option String := none
  conflictFolderLocalId : Option Nat := none
deriving DecidableEq, Repr

/-- The `while (stack.length)` loop of `bootstrapTree()`, for at most `fuel`
nodes; the stack has its top first, and `mint l` is what
`crypto.randomUUID()` returns when `ensureUid(l)` asks for it. -/
def bootstrapLoop (mint : Nat → String) (t : Tree) : Nat → List Nat → Client → Client
  | 0, _, st => st
  | _ + 1, [], st => st
  | fuel + 1, id :: stack, st =>
    bootstrapLoop mint t fuel (((t.children id).map (fun n => n.id)).reverse ++ stack)
      (ensureUid st (mint id) (some id)).1

/-- `bootstrapTree()`: `ensureUid` for every node below the root. -/
def bootstrapTree (mint : Nat → String) (w : World) : World :=
  match w.tree.nodes.find? (fun n => n.parentId.isNone) with
  | none => w
  | some root =>
    { w with
      st := persistBookmarkIndex
        (bootstrapLoop mint w.tree w.tree.nodes.length
          ((w.tree.children root.id).map (fun n => n.id)).reverse w.st) }

/-- The first part of `initialize()`, for a state that is not initialised:
the state is loaded from storage (`deviceMint` is the UUID drawn when no
device id is stored) and `bootstrapTree()` runs. -/
def initLoad (mint : Nat → String) (deviceMint : String) (syncSettings : Option Settings)
    (localData : LocalData) (w : World) : World :=
  bootstrapTree mint
    { w with
      st :=
        { w.st with
          settings := syncSettings.getD {}
          opQueue := localData.opQueue.getD []
          lastVersion := localData.lastVersion.getD 0
          bookmarkIndex := localData.bookmarkIndex.getD {}
          deviceId := some ((nonEmpty? localData.deviceId).getD deviceMint)
          conflictFolderLocalId := localData.conflictFolderLocalId } }

/-- The function `initialize()` of the service worker; `snapshot` is what
`fetchSnapshot()` returns if it is called. -/
def initializeWorker (mint : Nat → String) (deviceMint : String) (now : Int)
    (syncSettings : Option Settings) (localData : LocalData) (snapshot : Option Snapshot)
    (w : World) : World :=
  if w.st.initialized then w
  else
    let w2 := initHydrate now snapshot (initLoad mint deviceMint syncSettings localData w)
    { w2 with st := { w2.st with initialized := true } }

/-- Whether every node of the list names as parent nothing, one of the UIDs
`known`, or the UID of a node earlier in the list. -/
def parentsFirst : List String → List SnapNode → Bool
  | _, [] => true
  | known, x :: rest =>
    (!truthy x.parentUid || known.any (fun k => decide (x.parentUid = some k)))
      && parentsFirst (x.uid.getD "" :: known) rest


/-! ## Sample data for the concrete checks -/

/-- A sample tree: the root, the bookmarks bar (id 1) and the other-bookmarks
folder (id 2). -/
def sampleTree : Tree :=
  { nodes := [{ id := 0, parentId := none, title := "", url := none },
              { id := 1, parentId := some 0, title := "Bookmarks bar", url := none },
              { id := 2, parentId := some 0, title := "Other bookmarks", url := none }]
    nextId := 3 }

/-- A sample client: device "B", initialised, nothing queued, cursor 0, page
size `pageSize`, on the sample tree. -/
def sampleWorld (pageSize : Int) : World :=
  { st := { initialized := true, deviceId := some "B"
            settings := { pullPageSize := some pageSize } }
    tree := sampleTree }

/-- A sample server log: `n` entries sent by device "A", versions `1 .. n`. -/
def sampleEntries (n : Nat) : List Op :=
  (List.range n).map (fun (i : Nat) =>
    { op := "update", uid := "u", parentUid := none, index := none, title := some "t"
      url := none, ts := 1, deviceId := some "A", opId := "id", version := (i : Int) + 1 })

/-- A sample operation whose parent is unknown to the sample client. -/
def sampleOrphan (kind uid : String) : RawOp :=
  { op := some kind, uid := some uid, parentUid := some "missing", index := JIndex.num 0
    title := some "Node", url := some "https://example.com", deviceId := some "A"
    opId := some "x" }

/-- Sample changes to the identity map: the bookmarks bar and the local ids 5
and 6 get their UIDs from `ensureUid`, local id 7 from `applyCreate`. -/
def sampleIndexSteps : List IndexStep :=
  [IndexStep.ensure 1 "r", IndexStep.ensure 5 "u5", IndexStep.ensure 6 "u6",
    IndexStep.record 7 "u7"]

/-- A sample client whose identity map holds the bookmarks bar and the local
ids 5, 6 and 7. -/
def sampleMapped : Client := indexRun {} sampleIndexSteps

/-- A sample node tree: node 5 with the children 6 and 1. -/
def sampleSubtree : NodeTree :=
  NodeTree.mk 5 [NodeTree.mk 6 [], NodeTree.mk 1 []]

/-- A sample operation as `handleChanged` builds it for a bookmark under the
bookmarks bar: `buildOp` sets `index` to null and `type` to "bookmark". -/
def sampleUpdate : RawOp :=
  { op := some "update", uid := some "n", parentUid := some "root-bookmarks-bar"
    index := JIndex.null, title := some "Title", url := some "https://example.com"
    type := some "bookmark", ts := some 5, deviceId := some "B", opId := some "x" }

/-- A sample server: the sample log with its counter at 2, no snapshot. -/
def sampleStore : Store :=
  { log := { version := 2, ops := sampleLog, opLookup := ["a", "b"] } }

/-- A sample system: the sample server and the sample client (cursor 0). -/
def sampleSys : Sys := { store := sampleStore, client := sampleWorld 200 }

/-- A sample snapshot body with one folder under the bookmarks bar. -/
def sampleBody (version : Int) : SnapshotPayload :=
  { data := JField.val (SnapData.withNodes
      [{ uid := some "f", parentUid := some "root-bookmarks-bar", title := some "Folder"
         type := some "folder", index := JIndex.num 0 }])
    version := JField.val version }

/-- A sample run: a snapshot with version `v` is stored, the client hydrates
from it, another device pushes an operation, the client enqueues a change of
its own, pushes and pulls. -/
def sampleRun (v : Int) : List Action :=
  [Action.storeSnapshot "now" (some (sampleBody v)), Action.hydrate 0 true,
    Action.remotePush sampleHost [some (sampleRaw "w" "c" "A")],
    Action.enqueue (sampleRaw "x" "d" "B"), Action.push sampleHost [] true,
    Action.pull 3 true]

/-- A sample server whose log holds 51 entries sent by device "A": fifty
updates (versions 1 .. 50) and the creation of the bookmark "n" under the
bookmarks bar (version 51). -/
def sampleLongLog : Server :=
  { version := 51
    ops := sampleEntries 50 ++
      [{ op := "create", uid := "n", parentUid := some "root-bookmarks-bar", index := some 0
         title := some "Node", url := some "https://example.com", ts := 1
         deviceId := some "A", opId := "c", version := 51 }]
    opLookup := ["id", "c"] }

/-- A second sample client: device "C", like the sample client "B" but for the
device id. -/
def sampleWorldC (pageSize : Int) : World :=
  { sampleWorld pageSize with st := { (sampleWorld pageSize).st with deviceId := some "C" } }

/-- A sample tree with the three permanent folders (ids 1, 2 and 3), the
folder "F" (id 4) under the bookmarks bar and the bookmark "b" (id 5) in it. -/
def sampleFolderTree : Tree :=
  { nodes := [{ id := 0, parentId := none, title := "", url := none },
              { id := 1, parentId := some 0, title := "Bookmarks bar", url := none },
              { id := 2, parentId := some 0, title := "Other bookmarks", url := none },
              { id := 3, parentId := some 0, title := "Mobile bookmarks", url := none },
              { id := 4, parentId := some 1, title := "F", url := none },
              { id := 5, parentId := some 4, title := "b", url := some "https://example.com" }]
    nextId := 6 }

/-- The identity map of the sample folder world: the folder has UID "f", the
bookmark in it UID "b". -/
def sampleFolderSteps : List IndexStep :=
  [IndexStep.ensure 4 "f", IndexStep.ensure 5 "b"]

/-- A sample client: device "B" on the sample folder tree, folder and bookmark
mapped. -/
def sampleFolderWorld : World :=
  { st := { indexRun {} sampleFolderSteps with initialized := true, deviceId := some "B" }
    tree := sampleFolderTree }

/-- A sample remove of the node with UID `uid`, sent by device "A". -/
def sampleRemove (uid : String) : RawOp :=
  { op := some "remove", uid := some uid, parentUid := some "root-bookmarks-bar"
    index := JIndex.null, type := some "folder", ts := some 5, deviceId := some "A"
    opId := some "r" }

/-- A sample tree as a browser has it: the root and the three permanent
folders (ids 1, 2 and 3). -/
def sampleDeviceTree : Tree :=
  { nodes := [{ id := 0, parentId := none, title := "", url := none },
              { id := 1, parentId := some 0, title := "Bookmarks bar", url := none },
              { id := 2, parentId := some 0, title := "Other bookmarks", url := none },
              { id := 3, parentId := some 0, title := "Mobile bookmarks", url := none }]
    nextId := 4 }

/-- A sample service worker that has not run `initialize` yet. -/
def sampleFresh : World := { st := {}, tree := sampleDeviceTree }

/-- A sample snapshot node: the folder "f" under the bookmarks bar. -/
def sampleSnapFolder : SnapNode :=
  { uid := some "f", parentUid := some "root-bookmarks-bar", title := some "Folder"
    type := some "folder", index := JIndex.num 0 }

/-- A sample snapshot holding that folder, with version 1. -/
def sampleSnapshot : Snapshot :=
  { version := 1, takenAt := "t", data := some (SnapData.withNodes [sampleSnapFolder]) }

/-- The sample service worker while `initialize` runs, after its state is
loaded (nothing is stored; the device id drawn is "D") and the tree is
bootstrapped. -/
def sampleBooted : World := initLoad (fun _ => "m") "D" none {} sampleFresh

/-- The sample service worker while `hydrateFromSnapshot` applies the sample
folder: inside the replay scope of `applyOp`, the handler has returned. -/
def sampleReplaying : World :=
  (applyKind
    { sampleBooted with
      st := { sampleBooted.st with replayDepth := sampleBooted.st.replayDepth + 1 } }
    (snapshotOp 0 sampleSnapFolder)).1

/-- The sample service worker when `initialize` has returned. -/
def sampleSettled : World :=
  initializeWorker (fun _ => "m") "D" 0 none {} (some sampleSnapshot) sampleFresh

/-- Sample draws of a handler. -/
def sampleDraws : Draws := { nodeUid := "m1", parentUid := "m2", opId := "o1", now := 7 }

/-- A sample snapshot node whose parent is in no snapshot and on no device. -/
def sampleDangling (uid : String) : SnapNode :=
  { uid := some uid, parentUid := some "missing", title := some uid, type := some "folder" }

/-- A sample client: device "B", initialised, on the sample device tree. -/
def sampleDevice : World :=
  { st := { initialized := true, deviceId := some "B" }, tree := sampleDeviceTree }

/-- A sample tree: the bookmark "x" (id 4) on the bookmarks bar and two
bookmarks (ids 5 and 6) in the other-bookmarks folder. -/
def sampleMoveTree : Tree :=
  { nodes := [{ id := 0, parentId := none, title := "", url := none },
              { id := 1, parentId := some 0, title := "Bookmarks bar", url := none },
              { id := 2, parentId := some 0, title := "Other bookmarks", url := none },
              { id := 3, parentId := some 0, title := "Mobile bookmarks", url := none },
              { id := 4, parentId := some 1, title := "x", url := some "https://example.com" },
              { id := 5, parentId := some 2, title := "y", url := some "https://example.org" },
              { id := 6, parentId := some 2, title := "z", url := some "https://example.net" }]
    nextId := 7 }

/-- A sample client: device "B" on the sample tree above, the bookmark "x"
mapped to the UID "n". -/
def sampleMoveWorld : World :=
  { st := { indexRun {} [IndexStep.ensure 4 "n"] with initialized := true, deviceId := some "B" }
    tree := sampleMoveTree }

/-- A sample create, sent by device "A": the bookmark with UID `uid` goes to
the front of the folder with UID `parentUid`. -/
def sampleCreate (uid parentUid : String) : RawOp :=
  { op := some "create", uid := some uid, parentUid := some parentUid, index := JIndex.num 0
    title := some "x", url := some "https://example.com", type := some "bookmark"
    ts := some 5, deviceId := some "A", opId := some "c" }

/-- A sample snapshot node list: a chain of six folders, each listed before
its parent; the last one sits on the bookmarks bar. -/
def sampleChain : List SnapNode :=
  [{ uid := some "n6", parentUid := some "n5", title := some "6", type := some "folder" },
    { uid := some "n5", parentUid := some "n4", title := some "5", type := some "folder" },
    { uid := some "n4", parentUid := some "n3", title := some "4", type := some "folder" },
    { uid := some "n3", parentUid := some "n2", title := some "3", type := some "folder" },
    { uid := some "n2", parentUid := some "n1", title := some "2", type := some "folder" },
    { uid := some "n1", parentUid := some "root-bookmarks-bar", title := some "1"
      type := some "folder" }]

/-- The sample chain of six folders as a snapshot, each folder listed before
its parent. -/
def sampleChainSnapshot : Snapshot :=
  { version := 1, takenAt := "2024-01-01T00:00:00.000Z"
    data := some (SnapData.withNodes sampleChain) }

/-- The sample chain of six folders as a snapshot, each folder listed after
its parent. -/
def sampleChainParentsFirst : Snapshot :=
  { version := 1, takenAt := "2024-01-01T00:00:00.000Z"
    data := some (SnapData.withNodes sampleChain.reverse) }

/-! # Properties -/

/-! ## Lemmas on pull -/

theorem ascending_of_consecutive {b : Int} {l : List Op} (h : ConsecutiveFrom b l) :
    Ascending l := by
  have h1 : (l.map (fun o => o.version)).Pairwise (fun a b => a < b) := by
    rw [h]
    refine List.Pairwise.map (fun i : Nat => b + 1 + (i : Int)) ?_ (List.pairwise_lt_range l.length)
    intro a c hac
    show b + 1 + (a : Int) < b + 1 + (c : Int)
    omega
  exact (List.pairwise_map.mp h1)

theorem filter_gt_of_last {l : List Op} (hl : Ascending l) (c : Int) (n : Nat) (x : Op)
    (hx : ((l.filter (fun op => decide (op.version > c))).take n).getLast? = some x) :
    l.filter (fun op => decide (op.version > x.version))
      = (l.filter (fun op => decide (op.version > c))).drop n := by
  set rest := l.filter (fun op => decide (op.version > c)) with hrest
  have hsorted : Ascending rest := List.Pairwise.sublist (List.filter_sublist l) hl
  have hxmem : x ∈ rest.take n := List.mem_of_getLast?_eq_some hx
  have hxrest : x ∈ rest := List.mem_of_mem_take hxmem
  have hxc : x.version > c := by
    have := (List.mem_filter.mp hxrest).2
    simpa using this
  have h1 : l.filter (fun op => decide (op.version > x.version))
      = rest.filter (fun op => decide (op.version > x.version)) := by
    rw [hrest, List.filter_filter]
    apply List.filter_congr
    intro o _
    by_cases ho : o.version > x.version
    · have : o.version > c := by omega
      simp [ho, this]
    · simp [ho]
  rw [h1]
  have hsplit : rest = rest.take n ++ rest.drop n := (List.take_append_drop n rest).symm
  have hpw : (rest.take n ++ rest.drop n).Pairwise (fun a b => a.version < b.version) := by
    rw [← hsplit]; exact hsorted
  rw [List.pairwise_append] at hpw
  obtain ⟨htake, hdrop, hcross⟩ := hpw
  have hle : ∀ y ∈ rest.take n, y.version ≤ x.version := by
    intro y hy
    obtain ⟨pre, hpre⟩ : ∃ pre, rest.take n = pre ++ [x] := by
      have := List.getLast?_eq_some_iff.mp hx
      exact this
    rw [hpre] at hy htake
    rw [List.pairwise_append] at htake
    rcases List.mem_append.mp hy with hy1 | hy1
    · exact le_of_lt (htake.2.2 y hy1 x (by simp))
    · simp at hy1; rw [hy1]
  conv_lhs => rw [hsplit]
  rw [List.filter_append]
  have e1 : (rest.take n).filter (fun op => decide (op.version > x.version)) = [] := by
    rw [List.filter_eq_nil_iff]
    intro y hy
    have := hle y hy
    simp; omega
  have e2 : (rest.drop n).filter (fun op => decide (op.version > x.version)) = rest.drop n := by
    rw [List.filter_eq_self]
    intro y hy
    have := hcross x hxmem y hy
    simp; omega
  rw [e1, e2, List.nil_append]

theorem pull_ops_eq (cfg : Config) (s : Server) (after limit : Int) :
    (pull cfg s (some after) (some limit)).ops
      = (s.ops.filter (fun op => decide (op.version > after))).take
          (max 1 (min limit cfg.MAX_PULL_LIMIT)).toNat := rfl

theorem pullPages_spec (cfg : Config) (s : Server) (limit : Int) (hl : Ascending s.ops)
    (h1 : 1 ≤ limit) (h2 : limit ≤ cfg.MAX_PULL_LIMIT) :
    ∀ (fuel : Nat) (cursor : Int),
      (s.ops.filter (fun op => decide (op.version > cursor))).length < fuel →
      ∃ pages, pullPages cfg s limit fuel cursor = some pages
        ∧ pages.flatten = s.ops.filter (fun op => decide (op.version > cursor))
        ∧ pages.length ≤ (s.ops.filter (fun op => decide (op.version > cursor))).length
        ∧ ∀ p ∈ pages, p ≠ [] ∧ (p.length : Int) ≤ limit := by
  have hn : (max 1 (min limit cfg.MAX_PULL_LIMIT)).toNat = limit.toNat := by
    rw [min_eq_left h2, max_eq_right h1]
  have hpos : 1 ≤ limit.toNat := by omega
  intro fuel
  induction fuel with
  | zero => intro cursor h; omega
  | succ fuel ih =>
    intro cursor hlen
    have hnext := fun last => filter_gt_of_last hl cursor limit.toNat last
    have hpage : (pull cfg s (some cursor) (some limit)).ops
        = (s.ops.filter (fun op => decide (op.version > cursor))).take limit.toNat := by
      rw [pull_ops_eq, hn]
    unfold pullPages
    simp only [hpage]
    generalize s.ops.filter (fun op => decide (op.version > cursor)) = rest at hlen hnext ⊢
    cases hlast : (rest.take limit.toNat).getLast? with
    | none =>
      have hnil : rest.take limit.toNat = [] := List.getLast?_eq_none_iff.mp hlast
      have hrnil : rest = [] := by
        cases hr : rest with
        | nil => rfl
        | cons a t =>
          rw [hr] at hnil
          obtain ⟨k, hk⟩ : ∃ k, limit.toNat = k + 1 := ⟨limit.toNat - 1, by omega⟩
          rw [hk] at hnil
          simp at hnil
      refine ⟨[], rfl, ?_, ?_, ?_⟩
      · simp [hrnil]
      · simp
      · intro p hp; simp at hp
    | some last =>
      have hnext := hnext last hlast
      have hne : rest.take limit.toNat ≠ [] := by
        intro h0; rw [h0] at hlast; simp at hlast
      have hrne : rest ≠ [] := by
        intro h0; rw [h0] at hne; simp at hne
      have hrlen : 0 < rest.length := List.length_pos.mpr hrne
      have hdl : (rest.drop limit.toNat).length < rest.length := by
        rw [List.length_drop]; omega
      have hdrop : (rest.drop limit.toNat).length < fuel := by omega
      rw [← hnext] at hdrop hdl
      obtain ⟨pages, hp1, hp2, hp3, hp4⟩ := ih last.version hdrop
      refine ⟨rest.take limit.toNat :: pages, ?_, ?_, ?_, ?_⟩
      · simp [hp1]
      · rw [List.flatten_cons, hp2, hnext, List.take_append_drop]
      · rw [List.length_cons]
        omega
      · intro p hp
        rcases List.mem_cons.mp hp with rfl | hp
        · refine ⟨hne, ?_⟩
          rw [List.length_take]
          omega
        · exact hp4 p hp

/-! ## C7 and C8: pull and its pagination -/

/-- C7: on a log ascending in version, pull with integer `after` and `limit`
returns the first `max(1, min(limit, MAX_PULL_LIMIT))` entries with
`version > after`: a prefix of the matching entries of that length (or all of
them when there are fewer), ascending, none with `version <= after`, every
matching entry left out coming after all entries returned; and `latest` is the
version counter, whatever matches. -/
theorem pull_returns_capped_tail (cfg : Config) (s : Server) (after limit : Int)
    (hasc : Ascending s.ops) :
    (pull cfg s (some after) (some limit)).ops
        = (s.ops.filter (fun op => decide (after < op.version))).take
            (max 1 (min limit cfg.MAX_PULL_LIMIT)).toNat
      ∧ Ascending (pull cfg s (some after) (some limit)).ops
      ∧ (∀ e ∈ (pull cfg s (some after) (some limit)).ops, after < e.version)
      ∧ (∀ e ∈ s.ops, after < e.version → e ∉ (pull cfg s (some after) (some limit)).ops →
          ((pull cfg s (some after) (some limit)).ops.length
              = (max 1 (min limit cfg.MAX_PULL_LIMIT)).toNat
            ∧ ∀ x ∈ (pull cfg s (some after) (some limit)).ops, x.version < e.version))
      ∧ (pull cfg s (some after) (some limit)).latest = s.version := by
  set n := (max 1 (min limit cfg.MAX_PULL_LIMIT)).toNat with hn
  set rest := s.ops.filter (fun op => decide (after < op.version)) with hrest
  have hops : (pull cfg s (some after) (some limit)).ops = rest.take n := rfl
  have hsorted : Ascending rest := List.Pairwise.sublist (List.filter_sublist s.ops) hasc
  rw [hops]
  refine ⟨rfl, ?_, ?_, ?_, rfl⟩
  · exact List.Pairwise.sublist (List.take_sublist n rest) hsorted
  · intro e he
    have := (List.mem_filter.mp (List.mem_of_mem_take he)).2
    simpa using this
  · intro e he hgt hnot
    have hmem : e ∈ rest := List.mem_filter.mpr ⟨he, by simpa using hgt⟩
    have hsplit : rest.take n ++ rest.drop n = rest := List.take_append_drop n rest
    have hd : e ∈ rest.drop n := by
      rw [← hsplit] at hmem
      rcases List.mem_append.mp hmem with h | h
      · exact absurd h hnot
      · exact h
    have hpw : (rest.take n ++ rest.drop n).Pairwise (fun a b => a.version < b.version) := by
      rw [hsplit]; exact hsorted
    rw [List.pairwise_append] at hpw
    refine ⟨?_, fun x hx => hpw.2.2 x hx e hd⟩
    have hlen : 0 < (rest.drop n).length := List.length_pos.mpr (List.ne_nil_of_mem hd)
    rw [List.length_drop] at hlen
    rw [List.length_take]
    omega

/-- Witness for C7: a log of two entries, pulled after version 1. -/
theorem pull_returns_capped_tail_witness :
    Ascending sampleLog ∧
      (pull {} { version := 2, ops := sampleLog, opLookup := ["a", "b"] } (some 1) (some 5)).ops
        = [sampleOp "v" "b" "B" 2] :=
  ⟨by simp [Ascending, sampleLog, sampleOp],
    (pull_returns_capped_tail {} { version := 2, ops := sampleLog, opLookup := ["a", "b"] } 1 5
      (by simp [Ascending, sampleLog, sampleOp])).1.trans (by decide)⟩

/-- C8: on a log of N entries with consecutive versions `b+1 .. b+N` (`b >= 0`)
and a limit within `1 .. MAX_PULL_LIMIT`, pulling repeatedly from cursor 0,
advancing the cursor to the version of the last entry returned and stopping at
the first empty page, stops within `N + 1` calls; the pages, concatenated, are
exactly the log, each entry once and in order, and every page is non-empty and
within the limit. -/
theorem pullPages_visits_all_once (cfg : Config) (s : Server) (b limit : Int) (hb : 0 ≤ b)
    (hcons : ConsecutiveFrom b s.ops) (h1 : 1 ≤ limit) (h2 : limit ≤ cfg.MAX_PULL_LIMIT) :
    ∃ pages, pullPages cfg s limit (s.ops.length + 1) 0 = some pages
      ∧ pages.flatten = s.ops
      ∧ pages.length ≤ s.ops.length
      ∧ ∀ p ∈ pages, p ≠ [] ∧ (p.length : Int) ≤ limit := by
  have hasc := ascending_of_consecutive hcons
  have hall : s.ops.filter (fun op => decide (op.version > 0)) = s.ops := by
    rw [List.filter_eq_self]
    intro o ho
    have hmem : o.version ∈ s.ops.map (fun o => o.version) := List.mem_map.mpr ⟨o, ho, rfl⟩
    rw [hcons] at hmem
    obtain ⟨i, _, hi⟩ := List.mem_map.mp hmem
    simp only [decide_eq_true_eq]
    omega
  have := pullPages_spec cfg s limit hasc h1 h2 (s.ops.length + 1) 0 (by rw [hall]; omega)
  rw [hall] at this
  exact this

/-- Witness for C8: the sample log, paged one entry at a time. -/
theorem pullPages_visits_all_once_witness :
    ConsecutiveFrom 0 sampleLog ∧
      ∃ pages, pullPages {} { version := 2, ops := sampleLog, opLookup := [] } 1
          (sampleLog.length + 1) 0 = some pages
        ∧ pages.flatten = sampleLog
        ∧ pages.length ≤ sampleLog.length
        ∧ ∀ p ∈ pages, p ≠ [] ∧ (p.length : Int) ≤ 1 :=
  ⟨by decide,
    pullPages_visits_all_once {} { version := 2, ops := sampleLog, opLookup := [] } 0 1
      (by decide) (by decide) (by decide) (by decide)⟩

/-! ## Lemmas on push -/

theorem nonEmpty?_ne {v : Option String} {x : String} (h : nonEmpty? v = some x) : x ≠ "" := by
  cases v with
  | none => simp [nonEmpty?] at h
  | some s =>
    by_cases hs : s = ""
    · simp [nonEmpty?, hs] at h
    · simp [nonEmpty?, hs] at h
      rw [← h]; exact hs

theorem normalizeOp_some {h : Host} {i : Nat} {e : Option RawOp} {op : NormOp}
    (hn : normalizeOp h i e = some op) :
    ∃ r, e = some r ∧ nonEmpty? r.uid = some op.uid ∧ nonEmpty? r.op = some op.op
      ∧ op.opId = (nonEmpty? r.opId).getD (h.randomUUID i) := by
  cases e with
  | none => simp [normalizeOp] at hn
  | some r =>
    refine ⟨r, rfl, ?_⟩
    unfold normalizeOp at hn
    cases hu : nonEmpty? r.uid with
    | none => simp [hu] at hn
    | some u =>
      cases ho : nonEmpty? r.op with
      | none => simp [hu, ho] at hn
      | some o =>
        simp only [hu, ho, Option.some.injEq] at hn
        subst hn
        exact ⟨rfl, rfl, rfl⟩

theorem normalizeOp_opId_ne {h : Host} {i : Nat} {e : Option RawOp} {op : NormOp}
    (hn : normalizeOp h i e = some op) : op.opId ≠ "" := by
  obtain ⟨r, _, _, _, hid⟩ := normalizeOp_some hn
  rw [hid]
  cases hx : nonEmpty? r.opId with
  | none => simpa using h.uuid_ne i
  | some x => simpa using nonEmpty?_ne hx

theorem normalizeOp_isSome_iff (h : Host) (i : Nat) (r : RawOp) :
    (normalizeOp h i (some r)).isSome = (truthy r.uid && truthy r.op) := by
  unfold normalizeOp truthy
  cases hu : nonEmpty? r.uid <;> cases ho : nonEmpty? r.op <;> simp [hu, ho]

theorem normalizeOp_opId_of_carried {h : Host} {i : Nat} {r : RawOp} {op : NormOp} {x : String}
    (hn : normalizeOp h i (some r) = some op) (hx : nonEmpty? r.opId = some x) :
    op.opId = x := by
  obtain ⟨r', hr, _, _, hid⟩ := normalizeOp_some hn
  cases hr
  rw [hid, hx]; rfl

theorem mem_setAdd {s : List String} {x y : String} :
    y ∈ setAdd s x ↔ y ∈ s ∨ y = x := by
  unfold setAdd
  by_cases hx : x ∈ s
  · simp only [hx, if_true]
    constructor
    · exact Or.inl
    · rintro (h | h)
      · exact h
      · rw [h]; exact hx
  · simp [hx]

theorem mem_setDelete {s : List String} {x y : String} :
    y ∈ setDelete s x ↔ y ∈ s ∧ y ≠ x := by
  unfold setDelete
  simp [List.mem_filter]

/-- What an accepted entry does to the state. -/
theorem pushOne_some {h : Host} {i : Nat} {s s1 : Server} {e : Option RawOp}
    (hp : pushOne h i s e = some s1) :
    ∃ op, normalizeOp h i e = some op ∧ op.opId ∉ s.opLookup
      ∧ s1 = { version := s.version + 1
               ops := s.ops ++ [{ toNormOp := op, version := s.version + 1 }]
               opLookup := setAdd s.opLookup op.opId } := by
  unfold pushOne at hp
  cases hn : normalizeOp h i e with
  | none => simp [hn] at hp
  | some op =>
    have hne := normalizeOp_opId_ne hn
    simp only [hn] at hp
    by_cases hmem : op.opId ∈ s.opLookup
    · simp [hne, hmem] at hp
    · simp only [hne, hmem, ne_eq, not_false_eq_true, and_false, if_false, if_true,
        Option.some.injEq] at hp
      exact ⟨op, rfl, hmem, hp.symm⟩

/-- When an entry is skipped. -/
theorem pushOne_none_iff {h : Host} {i : Nat} {s : Server} {e : Option RawOp} :
    pushOne h i s e = none ↔
      ∀ op, normalizeOp h i e = some op → op.opId ∈ s.opLookup := by
  unfold pushOne
  cases hn : normalizeOp h i e with
  | none => simp
  | some op =>
    have hne := normalizeOp_opId_ne hn
    by_cases hmem : op.opId ∈ s.opLookup
    · simp [hne, hmem]
    · simp [hne, hmem]

theorem pushLoop_cons (h : Host) (i : Nat) (e : Option RawOp) (rest : List (Option RawOp))
    (s : Server) (a : Nat) :
    pushLoop h i (e :: rest) (s, a)
      = match pushOne h i s e with
        | none => pushLoop h (i + 1) rest (s, a)
        | some s1 => pushLoop h (i + 1) rest (s1, a + 1) := rfl

/-- The shape of what the push loop does: it appends entries `new` behind the
log, one per accepted operation, stamped with the next versions, and adds
their opIds, which are new and pairwise distinct, to the lookup set. -/
theorem pushLoop_shape (h : Host) :
    ∀ (batch : List (Option RawOp)) (i : Nat) (s : Server) (a : Nat),
      ∃ new : List Op,
        (pushLoop h i batch (s, a)).1.ops = s.ops ++ new
        ∧ (pushLoop h i batch (s, a)).2 = a + new.length
        ∧ (pushLoop h i batch (s, a)).1.version = s.version + (new.length : Int)
        ∧ new.map (fun o => o.version)
            = (List.range new.length).map (fun (j : Nat) => s.version + 1 + (j : Int))
        ∧ (∀ x, x ∈ (pushLoop h i batch (s, a)).1.opLookup
            ↔ x ∈ s.opLookup ∨ x ∈ new.map (fun o => o.opId))
        ∧ (∀ o ∈ new, o.opId ≠ "" ∧ o.opId ∉ s.opLookup)
        ∧ (new.map (fun o => o.opId)).Nodup := by
  intro batch
  induction batch with
  | nil =>
    intro i s a
    exact ⟨[], by simp [pushLoop], by simp [pushLoop], by simp [pushLoop], by simp,
      by simp [pushLoop], by simp, by simp⟩
  | cons e rest ih =>
    intro i s a
    rw [pushLoop_cons]
    cases hp : pushOne h i s e with
    | none => exact ih (i + 1) s a
    | some s1 =>
      obtain ⟨op, hn, hnot, hs1⟩ := pushOne_some hp
      obtain ⟨new, h1, h2, h3, h4, h5, h6, h7⟩ := ih (i + 1) s1 (a + 1)
      have hne := normalizeOp_opId_ne hn
      have hs1ops : s1.ops = s.ops ++ [{ toNormOp := op, version := s.version + 1 }] := by
        rw [hs1]
      have hs1v : s1.version = s.version + 1 := by rw [hs1]
      have hs1l : s1.opLookup = setAdd s.opLookup op.opId := by rw [hs1]
      refine ⟨{ toNormOp := op, version := s.version + 1 } :: new, ?_, ?_, ?_, ?_, ?_, ?_, ?_⟩
      · simp only [h1, hs1ops, List.append_assoc, List.singleton_append]
      · simp only [h2, List.length_cons]; omega
      · simp only [h3, hs1v, List.length_cons]; push_cast; ring
      · simp only [List.map_cons, List.length_cons, List.range_succ_eq_map, List.map_map, h4,
          hs1v]
        congr 1
        · simp
        · apply List.map_congr_left
          intro j _
          simp only [Function.comp]
          push_cast; ring
      · intro x
        rw [h5 x, hs1l, mem_setAdd]
        simp only [List.map_cons, List.mem_cons]
        tauto
      · intro o ho
        rcases List.mem_cons.mp ho with rfl | ho
        · exact ⟨hne, hnot⟩
        · refine ⟨(h6 o ho).1, ?_⟩
          intro hmem
          apply (h6 o ho).2
          rw [hs1l, mem_setAdd]
          exact Or.inl hmem
      · simp only [List.map_cons, List.nodup_cons]
        refine ⟨?_, h7⟩
        intro hmem
        obtain ⟨o, ho, hoe⟩ := List.mem_map.mp hmem
        apply (h6 o ho).2
        rw [hs1l, mem_setAdd]
        exact Or.inr hoe

/-- Every well-formed entry of the batch that carries an opId has it in the
lookup set when the loop ends. -/
theorem pushLoop_carried_mem (h : Host) :
    ∀ (batch : List (Option RawOp)) (i : Nat) (s : Server) (a : Nat) (r : RawOp) (x : String),
      some r ∈ batch → truthy r.uid = true → truthy r.op = true → nonEmpty? r.opId = some x →
      x ∈ (pushLoop h i batch (s, a)).1.opLookup := by
  intro batch
  induction batch with
  | nil => intro i s a r x hr; simp at hr
  | cons e rest ih =>
    intro i s a r x hr hu ho hx
    rw [pushLoop_cons]
    rcases List.mem_cons.mp hr with he | hr
    · subst he
      have hsome : (normalizeOp h i (some r)).isSome = true := by
        rw [normalizeOp_isSome_iff, hu, ho]; rfl
      obtain ⟨op, hn⟩ := Option.isSome_iff_exists.mp hsome
      have hid := normalizeOp_opId_of_carried hn hx
      cases hp : pushOne h i s (some r) with
      | none =>
        simp only
        have hin : x ∈ s.opLookup := hid ▸ (pushOne_none_iff.mp hp op hn)
        obtain ⟨new, _, _, _, _, h5, _, _⟩ := pushLoop_shape h rest (i + 1) s a
        exact (h5 x).mpr (Or.inl hin)
      | some s1 =>
        simp only
        obtain ⟨op1, hn1, _, hs1⟩ := pushOne_some hp
        rw [hn] at hn1
        cases hn1
        obtain ⟨new, _, _, _, _, h5, _, _⟩ := pushLoop_shape h rest (i + 1) s1 (a + 1)
        refine (h5 x).mpr (Or.inl ?_)
        rw [hs1, ← hid]
        exact mem_setAdd.mpr (Or.inr rfl)
    · cases hp : pushOne h i s e with
      | none => exact ih (i + 1) s a r x hr hu ho hx
      | some s1 => exact ih (i + 1) s1 (a + 1) r x hr hu ho hx

/-- A batch all of whose well-formed entries are already known changes nothing. -/
theorem pushLoop_all_known (h : Host) :
    ∀ (batch : List (Option RawOp)) (i : Nat) (s : Server) (a : Nat),
      (∀ e ∈ batch, ∀ j op, normalizeOp h j e = some op → op.opId ∈ s.opLookup) →
      pushLoop h i batch (s, a) = (s, a) := by
  intro batch
  induction batch with
  | nil => intro i s a _; rfl
  | cons e rest ih =>
    intro i s a hall
    rw [pushLoop_cons]
    have hnone : pushOne h i s e = none :=
      pushOne_none_iff.mpr (fun op hn => hall e (List.mem_cons_self _ _) i op hn)
    rw [hnone]
    exact ih (i + 1) s a (fun e' he' => hall e' (List.mem_cons_of_mem _ he'))

theorem mem_foldl_delete (removed : List Op) :
    ∀ (set : List String) (x : String),
      x ∈ removed.foldl (fun set op => if op.opId ≠ "" then setDelete set op.opId else set) set
        ↔ x ∈ set ∧ ∀ o ∈ removed, o.opId ≠ "" → x ≠ o.opId := by
  induction removed with
  | nil => intro set x; simp
  | cons o rest ih =>
    intro set x
    rw [List.foldl_cons, ih]
    by_cases ho : o.opId = ""
    · simp [ho]
    · simp only [ne_eq, ho, not_false_eq_true, if_true, mem_setDelete, List.mem_cons,
        forall_eq_or_imp, true_implies]
      tauto

theorem pruneOps_version (cfg : Config) (s : Server) : (pruneOps cfg s).version = s.version := by
  unfold pruneOps
  simp only
  split <;> rfl

theorem pruneOps_ops (cfg : Config) (s : Server) :
    s.ops = pruned cfg s ++ (pruneOps cfg s).ops := by
  unfold pruneOps pruned
  simp only
  split
  · simp
  · simp [List.take_append_drop]

theorem pruneOps_length (cfg : Config) (s : Server) (hmax : 0 ≤ cfg.MAX_LOG_OPS) :
    ((pruneOps cfg s).ops.length : Int) ≤ cfg.MAX_LOG_OPS := by
  unfold pruneOps
  simp only
  split
  · omega
  · simp only [List.length_drop]
    omega

theorem mem_pruneOps_lookup (cfg : Config) (s : Server) (x : String) :
    x ∈ (pruneOps cfg s).opLookup
      ↔ x ∈ s.opLookup ∧ ∀ o ∈ pruned cfg s, o.opId ≠ "" → x ≠ o.opId := by
  unfold pruneOps pruned
  simp only
  split
  · simp
  · exact mem_foldl_delete _ _ _

theorem pruneOps_of_fits (cfg : Config) (s : Server)
    (hfit : (s.ops.length : Int) ≤ cfg.MAX_LOG_OPS) : pruneOps cfg s = s := by
  unfold pruneOps
  simp only
  rw [if_pos (by omega)]

theorem pruneOps_idem (cfg : Config) (s : Server) :
    pruneOps cfg (pruneOps cfg s) = pruneOps cfg s := by
  by_cases hfit : (s.ops.length : Int) - cfg.MAX_LOG_OPS ≤ 0
  · have : pruneOps cfg s = s := pruneOps_of_fits cfg s (by omega)
    rw [this, this]
  · by_cases hmax : 0 ≤ cfg.MAX_LOG_OPS
    · exact pruneOps_of_fits cfg _ (pruneOps_length cfg s hmax)
    · have hops : (pruneOps cfg s).ops = [] := by
        unfold pruneOps
        simp only
        rw [if_neg hfit]
        simp only [List.drop_eq_nil_iff]
        omega
      generalize pruneOps cfg s = t at hops
      unfold pruneOps
      simp only [hops]
      split
      · rfl
      · cases t
        simp at hops
        simp [hops]

theorem nonEmpty?_eq {v : Option String} {x : String} (h : nonEmpty? v = some x) :
    v = some x := by
  cases v with
  | none => simp [nonEmpty?] at h
  | some s =>
    by_cases hs : s = ""
    · simp [nonEmpty?, hs] at h
    · simp [nonEmpty?, hs] at h
      rw [h]

theorem push_of_nonempty (cfg : Config) (h : Host) (s : Server) (batch : List (Option RawOp))
    (hne : batch ≠ []) :
    push cfg h s batch
      = (pruneOps cfg (pushLoop h 0 batch (s, 0)).1,
          { ok := true, accepted := (pushLoop h 0 batch (s, 0)).2,
            newVersion := (pruneOps cfg (pushLoop h 0 batch (s, 0)).1).version }) := by
  unfold push
  cases batch with
  | nil => exact absurd rfl hne
  | cons e rest => simp

/-! ## C1: idempotence of push -/

/-- C1 (as amended): when the first push of a batch whose operations each
carry an opId evicts no log entry carrying an opId of the batch, pushing the
same batch again, any number of times and whatever the host draws, answers
`accepted = 0` with the same `newVersion` and leaves the whole server state
(version counter, log, lookup set) as the first push left it. -/
theorem push_again_accepts_nothing (cfg : Config) (h : Host) (s : Server)
    (batch : List (Option RawOp))
    (hid : ∀ r, some r ∈ batch → truthy r.opId = true)
    (hkeep : ∀ o ∈ pruned cfg (pushLoop h 0 batch (s, 0)).1,
      ∀ r, some r ∈ batch → r.opId ≠ some o.opId) :
    (∀ h2 : Host, push cfg h2 (push cfg h s batch).1 batch
        = ((push cfg h s batch).1,
            { ok := true, accepted := 0, newVersion := (push cfg h s batch).1.version }))
      ∧ ∀ hs : List Host,
          hs.foldl (fun t h2 => (push cfg h2 t batch).1) (push cfg h s batch).1
            = (push cfg h s batch).1 := by
  have hstep : ∀ h2 : Host, push cfg h2 (push cfg h s batch).1 batch
      = ((push cfg h s batch).1,
          { ok := true, accepted := 0, newVersion := (push cfg h s batch).1.version }) := by
    intro h2
    by_cases hne : batch = []
    · subst hne
      simp [push]
    · have hfirst := push_of_nonempty cfg h s batch hne
      have hknown : ∀ e ∈ batch, ∀ j op, normalizeOp h2 j e = some op →
          op.opId ∈ (push cfg h s batch).1.opLookup := by
        intro e he j op hn
        obtain ⟨r, hr, hu, ho, _⟩ := normalizeOp_some hn
        subst hr
        have hcar := hid r he
        unfold truthy at hcar
        obtain ⟨x, hx⟩ := Option.isSome_iff_exists.mp hcar
        have hopid := normalizeOp_opId_of_carried hn hx
        have hmem := pushLoop_carried_mem h batch 0 s 0 r x he
          (by unfold truthy; rw [hu]; rfl) (by unfold truthy; rw [ho]; rfl) hx
        rw [hfirst, hopid]
        refine (mem_pruneOps_lookup cfg _ x).mpr ⟨hmem, ?_⟩
        intro o hop _ hxo
        apply hkeep o hop r he
        rw [nonEmpty?_eq hx, hxo]
      rw [push_of_nonempty cfg h2 _ batch hne, pushLoop_all_known h2 batch 0 _ 0 hknown]
      have hidem : pruneOps cfg (push cfg h s batch).1 = (push cfg h s batch).1 := by
        rw [hfirst]; exact pruneOps_idem cfg _
      simp only [hidem]
  refine ⟨hstep, ?_⟩
  intro hs
  induction hs with
  | nil => rfl
  | cons h2 rest ih =>
    rw [List.foldl_cons, hstep h2]
    exact ih

/-- Witness for C1 (as amended): two operations pushed to the empty server
under the default retention limit, then pushed again. -/
theorem push_again_accepts_nothing_witness :
    (push {} sampleHost (push {} sampleHost Server.empty
        [some (sampleRaw "u" "a" "A"), some (sampleRaw "v" "b" "A")]).1
        [some (sampleRaw "u" "a" "A"), some (sampleRaw "v" "b" "A")]).2.accepted = 0 :=
  congrArg (fun r => r.2.accepted)
    ((push_again_accepts_nothing {} sampleHost Server.empty
      [some (sampleRaw "u" "a" "A"), some (sampleRaw "v" "b" "A")]
      (by
        intro r hr
        simp only [List.mem_cons, Option.some.injEq, List.mem_singleton, List.not_mem_nil,
          or_false] at hr
        rcases hr with rfl | rfl <;> decide)
      (by
        intro o ho
        have hnone : pruned {} (pushLoop sampleHost 0
            [some (sampleRaw "u" "a" "A"), some (sampleRaw "v" "b" "A")] (Server.empty, 0)).1
            = [] := by decide
        rw [hnone] at ho
        exact absurd ho (List.not_mem_nil o))).1 sampleHost)

/-- Counterexample to C1 as stated: with `MAX_LOG_OPS = 1`, the first push of
two operations evicts the first of them and forgets its opId; pushing the same
batch again accepts it anew and moves the version counter from 2 to 3. -/
theorem push_again_after_eviction_accepts :
    (push { MAX_LOG_OPS := 1 } sampleHost Server.empty
        [some (sampleRaw "u" "a" "A"), some (sampleRaw "v" "b" "A")]).1.version = 2
      ∧ (push { MAX_LOG_OPS := 1 } sampleHost
          (push { MAX_LOG_OPS := 1 } sampleHost Server.empty
            [some (sampleRaw "u" "a" "A"), some (sampleRaw "v" "b" "A")]).1
          [some (sampleRaw "u" "a" "A"), some (sampleRaw "v" "b" "A")]).2
        = { ok := true, accepted := 1, newVersion := 3 } := by
  decide

/-! ## The invariant of a run of pushes -/

theorem logInv_empty (cfg : Config) : LogInv cfg [] Server.empty where
  version_eq := rfl
  consecutive := rfl
  suffix := ⟨[], rfl⟩
  fits := fun _ => rfl
  nodup := List.nodup_nil
  known := fun o ho => absurd ho (List.not_mem_nil o)

theorem logInv_push (cfg : Config) (h : Host) (hist : List Op) (s : Server)
    (batch : List (Option RawOp)) (inv : LogInv cfg hist s) :
    LogInv cfg (hist ++ (pushLoop h 0 batch (s, 0)).1.ops.drop s.ops.length)
      (push cfg h s batch).1 := by
  obtain ⟨new, h1, _, h3, h4, h5, h6, h7⟩ := pushLoop_shape h batch 0 s 0
  have happ : (pushLoop h 0 batch (s, 0)).1.ops.drop s.ops.length = new := by
    rw [h1]; simp
  rw [happ]
  have hcons : ConsecutiveFrom 0 (hist ++ new) := by
    have hc := inv.consecutive
    unfold ConsecutiveFrom at hc ⊢
    rw [List.map_append, hc, h4, List.length_append, List.range_add, List.map_append,
      List.map_map, inv.version_eq]
    congr 1
    apply List.map_congr_left
    intro j _
    simp only [Function.comp]
    push_cast; ring
  have hnodup : ((s.ops ++ new).map (fun o => o.opId)).Nodup := by
    rw [List.map_append, List.nodup_append]
    refine ⟨inv.nodup, h7, ?_⟩
    intro x hx1 hx2
    obtain ⟨o, ho, rfl⟩ := List.mem_map.mp hx1
    obtain ⟨o2, ho2, heq⟩ := List.mem_map.mp hx2
    apply (h6 o2 ho2).2
    rw [heq]
    exact inv.known o ho
  by_cases hne : batch = []
  · subst hne
    have hnew : new = [] := by
      have : (pushLoop h 0 [] (s, 0)).1.ops = s.ops := rfl
      rw [this] at h1
      simpa using h1
    subst hnew
    have hp : (push cfg h s []).1 = s := by simp [push]
    rw [hp, List.append_nil]
    exact inv
  · rw [push_of_nonempty cfg h s batch hne]
    simp only
    obtain ⟨pre, hpre⟩ := inv.suffix
    have hsplit := pruneOps_ops cfg (pushLoop h 0 batch (s, 0)).1
    rw [h1] at hsplit
    refine ⟨?_, hcons, ?_, ?_, ?_, ?_⟩
    · rw [pruneOps_version, h3, inv.version_eq, List.length_append]; push_cast; ring
    · refine ⟨pre ++ pruned cfg (pushLoop h 0 batch (s, 0)).1, ?_⟩
      rw [List.append_assoc, ← hsplit, hpre, List.append_assoc]
    · intro hfit
      rw [List.length_append] at hfit
      have hs : hist = s.ops := inv.fits (by push_cast at hfit; omega)
      have hlen : (((pushLoop h 0 batch (s, 0)).1.ops.length : Nat) : Int) ≤ cfg.MAX_LOG_OPS := by
        rw [h1, List.length_append, ← hs]; exact hfit
      rw [pruneOps_of_fits cfg _ hlen, h1, hs]
    · rw [hsplit, List.map_append, List.nodup_append] at hnodup
      exact hnodup.2.1
    · intro o ho
      rw [mem_pruneOps_lookup]
      constructor
      · rw [h5]
        have : o ∈ s.ops ++ new := by rw [hsplit]; exact List.mem_append_right _ ho
        rcases List.mem_append.mp this with hm | hm
        · exact Or.inl (inv.known o hm)
        · exact Or.inr (List.mem_map.mpr ⟨o, hm, rfl⟩)
      · intro p hp _ heq
        rw [hsplit, List.map_append, List.nodup_append] at hnodup
        exact hnodup.2.2 (List.mem_map.mpr ⟨p, hp, rfl⟩)
          (List.mem_map.mpr ⟨o, ho, heq⟩)

theorem logInv_run (cfg : Config) :
    ∀ (reqs : List (Host × List (Option RawOp))) (hist : List Op) (s : Server),
      LogInv cfg hist s → LogInv cfg (hist ++ (run cfg s reqs).2) (run cfg s reqs).1 := by
  intro reqs
  induction reqs with
  | nil =>
    intro hist s inv
    simpa [run] using inv
  | cons req rest ih =>
    intro hist s inv
    obtain ⟨h, batch⟩ := req
    have := ih _ _ (logInv_push cfg h hist s batch inv)
    simpa [run, List.append_assoc] using this

theorem consecutive_get {b : Int} {l : List Op} (hc : ConsecutiveFrom b l) (i : Nat) (o : Op)
    (hi : l[i]? = some o) : o.version = b + 1 + (i : Int) := by
  unfold ConsecutiveFrom at hc
  have h1 : (l.map (fun o => o.version))[i]? = some o.version := by
    rw [List.getElem?_map, hi]; rfl
  rw [hc, List.getElem?_map] at h1
  have hlt : i < l.length := by
    by_contra hge
    rw [List.getElem?_eq_none (by omega)] at hi
    cases hi
  rw [List.getElem?_range hlt] at h1
  simp at h1
  omega

theorem getElem?_suffix {α : Type} {pre l : List α} (i : Nat) :
    (pre ++ l)[pre.length + i]? = l[i]? := by
  rw [List.getElem?_append_right (by omega)]
  congr 1
  omega

/-! ## C4 and C5: versions over a run of pushes -/

/-- C5: starting from the empty server, after any sequence of pushes the
entry at position `i` (from 0) among everything ever accepted has version
`i + 1`; the version counter counts the accepted entries; the log is a suffix
of what was accepted, its versions are consecutive and ascending in log order,
and its last entry, when there is one, carries the version counter. -/
theorem versions_gapless_from_one (cfg : Config) (reqs : List (Host × List (Option RawOp))) :
    (∀ (i : Nat) (o : Op),
        (run cfg Server.empty reqs).2[i]? = some o → o.version = (i : Int) + 1)
      ∧ (run cfg Server.empty reqs).1.version = ((run cfg Server.empty reqs).2.length : Int)
      ∧ (∃ pre, (run cfg Server.empty reqs).2 = pre ++ (run cfg Server.empty reqs).1.ops)
      ∧ (∀ (i : Nat) (a b : Op), (run cfg Server.empty reqs).1.ops[i]? = some a →
          (run cfg Server.empty reqs).1.ops[i + 1]? = some b → b.version = a.version + 1)
      ∧ Ascending (run cfg Server.empty reqs).1.ops
      ∧ (∀ last, (run cfg Server.empty reqs).1.ops.getLast? = some last →
          last.version = (run cfg Server.empty reqs).1.version) := by
  have inv := logInv_run cfg reqs [] Server.empty (logInv_empty cfg)
  rw [List.nil_append] at inv
  generalize (run cfg Server.empty reqs).1 = s at inv ⊢
  generalize (run cfg Server.empty reqs).2 = hist at inv ⊢
  obtain ⟨pre, hpre⟩ := inv.suffix
  have hget : ∀ (i : Nat) (o : Op), s.ops[i]? = some o →
      o.version = (pre.length : Int) + (i : Int) + 1 := by
    intro i o hi
    have h1 : hist[pre.length + i]? = some o := by rw [hpre, getElem?_suffix, hi]
    have := consecutive_get inv.consecutive _ _ h1
    push_cast at this
    omega
  refine ⟨?_, inv.version_eq, ⟨pre, hpre⟩, ?_, ?_, ?_⟩
  · intro i o hi
    have := consecutive_get inv.consecutive i o hi
    omega
  · intro i a b ha hb
    have h1 := hget i a ha
    have h2 := hget (i + 1) b hb
    push_cast at h2
    omega
  · unfold Ascending
    rw [List.pairwise_iff_getElem]
    intro i j hi hj hij
    have h1 := hget i s.ops[i] (List.getElem?_eq_getElem hi)
    have h2 := hget j s.ops[j] (List.getElem?_eq_getElem hj)
    omega
  · intro last hlast
    rw [List.getLast?_eq_getElem?] at hlast
    have hpos : 0 < s.ops.length := by
      by_contra hz
      rw [List.getElem?_eq_none (by omega)] at hlast
      cases hlast
    have h1 := hget _ last hlast
    rw [inv.version_eq, hpre, List.length_append, h1]
    push_cast
    omega

/-- C4 (as amended): starting from the empty server, after any sequence of
pushes, retention pruning included, no two entries retained in the log carry
the same opId (so among them an opId has one version); when two entries ever
accepted do carry the same opId, the earlier one has been pruned from the log;
and while everything accepted fits `MAX_LOG_OPS`, no opId was stamped twice. -/
theorem opId_one_version_while_retained (cfg : Config)
    (reqs : List (Host × List (Option RawOp))) :
    (∀ a ∈ (run cfg Server.empty reqs).1.ops, ∀ b ∈ (run cfg Server.empty reqs).1.ops,
        a.opId = b.opId → a.version = b.version)
      ∧ (∀ (i j : Nat) (a b : Op), i < j → (run cfg Server.empty reqs).2[i]? = some a →
          (run cfg Server.empty reqs).2[j]? = some b → a.opId = b.opId →
          i + (run cfg Server.empty reqs).1.ops.length < (run cfg Server.empty reqs).2.length)
      ∧ (((run cfg Server.empty reqs).2.length : Int) ≤ cfg.MAX_LOG_OPS →
          ∀ a ∈ (run cfg Server.empty reqs).2, ∀ b ∈ (run cfg Server.empty reqs).2,
            a.opId = b.opId → a.version = b.version) := by
  have inv := logInv_run cfg reqs [] Server.empty (logInv_empty cfg)
  rw [List.nil_append] at inv
  generalize (run cfg Server.empty reqs).1 = s at inv ⊢
  generalize (run cfg Server.empty reqs).2 = hist at inv ⊢
  have hlog : ∀ a ∈ s.ops, ∀ b ∈ s.ops, a.opId = b.opId → a.version = b.version := by
    intro a ha b hb hab
    rw [List.inj_on_of_nodup_map inv.nodup ha hb hab]
  refine ⟨hlog, ?_, ?_⟩
  · intro i j a b hij hi hj hab
    obtain ⟨pre, hpre⟩ := inv.suffix
    by_contra hnot
    have hlen : hist.length = pre.length + s.ops.length := by rw [hpre, List.length_append]
    have hile : pre.length ≤ i := by omega
    obtain ⟨i', rfl⟩ : ∃ i', i = pre.length + i' := ⟨i - pre.length, by omega⟩
    obtain ⟨j', rfl⟩ : ∃ j', j = pre.length + j' := ⟨j - pre.length, by omega⟩
    rw [hpre, getElem?_suffix] at hi hj
    have hj'lt : j' < s.ops.length := by
      by_contra hge
      rw [List.getElem?_eq_none (by omega)] at hj
      cases hj
    have hnd := List.nodup_iff_getElem?_ne_getElem?.mp inv.nodup i' j' (by omega)
      (by rw [List.length_map]; exact hj'lt)
    apply hnd
    rw [List.getElem?_map, List.getElem?_map, hi, hj]
    simp [hab]
  · intro hfit a ha b hb hab
    rw [inv.fits hfit] at ha hb
    exact hlog a ha b hb hab

/-- Counterexample to C4 as stated: with `MAX_LOG_OPS = 1`, pushing opId "a",
then "b" (which evicts "a" and forgets it), then "a" again stamps "a" with
version 1 and later with version 3. -/
theorem opId_restamped_after_eviction :
    ((run { MAX_LOG_OPS := 1 } Server.empty
        [(sampleHost, [some (sampleRaw "u" "a" "A")]),
         (sampleHost, [some (sampleRaw "v" "b" "A")]),
         (sampleHost, [some (sampleRaw "u" "a" "A")])]).2.map
      (fun o => (o.opId, o.version))) = [("a", 1), ("b", 2), ("a", 3)] := by
  decide

/-! ## C6: push, then pull -/

/-- A batch of well-formed operations with pairwise distinct, unknown opIds is
accepted whole: entry `j` of what the loop appends is the normalised operation
`j` of the batch, stamped with version `s.version + 1 + j`. -/
theorem pushLoop_fresh (h : Host) :
    ∀ (ops : List RawOp) (i : Nat) (s : Server) (a : Nat),
      (∀ r ∈ ops, truthy r.uid = true ∧ truthy r.op = true ∧ truthy r.opId = true) →
      (ops.map (fun r => r.opId)).Nodup →
      (∀ r ∈ ops, ∀ x, r.opId = some x → x ∉ s.opLookup) →
      (pushLoop h i (ops.map some) (s, a)).2 = a + ops.length
        ∧ (pushLoop h i (ops.map some) (s, a)).1.version = s.version + (ops.length : Int)
        ∧ ∃ new : List Op, (pushLoop h i (ops.map some) (s, a)).1.ops = s.ops ++ new
            ∧ new.length = ops.length
            ∧ ∀ (j : Nat) (r : RawOp), ops[j]? = some r →
                ∃ o, new[j]? = some o ∧ o.version = s.version + 1 + (j : Int)
                  ∧ normalizeOp h (i + j) (some r) = some o.toNormOp := by
  intro ops
  induction ops with
  | nil =>
    intro i s a _ _ _
    exact ⟨rfl, by simp [pushLoop], [], by simp [pushLoop], rfl, by simp⟩
  | cons r rest ih =>
    intro i s a hwf hnd hnew
    obtain ⟨hu, ho, hc⟩ := hwf r (List.mem_cons_self _ _)
    have hsome : (normalizeOp h i (some r)).isSome = true := by
      rw [normalizeOp_isSome_iff, hu, ho]; rfl
    obtain ⟨n, hn⟩ := Option.isSome_iff_exists.mp hsome
    unfold truthy at hc
    obtain ⟨x, hx⟩ := Option.isSome_iff_exists.mp hc
    have hnid : n.opId = x := normalizeOp_opId_of_carried hn hx
    have hrx : r.opId = some x := nonEmpty?_eq hx
    have hxnot : x ∉ s.opLookup := hnew r (List.mem_cons_self _ _) x hrx
    have hpne : pushOne h i s (some r) ≠ none := by
      intro hnone
      exact hxnot (hnid ▸ pushOne_none_iff.mp hnone n hn)
    obtain ⟨s1, hp⟩ := Option.ne_none_iff_exists'.mp hpne
    obtain ⟨n', hn', _, hs1⟩ := pushOne_some hp
    rw [hn] at hn'
    cases hn'
    rw [List.map_cons, pushLoop_cons, hp]
    simp only
    rw [List.map_cons, List.nodup_cons] at hnd
    have hs1v : s1.version = s.version + 1 := by rw [hs1]
    have hs1o : s1.ops = s.ops ++ [{ toNormOp := n, version := s.version + 1 }] := by rw [hs1]
    have hs1l : s1.opLookup = setAdd s.opLookup n.opId := by rw [hs1]
    obtain ⟨e1, e2, new, e3, e4, e5⟩ := ih (i + 1) s1 (a + 1)
      (fun r' hr' => hwf r' (List.mem_cons_of_mem _ hr')) hnd.2
      (by
        intro r' hr' y hy
        rw [hs1l, mem_setAdd, hnid]
        rintro (hin | rfl)
        · exact hnew r' (List.mem_cons_of_mem _ hr') y hy hin
        · apply hnd.1
          rw [hrx, ← hy]
          exact List.mem_map.mpr ⟨r', hr', rfl⟩)
    refine ⟨?_, ?_, { toNormOp := n, version := s.version + 1 } :: new, ?_, ?_, ?_⟩
    · rw [e1, List.length_cons]; omega
    · rw [e2, hs1v, List.length_cons]; push_cast; ring
    · rw [e3, hs1o, List.append_assoc, List.singleton_append]
    · rw [List.length_cons, List.length_cons, e4]
    · intro j r' hj
      cases j with
      | zero =>
        simp only [List.getElem?_cons_zero, Option.some.injEq] at hj
        subst hj
        refine ⟨{ toNormOp := n, version := s.version + 1 }, ?_, ?_, ?_⟩
        · simp
        · simp
        · simpa using hn
      | succ j =>
        simp only [List.getElem?_cons_succ] at hj
        obtain ⟨o, g1, g2, g3⟩ := e5 j r' hj
        refine ⟨o, by simpa using g1, ?_, ?_⟩
        · rw [g2, hs1v]; push_cast; ring
        · rw [← g3]; congr 1; omega

/-- C6 (as amended): on a server with version counter `v` whose log entries
all have versions `<= v`, a batch of `k` well-formed operations carrying
pairwise distinct opIds unknown to the server, with the log staying within the
retention limit and `k <= max(1, MAX_PULL_LIMIT)`, is accepted whole (`accepted = k`,
`newVersion = v + k`); a following pull with `after = v` and `limit >= k`
returns exactly `k` entries, entry `j` being the normalised operation `j` of
the batch with version `v + 1 + j`, and `latest = v + k`. -/
theorem push_then_pull_delivers (cfg : Config) (h : Host) (s : Server) (ops : List RawOp)
    (limit : Int)
    (hver : ∀ o ∈ s.ops, o.version ≤ s.version)
    (hwf : ∀ r ∈ ops, truthy r.uid = true ∧ truthy r.op = true ∧ truthy r.opId = true)
    (hnd : (ops.map (fun r => r.opId)).Nodup)
    (hnew : ∀ r ∈ ops, ∀ x, r.opId = some x → x ∉ s.opLookup)
    (hfit : ((s.ops.length + ops.length : Nat) : Int) ≤ cfg.MAX_LOG_OPS)
    (hcap : (ops.length : Int) ≤ max 1 cfg.MAX_PULL_LIMIT)
    (hlimit : (ops.length : Int) ≤ limit) :
    (push cfg h s (ops.map some)).2
        = { ok := true, accepted := ops.length, newVersion := s.version + (ops.length : Int) }
      ∧ (pull cfg (push cfg h s (ops.map some)).1 (some s.version) (some limit)).latest
          = s.version + (ops.length : Int)
      ∧ (pull cfg (push cfg h s (ops.map some)).1 (some s.version) (some limit)).ops.length
          = ops.length
      ∧ ∀ (j : Nat) (r : RawOp), ops[j]? = some r →
          ∃ o, (pull cfg (push cfg h s (ops.map some)).1 (some s.version) (some limit)).ops[j]?
                = some o
            ∧ o.version = s.version + 1 + (j : Int)
            ∧ normalizeOp h j (some r) = some o.toNormOp := by
  obtain ⟨e1, e2, new, e3, e4, e5⟩ := pushLoop_fresh h ops 0 s 0 hwf hnd hnew
  have hold : s.ops.filter (fun op => decide (op.version > s.version)) = [] := by
    rw [List.filter_eq_nil_iff]
    intro o ho
    have := hver o ho
    simp only [decide_eq_true_eq]; omega
  have hnewv : ∀ o ∈ new, o.version > s.version := by
    intro o ho
    obtain ⟨j, hj⟩ := List.getElem?_of_mem ho
    have hjlt : j < ops.length := by
      by_contra hge
      rw [List.getElem?_eq_none (by omega)] at hj
      cases hj
    obtain ⟨o', g1, g2, _⟩ := e5 j ops[j] (List.getElem?_eq_getElem hjlt)
    rw [hj] at g1
    cases g1
    omega
  have hfilter : (s.ops ++ new).filter (fun op => decide (op.version > s.version)) = new := by
    rw [List.filter_append, hold, List.nil_append, List.filter_eq_self]
    intro o ho
    simpa using hnewv o ho
  have hstate : (push cfg h s (ops.map some)).1.ops = s.ops ++ new
      ∧ (push cfg h s (ops.map some)).1.version = s.version + (ops.length : Int)
      ∧ (push cfg h s (ops.map some)).2
          = { ok := true, accepted := ops.length
              newVersion := s.version + (ops.length : Int) } := by
    by_cases hne : ops = []
    · subst hne
      have hnil : new = [] := List.length_eq_zero.mp e4
      subst hnil
      simp [push]
    · have hne2 : ops.map some ≠ [] := by simpa using hne
      rw [push_of_nonempty cfg h s _ hne2]
      have hlen : (((pushLoop h 0 (ops.map some) (s, 0)).1.ops.length : Nat) : Int)
          ≤ cfg.MAX_LOG_OPS := by
        rw [e3, List.length_append, e4]; exact hfit
      rw [pruneOps_of_fits cfg _ hlen]
      refine ⟨e3, e2, ?_⟩
      rw [e1, e2]
      simp
  obtain ⟨hs1, hs2, hs3⟩ := hstate
  have hpull : (pull cfg (push cfg h s (ops.map some)).1 (some s.version) (some limit)).ops
      = new := by
    rw [pull_ops_eq, hs1, hfilter]
    apply List.take_of_length_le
    have : (ops.length : Int) ≤ max 1 (min limit cfg.MAX_PULL_LIMIT) := by
      rcases le_max_iff.mp hcap with h1 | h1
      · exact le_max_of_le_left h1
      · exact le_max_of_le_right (le_min hlimit h1)
    omega
  refine ⟨hs3, ?_, ?_, ?_⟩
  · show (push cfg h s (ops.map some)).1.version = _
    exact hs2
  · rw [hpull, e4]
  · intro j r hj
    rw [hpull]
    obtain ⟨o, g1, g2, g3⟩ := e5 j r hj
    exact ⟨o, g1, g2, by simpa using g3⟩

/-- Witness for C6 (as amended): two fresh operations pushed to the empty
server and pulled back with limit 10. -/
theorem push_then_pull_delivers_witness :
    (pull {} (push {} sampleHost Server.empty
        ([sampleRaw "u" "a" "A", sampleRaw "v" "b" "A"].map some)).1
      (some Server.empty.version) (some 10)).ops.length = 2 :=
  (push_then_pull_delivers {} sampleHost Server.empty
    [sampleRaw "u" "a" "A", sampleRaw "v" "b" "A"] 10
    (by intro o ho; exact absurd ho (List.not_mem_nil o))
    (by
      intro r hr
      simp only [List.mem_cons, List.mem_singleton, List.not_mem_nil, or_false] at hr
      rcases hr with rfl | rfl <;> decide)
    (by decide)
    (by intro r _ x _ hx; exact absurd hx (List.not_mem_nil x))
    (by decide) (by decide) (by decide)).2.2.1

/-- Counterexample to C6 as stated: with `MAX_PULL_LIMIT = 1`, two fresh
operations are pushed and accepted, yet a pull with `after = 0` and
`limit = 2` returns only the first of them. -/
theorem pull_capped_below_batch :
    (push { MAX_PULL_LIMIT := 1 } sampleHost Server.empty
        [some (sampleRaw "u" "a" "A"), some (sampleRaw "v" "b" "A")]).2.accepted = 2
      ∧ ((pull { MAX_PULL_LIMIT := 1 }
          (push { MAX_PULL_LIMIT := 1 } sampleHost Server.empty
            [some (sampleRaw "u" "a" "A"), some (sampleRaw "v" "b" "A")]).1
          (some 0) (some 2)).ops.map (fun o => (o.opId, o.version))) = [("a", 1)] := by
  decide

/-! ## C2 and C3: the cursor and what was applied -/

/-- C2, the code at a failing input: the server log holds 51 entries of
device "A" (versions 1 .. 51) and device "B" pulls from cursor 0 with page
size 50. The cycle completes with cursor 51 after handing only the entries
with versions 1 .. 50 to `applyOp`: the entry with version 51 lies within the
advanced cursor and was never applied. -/
theorem pullOps_skips_past_first_page :
    (sampleEntries 51).map (fun o => o.version)
        = (List.range 51).map (fun (i : Nat) => (i : Int) + 1)
      ∧ (pullOps (serverFetch {}) 3
            { version := 51, ops := sampleEntries 51, opLookup := ["id"] }
            (sampleWorld 50)).map
          (fun r => (r.2.1.st.lastVersion, r.2.2.1.map (fun o => o.version), r.2.2.2))
        = some (51, (List.range 50).map (fun (i : Nat) => (i : Int) + 1), Outcome.completed) := by
  decide

/-- C3, the code at a failing input: the server log holds one entry of device
"A" (version 1) that device "B", at cursor 0, has not pulled. "B" pushes one
queued operation: the push succeeds, the cursor becomes 2, and nothing was
applied (no call reached the tree). The pull that follows reads after version
2, hands nothing to `applyOp` and leaves the tree as it was. -/
theorem pushOps_adopts_version_without_applying :
    (pushOps (serverPost {} sampleHost) []
        { version := 1, ops := sampleEntries 1, opLookup := ["id"] }
        { sampleWorld 200 with
          st := { (sampleWorld 200).st with opQueue := [sampleRaw "v" "b" "B"] } }).2.1
      = { sampleWorld 200 with st := { (sampleWorld 200).st with lastVersion := 2 } }
      ∧ (pullOps (serverFetch {}) 3
          (pushOps (serverPost {} sampleHost) []
            { version := 1, ops := sampleEntries 1, opLookup := ["id"] }
            { sampleWorld 200 with
              st := { (sampleWorld 200).st with opQueue := [sampleRaw "v" "b" "B"] } }).1
          { sampleWorld 200 with st := { (sampleWorld 200).st with lastVersion := 2 } }).map
        (fun r => (r.2.1, r.2.2.1, r.2.2.2))
        = some ({ sampleWorld 200 with st := { (sampleWorld 200).st with lastVersion := 2 } },
            [], Outcome.completed) := by
  decide

/-! ## C9: self-origin suppression -/

/-- C9: an operation that carries a `deviceId` equal to the applying device's
id (initialize always gives the device a non-empty one) changes nothing,
whatever its kind: `applyOp` returns without throwing, no call is issued to
the tree, and the client state (identity map, conflict-container id, replay
depth) and the tree are as before. -/
theorem applyOp_self_origin_suppressed (w : World) (op : RawOp)
    (hcarried : truthy op.deviceId = true) (hself : op.deviceId = w.st.deviceId) :
    applyOp w op = (w, true)
      ∧ (applyOp w op).1.calls = w.calls
      ∧ (applyOp w op).1.tree = w.tree
      ∧ (applyOp w op).1.st.bookmarkIndex = w.st.bookmarkIndex
      ∧ (applyOp w op).1.st.conflictFolderLocalId = w.st.conflictFolderLocalId := by
  have h : applyOp w op = (w, true) := by
    unfold applyOp
    by_cases hmal : (!truthy op.uid || !truthy op.op) = true
    · rw [if_pos hmal]
    · rw [if_neg hmal, if_pos]
      rw [hcarried, hself]
      simp
  rw [h]
  exact ⟨rfl, rfl, rfl, rfl, rfl⟩

/-- Witness for C9: device "B" is handed a create that it sent itself. -/
theorem applyOp_self_origin_suppressed_witness :
    applyOp (sampleWorld 200) (sampleRaw "n" "x" "B") = (sampleWorld 200, true) :=
  (applyOp_self_origin_suppressed (sampleWorld 200) (sampleRaw "n" "x" "B")
    (by decide) (by decide)).1

/-! ## Lemmas on the local tree and the apply engine -/

theorem find?_insertAt_self (n : TNode) :
    ∀ (nodes : List TNode) (pid i : Nat), (∀ x ∈ nodes, x.id ≠ n.id) →
      (insertAt nodes pid i n).find? (fun m => decide (m.id = n.id)) = some n := by
  intro nodes
  induction nodes with
  | nil => intro pid i _; simp [insertAt]
  | cons x xs ih =>
    intro pid i hne
    have hx : x.id ≠ n.id := hne x (List.mem_cons_self _ _)
    have hxs : ∀ y ∈ xs, y.id ≠ n.id := fun y hy => hne y (List.mem_cons_of_mem _ hy)
    unfold insertAt
    by_cases hp : x.parentId = some pid
    · rw [if_pos hp]
      cases i with
      | zero => simp
      | succ k => simp [hx, ih pid k hxs]
    · rw [if_neg hp]
      simp [hx, ih pid i hxs]

theorem find?_insertAt_other (n : TNode) (id : Nat) (hid : n.id ≠ id) :
    ∀ (nodes : List TNode) (pid i : Nat),
      (insertAt nodes pid i n).find? (fun m => decide (m.id = id))
        = nodes.find? (fun m => decide (m.id = id)) := by
  intro nodes
  induction nodes with
  | nil => intro pid i; simp [insertAt, hid]
  | cons x xs ih =>
    intro pid i
    unfold insertAt
    by_cases hp : x.parentId = some pid
    · rw [if_pos hp]
      cases i with
      | zero => simp [hid]
      | succ k =>
        by_cases hx : x.id = id
        · simp [hx]
        · simp [hx, ih pid k]
    · rw [if_neg hp]
      by_cases hx : x.id = id
      · simp [hx]
      · simp [hx, ih pid i]

theorem le_foldr_max (l : List Nat) (x : Nat) (hx : x ∈ l) : x ≤ l.foldr max 0 := by
  induction l with
  | nil => simp at hx
  | cons a t ih =>
    rw [List.foldr_cons]
    rcases List.mem_cons.mp hx with rfl | h
    · exact le_max_left _ _
    · exact le_trans (ih h) (le_max_right _ _)

theorem lt_freshId (t : Tree) (x : TNode) (hx : x ∈ t.nodes) : x.id < t.freshId := by
  unfold Tree.freshId
  have := le_foldr_max (t.nodes.map (fun n => n.id)) x.id (List.mem_map.mpr ⟨x, hx, rfl⟩)
  omega

theorem find_freshId (t : Tree) : t.find t.freshId = none := by
  unfold Tree.find
  rw [List.find?_eq_none]
  intro x hx
  have := lt_freshId t x hx
  simp
  omega

theorem find_some_id {t : Tree} {id : Nat} {n : TNode} (h : t.find id = some n) : n.id = id := by
  unfold Tree.find at h
  have := List.find?_some h
  simpa using this

theorem find_some_mem {t : Tree} {id : Nat} {n : TNode} (h : t.find id = some n) :
    n ∈ t.nodes := by
  unfold Tree.find at h
  exact List.mem_of_find?_eq_some h

/-- What an accepted `create` returns and leaves in the tree. -/
theorem Tree.create_spec {t t1 : Tree} {parentId : Nat} {index : Option Int} {title : String}
    {url : Option String} {b : BNode} (h : t.create parentId index title url = some (t1, b)) :
    b.id = t.freshId
      ∧ t.find b.id = none
      ∧ t1.find b.id
          = some { id := b.id, parentId := some parentId, title := title, url := url }
      ∧ ∀ id n, t.find id = some n → t1.find id = some n := by
  unfold Tree.create at h
  cases hp : t.find parentId with
  | none => simp [hp] at h
  | some p =>
    simp only [hp] at h
    split at h
    · cases h
    · split at h
      · cases h
      · simp only [Option.some.injEq, Prod.mk.injEq] at h
        obtain ⟨ht, hb⟩ := h
        subst ht hb
        refine ⟨rfl, find_freshId t, ?_, ?_⟩
        · exact find?_insertAt_self
            { id := t.freshId, parentId := some parentId, title := title, url := url } _ _ _
            (fun x hx => by
              have := lt_freshId t x hx
              simp only [ne_eq]
              omega)
        · intro id n hn
          have e : n.id = id := find_some_id hn
          have l := lt_freshId t n (find_some_mem hn)
          have hne : t.freshId ≠ id := by omega
          show List.find? _ _ = _
          rw [find?_insertAt_other _ id hne]
          exact hn

/-- Creating a folder behind the last child of an existing folder that is not
the root is accepted. -/
theorem Tree.create_append_isSome (t : Tree) (parentId : Nat) (title : String) (p : TNode)
    (hedit : t.editable = true) (hp : t.find parentId = some p) (hfolder : p.url = none)
    (hchild : p.parentId.isSome = true) :
    (t.create parentId none title none).isSome = true := by
  unfold Tree.create
  simp only [hp]
  have h1 : ¬ (t.editable = false ∨ p.url.isSome = true ∨ p.parentId.isNone = true) := by
    rw [hfolder, hedit]
    cases hpp : p.parentId with
    | none => rw [hpp] at hchild; simp at hchild
    | some q => simp
  rw [if_neg h1]
  simp

/-- What an accepted `move` leaves in the tree. -/
theorem Tree.move_spec {t t1 : Tree} {id parentId : Nat} {index : Option Int}
    (h : t.move id parentId index = some t1) :
    ∃ n, t.find id = some n ∧ t1.find id = some { n with parentId := some parentId } := by
  unfold Tree.move at h
  cases hn : t.find id with
  | none => simp [hn] at h
  | some n =>
    cases hp : t.find parentId with
    | none => simp [hn, hp] at h
    | some p =>
      simp only [hn, hp] at h
      split at h
      · cases h
      · split at h
        · cases h
        · simp only [Option.some.injEq] at h
          subst h
          refine ⟨n, rfl, ?_⟩
          have hid : n.id = id := find_some_id hn
          subst hid
          exact find?_insertAt_self { n with parentId := some parentId }
            (t.nodes.filter (fun m => decide (m.id ≠ n.id))) parentId
            (index.getD ((t.nodes.filter (fun m => decide (m.id ≠ n.id))).filter
              (fun m => decide (m.parentId = some parentId))).length).toNat
            (by
              intro x hx
              have := (List.mem_filter.mp hx).2
              simpa using this)

theorem Tree.get_spec {t : Tree} {id : Nat} {b : BNode} (h : t.get id = some b) :
    ∃ n, t.find id = some n ∧ b.parentId = n.parentId ∧ b.id = id := by
  unfold Tree.get at h
  cases hn : t.find id with
  | none => simp [hn] at h
  | some n =>
    simp only [hn, Option.map_some', Option.some.injEq] at h
    subst h
    exact ⟨n, rfl, rfl, find_some_id hn⟩

theorem dictGet_dictSet {κ ν : Type} [DecidableEq κ] (d : List (κ × ν)) (k : κ) (v : ν) :
    dictGet (dictSet d k v) k = some v := by
  unfold dictSet dictGet
  by_cases h : d.any (fun e => decide (e.1 = k)) = true
  · rw [if_pos h]
    induction d with
    | nil => simp at h
    | cons e rest ih =>
      by_cases he : e.1 = k
      · simp [he]
      · simp only [List.any_cons, he, decide_False, Bool.false_or] at h
        simp [he, List.find?_cons]
        have := ih h
        simpa using this
  · rw [if_neg h]
    have hnone : d.find? (fun e => decide (e.1 = k)) = none := by
      rw [List.find?_eq_none]
      intro x hx
      simp only [Bool.not_eq_true, List.any_eq_false] at h
      have := h x hx
      simpa using this
    rw [List.find?_append, hnone]
    simp

theorem lookupLocalId_congr {st1 st2 : Client} (h : st1.bookmarkIndex = st2.bookmarkIndex)
    (u : Option String) : lookupLocalId st1 u = lookupLocalId st2 u := by
  unfold lookupLocalId
  rw [h]

theorem lookupLocalId_setMapping (st : Client) (lid : Nat) (uid : Option String) (u : String)
    (hu : nonEmpty? uid = some u) :
    lookupLocalId (persistBookmarkIndex (setMapping st lid (uid.getD ""))) uid = some lid := by
  have huid : uid = some u := nonEmpty?_eq hu
  have hix : (persistBookmarkIndex (setMapping st lid (uid.getD ""))).bookmarkIndex
      = (setMapping st lid u).bookmarkIndex := by
    rw [huid]
    unfold persistBookmarkIndex
    split <;> rfl
  rw [lookupLocalId_congr hix]
  unfold lookupLocalId setMapping
  simp only [hu, dictGet_dictSet]

theorem persist_conflict (st : Client) :
    (persistBookmarkIndex st).conflictFolderLocalId = st.conflictFolderLocalId := by
  unfold persistBookmarkIndex
  split <;> rfl


/-- The conflict container is created: the call issued, and what holds when
the creation is accepted. -/
theorem createConflictFolder_spec (w : World) :
    ((createConflictFolder w).2 = none →
        (createConflictFolder w).1.calls
            = w.calls ++ [(Call.create DEFAULT_ROOT_ID none CONFLICT_FOLDER_TITLE none, false)]
          ∧ w.tree.create DEFAULT_ROOT_ID none CONFLICT_FOLDER_TITLE none = none)
      ∧ ∀ cid, (createConflictFolder w).2 = some cid →
          (createConflictFolder w).1.calls
              = w.calls ++ [(Call.create DEFAULT_ROOT_ID none CONFLICT_FOLDER_TITLE none, true)]
            ∧ (createConflictFolder w).1.st = { w.st with conflictFolderLocalId := some cid }
            ∧ ∀ id n, w.tree.find id = some n →
                (createConflictFolder w).1.tree.find id = some n := by
  unfold createConflictFolder bookmarksCreate
  cases hcr : w.tree.create DEFAULT_ROOT_ID none CONFLICT_FOLDER_TITLE none with
  | none =>
    refine ⟨fun _ => ⟨rfl, rfl⟩, ?_⟩
    intro cid h
    simp at h
  | some r =>
    obtain ⟨t1, b⟩ := r
    refine ⟨fun h => by simp at h, ?_⟩
    intro cid h
    simp only [Option.some.injEq] at h
    subst h
    exact ⟨rfl, rfl, fun id n hn => (Tree.create_spec hcr).2.2.2 id n hn⟩

/-- The calls `ensureConflictFolder` issues, when it throws, and what holds
when it returns an id. -/
theorem ensureConflictFolder_spec (w : World) :
    ∃ l, (ensureConflictFolder w).1.calls = w.calls ++ l
      ∧ ((ensureConflictFolder w).2 = none →
          (Call.create DEFAULT_ROOT_ID none CONFLICT_FOLDER_TITLE none, false) ∈ l
            ∧ w.tree.create DEFAULT_ROOT_ID none CONFLICT_FOLDER_TITLE none = none)
      ∧ ∀ cid, (ensureConflictFolder w).2 = some cid →
          (ensureConflictFolder w).1.st = { w.st with conflictFolderLocalId := some cid }
            ∧ ∀ id n, w.tree.find id = some n →
                (ensureConflictFolder w).1.tree.find id = some n := by
  unfold ensureConflictFolder
  cases hcf : w.st.conflictFolderLocalId with
  | none =>
    simp only
    have hs := createConflictFolder_spec w
    cases hr : (createConflictFolder w).2 with
    | none =>
      refine ⟨_, (hs.1 hr).1, fun _ => ⟨by simp, (hs.1 hr).2⟩, fun cid h => by simp at h⟩
    | some c =>
      refine ⟨_, (hs.2 c hr).1, fun h => by simp at h, ?_⟩
      intro cid h
      simp only [Option.some.injEq] at h
      subst h
      exact ⟨(hs.2 c hr).2.1, (hs.2 c hr).2.2⟩
  | some cached =>
    simp only
    unfold bookmarksGet
    cases hg : w.tree.get cached with
    | none =>
      simp only
      have hs := createConflictFolder_spec
        { w with calls := w.calls ++ [(Call.get cached, (none : Option BNode).isSome)] }
      cases hr : (createConflictFolder
          { w with calls := w.calls ++ [(Call.get cached, (none : Option BNode).isSome)] }).2 with
      | none =>
        refine ⟨[(Call.get cached, false)]
            ++ [(Call.create DEFAULT_ROOT_ID none CONFLICT_FOLDER_TITLE none, false)],
          ?_, fun _ => ⟨by simp, (hs.1 hr).2⟩, fun cid h => by simp at h⟩
        rw [(hs.1 hr).1]
        simp
      | some c =>
        refine ⟨[(Call.get cached, false)]
            ++ [(Call.create DEFAULT_ROOT_ID none CONFLICT_FOLDER_TITLE none, true)],
          ?_, fun h => by simp at h, ?_⟩
        · rw [(hs.2 c hr).1]
          simp
        · intro cid h
          simp only [Option.some.injEq] at h
          subst h
          exact ⟨(hs.2 c hr).2.1, (hs.2 c hr).2.2⟩
    | some node =>
      simp only
      refine ⟨[(Call.get cached, true)], by simp, ?_, ?_⟩
      · intro h; simp at h
      · intro cid h
        simp only [Option.some.injEq] at h
        subst h
        refine ⟨?_, fun id n hn => hn⟩
        rw [← hcf]

theorem bookmarksUpdate_spec (w : World) (id : Nat) (title url : Option String) :
    (bookmarksUpdate w id title url).1.st = w.st
      ∧ ∃ x, (bookmarksUpdate w id title url).1.calls = w.calls ++ [x] := by
  unfold bookmarksUpdate
  cases w.tree.update id title url <;> exact ⟨rfl, _, rfl⟩

theorem bookmarksMove_spec (w : World) (id pid : Nat) (index : Option Int) :
    (bookmarksMove w id pid index).1.st = w.st
      ∧ ((bookmarksMove w id pid index).1.calls
            = w.calls ++ [(Call.move id pid index, false)]
          ∨ ((bookmarksMove w id pid index).1.calls
              = w.calls ++ [(Call.move id pid index, true)]
            ∧ ∃ t1, w.tree.move id pid index = some t1
                ∧ (bookmarksMove w id pid index).1.tree = t1)) := by
  unfold bookmarksMove
  cases h : w.tree.move id pid index with
  | none => exact ⟨rfl, Or.inl rfl⟩
  | some t1 => exact ⟨rfl, Or.inr ⟨rfl, t1, rfl, rfl⟩⟩

theorem maybeUpdateNode_spec (w : World) (lid : Nat) (op : RawOp) (isFolder : Bool) :
    (maybeUpdateNode w lid op isFolder).st = w.st
      ∧ ∃ l, (maybeUpdateNode w lid op isFolder).calls = w.calls ++ l := by
  unfold maybeUpdateNode
  simp only
  by_cases h : op.title.isNone = true ∧ (if isFolder = true then none else op.url).isNone = true
  · rw [if_pos h]
    exact ⟨rfl, [], by simp⟩
  · rw [if_neg h]
    obtain ⟨h1, x, h2⟩ := bookmarksUpdate_spec w lid op.title
      (if isFolder = true then none else op.url)
    exact ⟨h1, [x], h2⟩

/-- The calls `maybeMove` issues; when the tree accepts them all, the node sits
under the parent asked for. -/
theorem maybeMove_spec (w : World) (lid pid : Nat) (idx : JIndex) :
    (maybeMove w lid pid idx).st = w.st
      ∧ ∃ l, (maybeMove w lid pid idx).calls = w.calls ++ l
        ∧ ((∀ c ∈ l, c.2 = true) →
            ∃ n, (maybeMove w lid pid idx).tree.find lid = some n ∧ n.parentId = some pid) := by
  unfold maybeMove bookmarksGet
  cases hg : w.tree.get lid with
  | none =>
    refine ⟨rfl, [(Call.get lid, false)], rfl, ?_⟩
    intro h
    have := h (Call.get lid, false) (by simp)
    simp at this
  | some node =>
    obtain ⟨n0, hn0, hpar, _⟩ := Tree.get_spec hg
    simp only
    by_cases hno : (!decide (node.parentId ≠ some pid)) = true
        ∧ (!(match finiteIndex idx with
              | some i => decide (node.index ≠ i)
              | none => false)) = true
    · rw [if_pos hno]
      refine ⟨rfl, [(Call.get lid, true)], rfl, ?_⟩
      intro _
      refine ⟨n0, hn0, ?_⟩
      rw [← hpar]
      have := hno.1
      simpa using this
    · rw [if_neg hno]
      obtain ⟨h1, h2⟩ := bookmarksMove_spec
        { w with calls := w.calls ++ [(Call.get lid, (some node : Option BNode).isSome)] }
        lid pid
        (if (match finiteIndex idx with
              | some i => decide (node.index ≠ i)
              | none => false) = true then finiteIndex idx else none)
      refine ⟨h1, ?_⟩
      rcases h2 with h2 | ⟨h2, t1, hm, ht⟩
      · refine ⟨_, by rw [h2, List.append_assoc], ?_⟩
        intro h
        have := h _ (List.mem_append_right _ (List.mem_singleton_self _))
        simp at this
      · refine ⟨_, by rw [h2, List.append_assoc], ?_⟩
        intro _
        rw [ht]
        obtain ⟨n, _, hn⟩ := Tree.move_spec hm
        exact ⟨_, hn, rfl⟩

theorem resolveParentLocalId_orphan (w : World) (pu : Option String)
    (hparent : truthy pu = true) (horphan : lookupLocalId w.st pu = none) :
    resolveParentLocalId w pu = ensureConflictFolder w := by
  unfold resolveParentLocalId
  simp [hparent, horphan]

/-- A create whose parent is unknown: the calls issued, when it throws, and
where the node ends up when the tree accepts the calls. -/
theorem applyCreate_orphan (w : World) (op : RawOp) (u : String)
    (hu : nonEmpty? op.uid = some u) (hparent : truthy op.parentUid = true)
    (horphan : lookupLocalId w.st op.parentUid = none) :
    ∃ l, (applyCreate w op).1.calls = w.calls ++ l
      ∧ ((applyCreate w op).2 = false →
          (Call.create DEFAULT_ROOT_ID none CONFLICT_FOLDER_TITLE none, false) ∈ l
            ∧ w.tree.create DEFAULT_ROOT_ID none CONFLICT_FOLDER_TITLE none = none)
      ∧ ((∀ c ∈ l, c.2 = true) →
          (applyCreate w op).2 = true
            ∧ ∃ lid cid n, lookupLocalId (applyCreate w op).1.st op.uid = some lid
                ∧ (applyCreate w op).1.st.conflictFolderLocalId = some cid
                ∧ (applyCreate w op).1.tree.find lid = some n
                ∧ n.parentId = some cid
                ∧ (lookupLocalId w.st op.uid = none → w.tree.find lid = none)
                ∧ ∀ l0, lookupLocalId w.st op.uid = some l0 → lid = l0) := by
  unfold applyCreate
  rw [resolveParentLocalId_orphan w op.parentUid hparent horphan]
  obtain ⟨l1, hc1, hnone, hsome⟩ := ensureConflictFolder_spec w
  generalize ensureConflictFolder w = e at hc1 hnone hsome ⊢
  obtain ⟨w1, res⟩ := e
  cases res with
  | none =>
    simp only at hc1 hnone ⊢
    refine ⟨l1, hc1, fun _ => hnone (by simp), ?_⟩
    intro hacc
    have := hacc _ (hnone (by simp)).1
    simp at this
  | some cid =>
    obtain ⟨hst, hmono⟩ := hsome cid rfl
    simp only at hc1 hst hmono ⊢
    cases hl : lookupLocalId w.st op.uid with
    | some lid =>
      simp only
      obtain ⟨hs2, l2, hc2⟩ := maybeUpdateNode_spec w1 lid op (isFolderOp op)
      obtain ⟨hs3, l3, hc3, hplace⟩ :=
        maybeMove_spec (maybeUpdateNode w1 lid op (isFolderOp op)) lid cid op.index
      refine ⟨l1 ++ l2 ++ l3, ?_, fun h => by simp at h, ?_⟩
      · rw [hc3, hc2, hc1, List.append_assoc, List.append_assoc, List.append_assoc]
      · intro hacc
        refine ⟨by simp, ?_⟩
        obtain ⟨n, hn, hp⟩ := hplace (fun c hc => hacc c (List.mem_append_right _ hc))
        refine ⟨lid, cid, n, ?_, ?_, hn, hp, fun h => by simp at h, ?_⟩
        · rw [@lookupLocalId_congr _ w.st (by rw [hs3, hs2, hst]) op.uid, hl]
        · rw [hs3, hs2, hst]
        · intro l0 h0
          simp only [Option.some.injEq] at h0
          exact h0
    | none =>
      simp only
      unfold bookmarksCreate
      cases hcr : w1.tree.create cid (finiteIndex op.index) ((nonEmpty? op.title).getD "")
          (if isFolderOp op = true then none else nonEmpty? op.url) with
      | none =>
        simp only
        refine ⟨l1 ++ [(Call.create cid (finiteIndex op.index) ((nonEmpty? op.title).getD "")
            (if isFolderOp op = true then none else nonEmpty? op.url), false)], ?_,
          fun h => by simp at h, ?_⟩
        · rw [hc1, List.append_assoc]
        · intro hacc
          have := hacc _ (List.mem_append_right _ (List.mem_singleton_self _))
          simp at this
      | some r =>
        obtain ⟨t2, b⟩ := r
        simp only
        obtain ⟨_, hfresh, hfind, _⟩ := Tree.create_spec hcr
        refine ⟨l1 ++ [(Call.create cid (finiteIndex op.index) ((nonEmpty? op.title).getD "")
            (if isFolderOp op = true then none else nonEmpty? op.url), true)], ?_,
          fun h => by simp at h, ?_⟩
        · rw [hc1, List.append_assoc]
        · intro _
          refine ⟨by simp, b.id, cid, _, lookupLocalId_setMapping w1.st b.id op.uid u hu, ?_, hfind,
            rfl, ?_, fun l0 h0 => by simp at h0⟩
          · rw [persist_conflict]
            show w1.st.conflictFolderLocalId = some cid
            rw [hst]
          · intro _
            cases hw : w.tree.find b.id with
            | none => rfl
            | some n0 =>
              rw [hmono b.id n0 hw] at hfresh
              cases hfresh

/-- A move of a mapped node whose new parent is unknown. -/
theorem applyMove_orphan (w : World) (op : RawOp) (lid : Nat)
    (hmapped : lookupLocalId w.st op.uid = some lid) (hparent : truthy op.parentUid = true)
    (horphan : lookupLocalId w.st op.parentUid = none) :
    ∃ l, (applyMove w op).1.calls = w.calls ++ l
      ∧ ((applyMove w op).2 = false →
          (Call.create DEFAULT_ROOT_ID none CONFLICT_FOLDER_TITLE none, false) ∈ l
            ∧ w.tree.create DEFAULT_ROOT_ID none CONFLICT_FOLDER_TITLE none = none)
      ∧ ((∀ c ∈ l, c.2 = true) →
          (applyMove w op).2 = true
            ∧ ∃ cid n, lookupLocalId (applyMove w op).1.st op.uid = some lid
                ∧ (applyMove w op).1.st.conflictFolderLocalId = some cid
                ∧ (applyMove w op).1.tree.find lid = some n
                ∧ n.parentId = some cid) := by
  unfold applyMove
  rw [hmapped]
  simp only
  rw [resolveParentLocalId_orphan w op.parentUid hparent horphan]
  obtain ⟨l1, hc1, hnone, hsome⟩ := ensureConflictFolder_spec w
  generalize ensureConflictFolder w = e at hc1 hnone hsome ⊢
  obtain ⟨w1, res⟩ := e
  cases res with
  | none =>
    simp only at hc1 hnone ⊢
    refine ⟨l1, hc1, fun _ => hnone (by simp), ?_⟩
    intro hacc
    have := hacc _ (hnone (by simp)).1
    simp at this
  | some cid =>
    obtain ⟨hst, _⟩ := hsome cid rfl
    simp only at hc1 hst ⊢
    obtain ⟨hs3, l3, hc3, hplace⟩ := maybeMove_spec w1 lid cid op.index
    refine ⟨l1 ++ l3, ?_, fun h => by simp at h, ?_⟩
    · rw [hc3, hc1, List.append_assoc]
    · intro hacc
      refine ⟨by simp, ?_⟩
      obtain ⟨n, hn, hp⟩ := hplace (fun c hc => hacc c (List.mem_append_right _ hc))
      refine ⟨cid, n, ?_, ?_, hn, hp⟩
      · rw [@lookupLocalId_congr _ w.st (by rw [hs3, hst]) op.uid, hmapped]
      · rw [hs3, hst]

/-- `applyOp` on a well-formed operation of another device runs the handler
inside `withReplay`. -/
theorem applyOp_foreign (w : World) (op : RawOp) (huid : truthy op.uid = true)
    (hop : truthy op.op = true)
    (hother : ¬ (truthy op.deviceId = true ∧ op.deviceId = w.st.deviceId)) :
    applyOp w op = withReplay w (fun w1 => applyKind w1 op) := by
  unfold applyOp
  have h1 : ¬ ((!truthy op.uid || !truthy op.op) = true) := by simp [huid, hop]
  have h2 : ¬ ((truthy op.deviceId && decide (op.deviceId = w.st.deviceId)) = true) := by
    simpa using hother
  rw [if_neg h1, if_neg h2]

/-! ## C10: the orphan fallback -/

/-- C10 (as amended): for an operation of kind create or move that carries a
uid, comes from another device and names a non-empty `parentUid` that resolves
to no local id:
* a move for an unmapped uid changes nothing;
* `applyOp` throws only when the tree rejects the creation of the conflict
  container under the default root, so never when bookmarks can be edited
  and that root exists as a folder below the tree's root;
* when the tree accepts every call `applyOp` issues, `applyOp` does not throw
  and, for a create or a move of a mapped uid, the node mapped to the uid is a
  child of the conflict container: a node that did not exist before for an
  unmapped create, the node already mapped otherwise. -/
theorem applyOp_orphan_goes_to_conflict_container (w : World) (op : RawOp)
    (huid : truthy op.uid = true)
    (hkind : op.op = some "create" ∨ op.op = some "move")
    (hother : ¬ (truthy op.deviceId = true ∧ op.deviceId = w.st.deviceId))
    (hparent : truthy op.parentUid = true)
    (horphan : lookupLocalId w.st op.parentUid = none) :
    (op.op = some "move" → lookupLocalId w.st op.uid = none → applyOp w op = (w, true))
      ∧ ((applyOp w op).2 = false →
          (Call.create DEFAULT_ROOT_ID none CONFLICT_FOLDER_TITLE none, false)
              ∈ (applyOp w op).1.calls.drop w.calls.length
            ∧ w.tree.create DEFAULT_ROOT_ID none CONFLICT_FOLDER_TITLE none = none)
      ∧ (w.tree.editable = true →
          (∃ root, w.tree.find DEFAULT_ROOT_ID = some root ∧ root.url = none
            ∧ root.parentId.isSome = true) → (applyOp w op).2 = true)
      ∧ ((∀ c ∈ (applyOp w op).1.calls.drop w.calls.length, c.2 = true) →
          (op.op = some "create" ∨ (lookupLocalId w.st op.uid).isSome = true) →
          (applyOp w op).2 = true
            ∧ ∃ lid cid n, lookupLocalId (applyOp w op).1.st op.uid = some lid
                ∧ (applyOp w op).1.st.conflictFolderLocalId = some cid
                ∧ (applyOp w op).1.tree.find lid = some n
                ∧ n.parentId = some cid
                ∧ (lookupLocalId w.st op.uid = none → w.tree.find lid = none)
                ∧ ∀ l0, lookupLocalId w.st op.uid = some l0 → lid = l0) := by
  have hop : truthy op.op = true := by
    rcases hkind with h | h <;> rw [h] <;> decide
  obtain ⟨u, hu⟩ := Option.isSome_iff_exists.mp (show (nonEmpty? op.uid).isSome = true from huid)
  rw [applyOp_foreign w op huid hop hother]
  -- the world the handler starts from
  generalize hw1 : ({ w with st := { w.st with replayDepth := w.st.replayDepth + 1 } } : World)
    = w1
  have hw1c : w1.calls = w.calls := by rw [← hw1]
  have hw1t : w1.tree = w.tree := by rw [← hw1]
  have hw1l : ∀ x, lookupLocalId w1.st x = lookupLocalId w.st x := by
    intro x; rw [← hw1]; exact lookupLocalId_congr rfl x
  have horphan1 : lookupLocalId w1.st op.parentUid = none := by rw [hw1l]; exact horphan
  -- what the handler does
  have hhandler : ∃ l, (applyKind w1 op).1.calls = w.calls ++ l
      ∧ ((applyKind w1 op).2 = false →
          (Call.create DEFAULT_ROOT_ID none CONFLICT_FOLDER_TITLE none, false) ∈ l
            ∧ w.tree.create DEFAULT_ROOT_ID none CONFLICT_FOLDER_TITLE none = none)
      ∧ ((∀ c ∈ l, c.2 = true) →
          (op.op = some "create" ∨ (lookupLocalId w.st op.uid).isSome = true) →
          (applyKind w1 op).2 = true
            ∧ ∃ lid cid n, lookupLocalId (applyKind w1 op).1.st op.uid = some lid
                ∧ (applyKind w1 op).1.st.conflictFolderLocalId = some cid
                ∧ (applyKind w1 op).1.tree.find lid = some n
                ∧ n.parentId = some cid
                ∧ (lookupLocalId w.st op.uid = none → w.tree.find lid = none)
                ∧ ∀ l0, lookupLocalId w.st op.uid = some l0 → lid = l0) := by
    unfold applyKind
    rcases hkind with hk | hk
    · rw [if_pos hk]
      obtain ⟨l, h1, h2, h3⟩ := applyCreate_orphan w1 op u hu hparent horphan1
      rw [hw1c, hw1t, hw1l] at *
      exact ⟨l, h1, h2, fun hacc _ => h3 hacc⟩
    · have hk1 : op.op ≠ some "create" := by rw [hk]; decide
      have hk2 : op.op ≠ some "update" := by rw [hk]; decide
      rw [if_neg hk1, if_neg hk2, if_pos hk]
      cases hm : lookupLocalId w.st op.uid with
      | none =>
        have : applyMove w1 op = (w1, true) := by
          unfold applyMove
          rw [hw1l, hm]
        rw [this]
        refine ⟨[], by simp [hw1c], fun h => by simp at h, ?_⟩
        intro _ hc
        rcases hc with hc | hc
        · rw [hk] at hc; exact absurd hc (by decide)
        · simp at hc
      | some lid =>
        obtain ⟨l, h1, h2, h3⟩ := applyMove_orphan w1 op lid (by rw [hw1l]; exact hm)
          hparent horphan1
        rw [hw1c, hw1t] at *
        refine ⟨l, h1, h2, ?_⟩
        intro hacc _
        obtain ⟨hf, cid, n, g1, g2, g3, g4⟩ := h3 hacc
        exact ⟨hf, lid, cid, n, g1, g2, g3, g4, fun h => by simp at h,
          fun l0 h0 => by simpa using h0⟩
  obtain ⟨l, hc, hfail, hplace⟩ := hhandler
  have hres : withReplay w (fun w1 => applyKind w1 op)
      = ({ (applyKind w1 op).1 with
            st := { (applyKind w1 op).1.st with
              replayDepth := (applyKind w1 op).1.st.replayDepth - 1 } },
          (applyKind w1 op).2) := by
    unfold withReplay
    simp only [hw1]
  have hdrop : (withReplay w (fun w1 => applyKind w1 op)).1.calls.drop w.calls.length = l := by
    rw [hres]
    show List.drop w.calls.length (applyKind w1 op).1.calls = l
    rw [hc, List.drop_left]
  refine ⟨?_, ?_, ?_, ?_⟩
  · intro hk hm
    have hk1 : op.op ≠ some "create" := by rw [hk]; decide
    have hk2 : op.op ≠ some "update" := by rw [hk]; decide
    have : (fun w1 => applyKind w1 op) = fun w1 => applyMove w1 op := by
      funext w2
      unfold applyKind
      rw [if_neg hk1, if_neg hk2, if_pos hk]
    rw [this]
    unfold withReplay
    simp only [hw1]
    have hmv : applyMove w1 op = (w1, true) := by
      unfold applyMove
      rw [hw1l, hm]
    rw [hmv]
    subst hw1
    obtain ⟨st, tree, calls⟩ := w
    cases st
    simp
  · intro hf
    rw [hdrop]
    rw [hres] at hf
    exact hfail hf
  · rintro hedit ⟨root, hroot, hurl, hpar⟩
    rw [hres]
    show (applyKind w1 op).2 = true
    by_contra hne
    have hf : (applyKind w1 op).2 = false := by simpa using hne
    have hcreate := (hfail hf).2
    have hsome := Tree.create_append_isSome w.tree DEFAULT_ROOT_ID CONFLICT_FOLDER_TITLE root
      hedit hroot hurl hpar
    rw [hcreate] at hsome
    simp at hsome
  · intro hacc hcase
    rw [hdrop] at hacc
    rw [hres]
    obtain ⟨hf, lid, cid, n, g1, g2, g3, g4, g5, g6⟩ := hplace hacc hcase
    refine ⟨hf, lid, cid, n, ?_, g2, g3, g4, g5, g6⟩
    rw [← g1]
    exact lookupLocalId_congr rfl _

/-- Witness for C10 (as amended): device "B" on the sample tree applies a
create of device "A" whose parent it does not know; every call is accepted. -/
theorem applyOp_orphan_goes_to_conflict_container_witness :
    (applyOp (sampleWorld 200) (sampleOrphan "create" "n1")).2 = true
      ∧ ∃ lid cid n,
          lookupLocalId (applyOp (sampleWorld 200) (sampleOrphan "create" "n1")).1.st
              (sampleOrphan "create" "n1").uid = some lid
            ∧ (applyOp (sampleWorld 200)
                (sampleOrphan "create" "n1")).1.st.conflictFolderLocalId = some cid
            ∧ (applyOp (sampleWorld 200) (sampleOrphan "create" "n1")).1.tree.find lid = some n
            ∧ n.parentId = some cid
            ∧ (lookupLocalId (sampleWorld 200).st (sampleOrphan "create" "n1").uid = none →
                (sampleWorld 200).tree.find lid = none)
            ∧ ∀ l0, lookupLocalId (sampleWorld 200).st (sampleOrphan "create" "n1").uid = some l0 →
                lid = l0 :=
  (applyOp_orphan_goes_to_conflict_container (sampleWorld 200) (sampleOrphan "create" "n1")
    (by decide) (Or.inl rfl) (by decide) (by decide) (by decide)).2.2.2 (by decide) (Or.inl rfl)

/-- Counterexample to C10 as stated: on a host where bookmark editing is
disabled, a create of another device whose non-null `parentUid` resolves to no
local id makes `applyOp` throw: the rejected creation of the conflict
container is not caught. -/
theorem applyOp_orphan_throws_when_container_rejected :
    truthy (sampleOrphan "create" "n1").parentUid = true
      ∧ lookupLocalId (sampleWorld 200).st (sampleOrphan "create" "n1").parentUid = none
      ∧ (sampleOrphan "create" "n1").deviceId ≠ (sampleWorld 200).st.deviceId
      ∧ (applyOp { sampleWorld 200 with tree := { sampleTree with editable := false } }
          (sampleOrphan "create" "n1")).2 = false := by
  decide

/-! ## Lemmas on the identity map -/

theorem dictGet_dictSet_ne {κ ν : Type} [DecidableEq κ] (d : List (κ × ν)) (k k2 : κ) (v : ν)
    (h : k2 ≠ k) : dictGet (dictSet d k v) k2 = dictGet d k2 := by
  have aux : ∀ d : List (κ × ν),
      List.find? (fun e => decide (e.1 = k2)) (d.map (fun e => if e.1 = k then (k, v) else e))
        = List.find? (fun e => decide (e.1 = k2)) d := by
    intro d
    induction d with
    | nil => rfl
    | cons e rest ih =>
      simp only [List.map_cons]
      by_cases he : e.1 = k
      · have h2 : ¬ e.1 = k2 := fun h2 => h (h2 ▸ he.symm ▸ rfl)
        rw [if_pos he, List.find?_cons_of_neg _ (by simpa using Ne.symm h),
          List.find?_cons_of_neg _ (by simpa using h2), ih]
      · rw [if_neg he]
        by_cases h2 : e.1 = k2
        · rw [List.find?_cons_of_pos _ (by simpa using h2),
            List.find?_cons_of_pos _ (by simpa using h2)]
        · rw [List.find?_cons_of_neg _ (by simpa using h2),
            List.find?_cons_of_neg _ (by simpa using h2), ih]
  unfold dictGet dictSet
  split
  · rw [aux]
  · rw [List.find?_append]
    have : List.find? (fun e => decide (e.1 = k2)) [(k, v)] = none := by
      simp [List.find?_cons, Ne.symm h]
    rw [this]
    simp

theorem dictGet_dictDelete {κ ν : Type} [DecidableEq κ] (d : List (κ × ν)) (k : κ) :
    dictGet (dictDelete d k) k = none := by
  unfold dictGet dictDelete
  have : List.find? (fun e => decide (e.1 = k)) (d.filter (fun e => decide (e.1 ≠ k))) = none := by
    rw [List.find?_eq_none]
    intro x hx
    have := (List.mem_filter.mp hx).2
    simpa using this
  rw [this]
  rfl

theorem dictGet_dictDelete_ne {κ ν : Type} [DecidableEq κ] (d : List (κ × ν)) (k k2 : κ)
    (h : k2 ≠ k) : dictGet (dictDelete d k) k2 = dictGet d k2 := by
  unfold dictGet dictDelete
  congr 1
  induction d with
  | nil => rfl
  | cons e rest ih =>
    by_cases he : e.1 = k
    · have h2 : ¬ e.1 = k2 := fun h2 => h (h2 ▸ he.symm ▸ rfl)
      rw [List.filter_cons_of_neg (by simpa using he),
        List.find?_cons_of_neg _ (by simpa using h2), ih]
    · rw [List.filter_cons_of_pos (by simpa using he)]
      by_cases h2 : e.1 = k2
      · rw [List.find?_cons_of_pos _ (by simpa using h2),
          List.find?_cons_of_pos _ (by simpa using h2)]
      · rw [List.find?_cons_of_neg _ (by simpa using h2),
          List.find?_cons_of_neg _ (by simpa using h2), ih]

theorem nonEmpty?_some {u : String} (h : u ≠ "") : nonEmpty? (some u) = some u := by
  simp [nonEmpty?, h]

theorem dictGet_dictDelete_some {κ ν : Type} [DecidableEq κ] {d : List (κ × ν)} {k k2 : κ}
    {v : ν} (h : dictGet (dictDelete d k) k2 = some v) : k2 ≠ k ∧ dictGet d k2 = some v := by
  by_cases hk : k2 = k
  · rw [hk, dictGet_dictDelete] at h
    cases h
  · rw [dictGet_dictDelete_ne d k k2 hk] at h
    exact ⟨hk, h⟩

theorem root_cases {r : Nat} {f : String} (h : dictGet ROOT_UID_OVERRIDES r = some f) :
    (r = 1 ∧ f = "root-bookmarks-bar") ∨ (r = 2 ∧ f = "root-other-bookmarks")
      ∨ (r = 3 ∧ f = "root-mobile-bookmarks") := by
  unfold dictGet ROOT_UID_OVERRIDES at h
  by_cases h1 : r = 1
  · subst h1
    left
    refine ⟨rfl, ?_⟩
    simpa [List.find?_cons] using h.symm
  · by_cases h2 : r = 2
    · subst h2
      right; left
      refine ⟨rfl, ?_⟩
      simpa [List.find?_cons] using h.symm
    · by_cases h3 : r = 3
      · subst h3
        right; right
        refine ⟨rfl, ?_⟩
        simpa [List.find?_cons] using h.symm
      · exfalso
        simp [List.find?_cons, Ne.symm h1, Ne.symm h2, Ne.symm h3] at h

theorem root_mem {r : Nat} {f : String} (h : dictGet ROOT_UID_OVERRIDES r = some f) :
    r ∈ ROOT_LOCAL_IDS := by
  rcases root_cases h with ⟨rfl, _⟩ | ⟨rfl, _⟩ | ⟨rfl, _⟩ <;> decide

theorem root_uid_known {r : Nat} {f : String} (h : dictGet ROOT_UID_OVERRIDES r = some f) :
    dictGet ROOT_UID_TO_LOCAL f = some r ∧ f ≠ "" := by
  rcases root_cases h with ⟨rfl, rfl⟩ | ⟨rfl, rfl⟩ | ⟨rfl, rfl⟩ <;> decide

theorem root_of_mem {r : Nat} (h : r ∈ ROOT_LOCAL_IDS) :
    ∃ f, dictGet ROOT_UID_OVERRIDES r = some f := by
  have : r = 1 ∨ r = 2 ∨ r = 3 := by
    simpa [ROOT_LOCAL_IDS, ROOT_UID_OVERRIDES] using h
  rcases this with rfl | rfl | rfl
  · exact ⟨_, rfl⟩
  · exact ⟨_, rfl⟩
  · exact ⟨_, rfl⟩

theorem lookupLocalId_none {st : Client} {u : String} (hu : u ≠ "")
    (h : lookupLocalId st (some u) = none) :
    dictGet st.bookmarkIndex.uidToLocal u = none ∧ dictGet ROOT_UID_TO_LOCAL u = none := by
  unfold lookupLocalId at h
  rw [nonEmpty?_some hu] at h
  cases hg : dictGet st.bookmarkIndex.uidToLocal u with
  | some l => simp [hg] at h
  | none =>
    simp only [hg] at h
    exact ⟨rfl, h⟩

/-- Adding the pair of an unmapped local id and an unmapped UID keeps the two
dictionaries inverse. -/
theorem setPair_inverse (ix : BookmarkIndex) (l : Nat) (u : String)
    (hl : dictGet ix.localToUid l = none) (hu : dictGet ix.uidToLocal u = none)
    (hne : u ≠ "") (hinv : Inverse ix) (huids : UidsNonEmpty ix) :
    Inverse { localToUid := dictSet ix.localToUid l u, uidToLocal := dictSet ix.uidToLocal u l }
      ∧ UidsNonEmpty
        { localToUid := dictSet ix.localToUid l u, uidToLocal := dictSet ix.uidToLocal u l } := by
  constructor
  · intro k v
    show dictGet (dictSet ix.localToUid l u) k = some v
      ↔ dictGet (dictSet ix.uidToLocal u l) v = some k
    by_cases hk : k = l
    · subst hk
      rw [dictGet_dictSet]
      by_cases hv : v = u
      · subst hv
        rw [dictGet_dictSet]
        simp
      · rw [dictGet_dictSet_ne _ _ _ _ hv]
        constructor
        · intro h
          exact absurd (Option.some.inj h).symm hv
        · intro h
          have := (hinv k v).mpr h
          rw [hl] at this
          cases this
    · rw [dictGet_dictSet_ne _ _ _ _ hk]
      by_cases hv : v = u
      · subst hv
        rw [dictGet_dictSet]
        constructor
        · intro h
          have := (hinv k v).mp h
          rw [hu] at this
          cases this
        · intro h
          exact absurd (Option.some.inj h).symm hk
      · rw [dictGet_dictSet_ne _ _ _ _ hv]
        exact hinv k v
  · intro k v h
    have h : dictGet (dictSet ix.localToUid l u) k = some v := h
    by_cases hk : k = l
    · subst hk
      rw [dictGet_dictSet] at h
      rw [← Option.some.inj h]
      exact hne
    · rw [dictGet_dictSet_ne _ _ _ _ hk] at h
      exact huids k v h

/-- The state `removeMappingByLocal` returns when it removes. -/
theorem removeMappingByLocal_mapped (st : Client) (l : Nat) (u : String)
    (hroot : l ∉ ROOT_LOCAL_IDS)
    (hu : nonEmpty? (dictGet st.bookmarkIndex.localToUid l) = some u) :
    (removeMappingByLocal st l).bookmarkIndex
      = { localToUid := dictDelete st.bookmarkIndex.localToUid l
          uidToLocal := dictDelete st.bookmarkIndex.uidToLocal u } := by
  unfold removeMappingByLocal
  rw [if_neg hroot]
  simp only [hu]

theorem removeMappingByLocal_unmapped (st : Client) (l : Nat)
    (h : l ∈ ROOT_LOCAL_IDS ∨ nonEmpty? (dictGet st.bookmarkIndex.localToUid l) = none) :
    removeMappingByLocal st l = st := by
  unfold removeMappingByLocal
  by_cases hroot : l ∈ ROOT_LOCAL_IDS
  · rw [if_pos hroot]
  · rw [if_neg hroot]
    rcases h with h | h
    · exact absurd h hroot
    · simp only [h]

/-- The local-id side after `removeMappingByLocal`, for a map without empty UIDs. -/
theorem removeMappingByLocal_localToUid (st : Client) (l k : Nat)
    (huids : UidsNonEmpty st.bookmarkIndex) :
    dictGet (removeMappingByLocal st l).bookmarkIndex.localToUid k
      = if k = l ∧ l ∉ ROOT_LOCAL_IDS then none else dictGet st.bookmarkIndex.localToUid k := by
  by_cases hroot : l ∈ ROOT_LOCAL_IDS
  · rw [removeMappingByLocal_unmapped st l (Or.inl hroot), if_neg (fun h => h.2 hroot)]
  · cases hg : dictGet st.bookmarkIndex.localToUid l with
    | none =>
      rw [removeMappingByLocal_unmapped st l (Or.inr (by rw [hg]; rfl))]
      by_cases hk : k = l
      · rw [if_pos ⟨hk, hroot⟩, hk, hg]
      · rw [if_neg (fun h => hk h.1)]
    | some u =>
      have hu : nonEmpty? (dictGet st.bookmarkIndex.localToUid l) = some u := by
        rw [hg]; exact nonEmpty?_some (huids l u hg)
      rw [removeMappingByLocal_mapped st l u hroot hu]
      by_cases hk : k = l
      · rw [if_pos ⟨hk, hroot⟩, hk]
        exact dictGet_dictDelete _ _
      · rw [if_neg (fun h => hk h.1)]
        exact dictGet_dictDelete_ne _ _ _ hk

/-- The UID side after `removeMappingByLocal`, for a map without empty UIDs. -/
theorem removeMappingByLocal_uidToLocal (st : Client) (l : Nat) (v : String)
    (huids : UidsNonEmpty st.bookmarkIndex) :
    dictGet (removeMappingByLocal st l).bookmarkIndex.uidToLocal v
      = if dictGet st.bookmarkIndex.localToUid l = some v ∧ l ∉ ROOT_LOCAL_IDS then none
        else dictGet st.bookmarkIndex.uidToLocal v := by
  by_cases hroot : l ∈ ROOT_LOCAL_IDS
  · rw [removeMappingByLocal_unmapped st l (Or.inl hroot), if_neg (fun h => h.2 hroot)]
  · cases hg : dictGet st.bookmarkIndex.localToUid l with
    | none =>
      rw [removeMappingByLocal_unmapped st l (Or.inr (by rw [hg]; rfl))]
      rw [if_neg (fun h => by cases h.1)]
    | some u =>
      have hu : nonEmpty? (dictGet st.bookmarkIndex.localToUid l) = some u := by
        rw [hg]; exact nonEmpty?_some (huids l u hg)
      rw [removeMappingByLocal_mapped st l u hroot hu]
      by_cases hv : v = u
      · rw [if_pos ⟨by rw [hv], hroot⟩, hv]
        exact dictGet_dictDelete _ _
      · rw [if_neg (fun h => hv (Option.some.inj h.1).symm)]
        exact dictGet_dictDelete_ne _ _ _ hv

theorem removeMappingByLocal_uidsNonEmpty (st : Client) (l : Nat)
    (huids : UidsNonEmpty st.bookmarkIndex) :
    UidsNonEmpty (removeMappingByLocal st l).bookmarkIndex := by
  intro k v h
  rw [removeMappingByLocal_localToUid st l k huids] at h
  split at h
  · cases h
  · exact huids k v h

theorem removeMappingByLocal_inverse (st : Client) (l : Nat)
    (hinv : Inverse st.bookmarkIndex) (huids : UidsNonEmpty st.bookmarkIndex) :
    Inverse (removeMappingByLocal st l).bookmarkIndex := by
  intro k v
  rw [removeMappingByLocal_localToUid st l k huids, removeMappingByLocal_uidToLocal st l v huids]
  by_cases hroot : l ∈ ROOT_LOCAL_IDS
  · rw [if_neg (fun h => h.2 hroot), if_neg (fun h => h.2 hroot)]
    exact hinv k v
  · by_cases hk : k = l
    · rw [if_pos ⟨hk, hroot⟩]
      by_cases hv : dictGet st.bookmarkIndex.localToUid l = some v
      · rw [if_pos ⟨hv, hroot⟩]
        simp
      · rw [if_neg (fun h => hv h.1)]
        constructor
        · intro h
          cases h
        · intro h
          exact absurd ((hinv l v).mpr (hk ▸ h)) hv
    · rw [if_neg (fun h => hk h.1)]
      by_cases hv : dictGet st.bookmarkIndex.localToUid l = some v
      · rw [if_pos ⟨hv, hroot⟩]
        constructor
        · intro h
          have h1 := (hinv k v).mp h
          have h2 := (hinv l v).mp hv
          rw [h1] at h2
          exact absurd (Option.some.inj h2) hk
        · intro h
          cases h
      · rw [if_neg (fun h => hv h.1)]
        exact hinv k v

theorem removeMappingByLocal_roots (st : Client) (l : Nat)
    (huids : UidsNonEmpty st.bookmarkIndex) (hroots : RootsFixed st.bookmarkIndex) :
    RootsFixed (removeMappingByLocal st l).bookmarkIndex := by
  intro r f hr
  obtain ⟨h1, h2⟩ := hroots r f hr
  constructor
  · intro u h
    rw [removeMappingByLocal_localToUid st l r huids] at h
    split at h
    · cases h
    · exact h1 u h
  · intro l2 h
    rw [removeMappingByLocal_uidToLocal st l f huids] at h
    split at h
    · cases h
    · exact h2 l2 h

theorem removeMappingByLocal_inv (st : Client) (l : Nat) (h : IndexInv st.bookmarkIndex) :
    IndexInv (removeMappingByLocal st l).bookmarkIndex :=
  ⟨removeMappingByLocal_inverse st l h.1 h.2.1, removeMappingByLocal_uidsNonEmpty st l h.2.1,
    removeMappingByLocal_roots st l h.2.1 h.2.2⟩

mutual
/-- `dropTreeMapping` removes the mappings of the ids of the tree one by one,
parents before children. -/
theorem dropTreeMapping_eq_foldl : ∀ (t : NodeTree) (st : Client),
    dropTreeMapping st t = t.ids.foldl removeMappingByLocal st
  | NodeTree.mk id children, st => by
    rw [dropTreeMapping, NodeTree.ids, List.foldl_cons]
    exact dropTreeMappings_eq_foldl children _
/-- The loop of `dropTreeMapping`, likewise. -/
theorem dropTreeMappings_eq_foldl : ∀ (ts : List NodeTree) (st : Client),
    dropTreeMappings st ts = (NodeTree.idsOfList ts).foldl removeMappingByLocal st
  | [], st => by
    rw [dropTreeMappings, NodeTree.idsOfList, List.foldl_nil]
  | child :: rest, st => by
    rw [dropTreeMappings, NodeTree.idsOfList, List.foldl_append, dropTreeMapping_eq_foldl child st]
    exact dropTreeMappings_eq_foldl rest _
end

theorem foldl_remove_inv (ids : List Nat) :
    ∀ st : Client, IndexInv st.bookmarkIndex →
      IndexInv (ids.foldl removeMappingByLocal st).bookmarkIndex := by
  induction ids with
  | nil => intro st h; exact h
  | cons a rest ih =>
    intro st h
    rw [List.foldl_cons]
    exact ih _ (removeMappingByLocal_inv st a h)

/-- The identity map after removing the mappings of a list of local ids. -/
theorem foldl_remove_spec (ids : List Nat) :
    ∀ st : Client, UidsNonEmpty st.bookmarkIndex →
      (∀ k, k ∈ ids → k ∉ ROOT_LOCAL_IDS →
          dictGet (ids.foldl removeMappingByLocal st).bookmarkIndex.localToUid k = none)
        ∧ (∀ k, k ∉ ids ∨ k ∈ ROOT_LOCAL_IDS →
            dictGet (ids.foldl removeMappingByLocal st).bookmarkIndex.localToUid k
              = dictGet st.bookmarkIndex.localToUid k)
        ∧ (∀ v, (∃ l ∈ ids, dictGet st.bookmarkIndex.localToUid l = some v
              ∧ l ∉ ROOT_LOCAL_IDS) →
            dictGet (ids.foldl removeMappingByLocal st).bookmarkIndex.uidToLocal v = none)
        ∧ (∀ v, (∀ l ∈ ids, l ∉ ROOT_LOCAL_IDS →
              dictGet st.bookmarkIndex.localToUid l ≠ some v) →
            dictGet (ids.foldl removeMappingByLocal st).bookmarkIndex.uidToLocal v
              = dictGet st.bookmarkIndex.uidToLocal v) := by
  induction ids with
  | nil =>
    intro st _
    refine ⟨?_, ?_, ?_, ?_⟩
    · intro k hk; cases hk
    · intro k _; rfl
    · rintro v ⟨l, hl, _⟩; cases hl
    · intro v _; rfl
  | cons a rest ih =>
    intro st huids
    obtain ⟨iha, ihb, ihc, ihd⟩ := ih (removeMappingByLocal st a)
      (removeMappingByLocal_uidsNonEmpty st a huids)
    rw [List.foldl_cons]
    refine ⟨?_, ?_, ?_, ?_⟩
    · intro k hk hroot
      by_cases hr : k ∈ rest
      · exact iha k hr hroot
      · have hka : k = a := by
          rcases List.mem_cons.mp hk with h | h
          · exact h
          · exact absurd h hr
        rw [ihb k (Or.inl hr), removeMappingByLocal_localToUid st a k huids,
          if_pos ⟨hka, hka ▸ hroot⟩]
    · intro k hk
      have hk2 : k ∉ rest ∨ k ∈ ROOT_LOCAL_IDS := by
        rcases hk with h | h
        · exact Or.inl (fun hr => h (List.mem_cons_of_mem _ hr))
        · exact Or.inr h
      rw [ihb k hk2, removeMappingByLocal_localToUid st a k huids, if_neg]
      rintro ⟨hka, hroot⟩
      rcases hk with h | h
      · exact h (hka ▸ List.mem_cons_self _ _)
      · exact hroot (hka ▸ h)
    · rintro v ⟨l, hl, hlv, hroot⟩
      by_cases hex : ∃ l ∈ rest,
          dictGet (removeMappingByLocal st a).bookmarkIndex.localToUid l = some v
            ∧ l ∉ ROOT_LOCAL_IDS
      · exact ihc v hex
      · have hall : ∀ l ∈ rest, l ∉ ROOT_LOCAL_IDS →
            dictGet (removeMappingByLocal st a).bookmarkIndex.localToUid l ≠ some v := by
          intro l2 hl2 hr2 hv2
          exact hex ⟨l2, hl2, hv2, hr2⟩
        rw [ihd v hall, removeMappingByLocal_uidToLocal st a v huids, if_pos]
        by_cases hla : l = a
        · exact ⟨hla ▸ hlv, hla ▸ hroot⟩
        · exfalso
          have hlr : l ∈ rest := by
            rcases List.mem_cons.mp hl with h | h
            · exact absurd h hla
            · exact h
          apply hall l hlr hroot
          rw [removeMappingByLocal_localToUid st a l huids, if_neg (fun h => hla h.1)]
          exact hlv
    · intro v hall
      have hall2 : ∀ l ∈ rest, l ∉ ROOT_LOCAL_IDS →
          dictGet (removeMappingByLocal st a).bookmarkIndex.localToUid l ≠ some v := by
        intro l hl hroot
        rw [removeMappingByLocal_localToUid st a l huids]
        split
        · intro h; cases h
        · exact hall l (List.mem_cons_of_mem _ hl) hroot
      rw [ihd v hall2, removeMappingByLocal_uidToLocal st a v huids, if_neg]
      rintro ⟨hav, hroot⟩
      exact hall a (List.mem_cons_self _ _) hroot hav

theorem setPair_roots (ix : BookmarkIndex) (l : Nat) (u : String) (hl : l ∉ ROOT_LOCAL_IDS)
    (hu : dictGet ROOT_UID_TO_LOCAL u = none) (h : RootsFixed ix) :
    RootsFixed
      { localToUid := dictSet ix.localToUid l u, uidToLocal := dictSet ix.uidToLocal u l } := by
  intro r f hr
  obtain ⟨h1, h2⟩ := h r f hr
  constructor
  · intro v hv
    have hrl : r ≠ l := fun e => hl (e ▸ root_mem hr)
    have hv : dictGet (dictSet ix.localToUid l u) r = some v := hv
    rw [dictGet_dictSet_ne _ _ _ _ hrl] at hv
    exact h1 v hv
  · intro l2 hv
    have hfu : f ≠ u := by
      intro e
      have := (root_uid_known hr).1
      rw [e, hu] at this
      cases this
    have hv : dictGet (dictSet ix.uidToLocal u l) f = some l2 := hv
    rw [dictGet_dictSet_ne _ _ _ _ hfu] at hv
    exact h2 l2 hv

theorem persist_index (st : Client) :
    (persistBookmarkIndex st).bookmarkIndex = st.bookmarkIndex := by
  unfold persistBookmarkIndex
  split <;> rfl

theorem not_root_none {l : Nat} (h : l ∉ ROOT_LOCAL_IDS) :
    dictGet ROOT_UID_OVERRIDES l = none := by
  cases hg : dictGet ROOT_UID_OVERRIDES l with
  | none => rfl
  | some f => exact absurd (root_mem hg) h

/-- Recording a fresh UID for an unmapped local id that is not a root keeps the
invariant of the identity map. -/
theorem setMapping_inv (st : Client) (l : Nat) (u : String) (hinv : IndexInv st.bookmarkIndex)
    (hl : dictGet st.bookmarkIndex.localToUid l = none) (hroot : l ∉ ROOT_LOCAL_IDS)
    (hu : u ≠ "") (hfresh : lookupLocalId st (some u) = none) :
    IndexInv (setMapping st l u).bookmarkIndex := by
  obtain ⟨h1, h2⟩ := lookupLocalId_none hu hfresh
  obtain ⟨hi, hn⟩ := setPair_inverse st.bookmarkIndex l u hl h1 hu hinv.1 hinv.2.1
  exact ⟨hi, hn, setPair_roots st.bookmarkIndex l u hroot h2 hinv.2.2⟩

/-- The call `ensureUid` on a root local id. -/
theorem ensureUid_root (st : Client) (mint : String) (l : Nat) (f : String)
    (hr : dictGet ROOT_UID_OVERRIDES l = some f) :
    ensureUid st mint (some l)
      = if dictGet st.bookmarkIndex.uidToLocal f ≠ some l then
          ({ st with
             bookmarkIndex :=
               { localToUid := dictSet st.bookmarkIndex.localToUid l f
                 uidToLocal := dictSet st.bookmarkIndex.uidToLocal f l }
             bookmarkIndexDirty := true }, some f)
        else (st, some f) := by
  unfold ensureUid
  simp only [hr]

/-- The call `ensureUid` on a mapped local id that is not a root. -/
theorem ensureUid_mapped (st : Client) (mint : String) (l : Nat) (u : String)
    (hr : dictGet ROOT_UID_OVERRIDES l = none)
    (hu : nonEmpty? (dictGet st.bookmarkIndex.localToUid l) = some u) :
    ensureUid st mint (some l) = (st, some u) := by
  unfold ensureUid
  simp only [hr, hu]

/-- The call `ensureUid` on an unmapped local id that is not a root. -/
theorem ensureUid_mint (st : Client) (mint : String) (l : Nat)
    (hr : dictGet ROOT_UID_OVERRIDES l = none)
    (hu : nonEmpty? (dictGet st.bookmarkIndex.localToUid l) = none) :
    ensureUid st mint (some l) = (setMapping st l mint, some mint) := by
  unfold ensureUid
  simp only [hr, hu]

/-- A call `ensureUid` that mints, if it does, a fresh UID keeps the invariant
of the identity map. -/
theorem ensureUid_inv (st : Client) (mint : String) (l : Nat) (hinv : IndexInv st.bookmarkIndex)
    (hm : mint ≠ "") (hfresh : lookupLocalId st (some mint) = none) :
    IndexInv (ensureUid st mint (some l)).1.bookmarkIndex := by
  cases hr : dictGet ROOT_UID_OVERRIDES l with
  | some f =>
    rw [ensureUid_root st mint l f hr]
    by_cases hcur : dictGet st.bookmarkIndex.uidToLocal f ≠ some l
    · rw [if_pos hcur]
      have hnone_u : dictGet st.bookmarkIndex.uidToLocal f = none := by
        cases hg : dictGet st.bookmarkIndex.uidToLocal f with
        | none => rfl
        | some l2 =>
          have := (hinv.2.2 l f hr).2 l2 hg
          rw [this] at hg
          exact absurd hg hcur
      have hnone_l : dictGet st.bookmarkIndex.localToUid l = none := by
        cases hg : dictGet st.bookmarkIndex.localToUid l with
        | none => rfl
        | some u =>
          have hu := (hinv.2.2 l f hr).1 u hg
          rw [hu] at hg
          have := (hinv.1 l f).mp hg
          rw [hnone_u] at this
          cases this
      obtain ⟨hi, hn⟩ := setPair_inverse st.bookmarkIndex l f hnone_l hnone_u
        (root_uid_known hr).2 hinv.1 hinv.2.1
      refine ⟨hi, hn, ?_⟩
      intro r2 f2 hr2
      obtain ⟨h1, h2⟩ := hinv.2.2 r2 f2 hr2
      constructor
      · intro v hv
        have hv : dictGet (dictSet st.bookmarkIndex.localToUid l f) r2 = some v := hv
        by_cases e : r2 = l
        · subst e
          rw [dictGet_dictSet] at hv
          rw [hr] at hr2
          rw [← Option.some.inj hv, Option.some.inj hr2]
        · rw [dictGet_dictSet_ne _ _ _ _ e] at hv
          exact h1 v hv
      · intro l2 hv
        have hv : dictGet (dictSet st.bookmarkIndex.uidToLocal f l) f2 = some l2 := hv
        by_cases e : f2 = f
        · subst e
          rw [dictGet_dictSet] at hv
          have k1 := (root_uid_known hr).1
          have k2 := (root_uid_known hr2).1
          rw [k1] at k2
          rw [← Option.some.inj hv, Option.some.inj k2]
        · rw [dictGet_dictSet_ne _ _ _ _ e] at hv
          exact h2 l2 hv
    · rw [if_neg hcur]
      exact hinv
  | none =>
    cases hn : nonEmpty? (dictGet st.bookmarkIndex.localToUid l) with
    | some u =>
      rw [ensureUid_mapped st mint l u hr hn]
      exact hinv
    | none =>
      rw [ensureUid_mint st mint l hr hn]
      have hl : dictGet st.bookmarkIndex.localToUid l = none := by
        cases hg : dictGet st.bookmarkIndex.localToUid l with
        | none => rfl
        | some u =>
          rw [hg, nonEmpty?_some (hinv.2.1 l u hg)] at hn
          cases hn
      have hroot : l ∉ ROOT_LOCAL_IDS := by
        intro h
        obtain ⟨f, hf⟩ := root_of_mem h
        rw [hf] at hr
        cases hr
      exact setMapping_inv st l mint hinv hl hroot hm hfresh

theorem indexInv_empty : IndexInv {} := by
  refine ⟨?_, ?_, ?_⟩
  · intro l u
    simp [dictGet]
  · intro l u h
    simp [dictGet] at h
  · intro r f _
    constructor
    · intro u h
      simp [dictGet] at h
    · intro l2 h
      simp [dictGet] at h

/-- Every admissible step keeps the invariant of the identity map. -/
theorem indexStep_inv (st : Client) (a : IndexStep) (hinv : IndexInv st.bookmarkIndex)
    (hadm : a.admissible st) : IndexInv (indexStep st a).bookmarkIndex := by
  cases a with
  | ensure l mint => exact ensureUid_inv st mint l hinv hadm.1 hadm.2
  | remove l => exact removeMappingByLocal_inv st l hinv
  | dropTree t =>
    show IndexInv (dropTreeMapping st t).bookmarkIndex
    rw [dropTreeMapping_eq_foldl]
    exact foldl_remove_inv _ st hinv
  | record l u =>
    show IndexInv (persistBookmarkIndex (setMapping st l u)).bookmarkIndex
    rw [persist_index]
    exact setMapping_inv st l u hinv hadm.2.2.2 hadm.2.2.1 hadm.1 hadm.2.1

/-- Every admissible sequence of steps keeps the invariant of the identity map. -/
theorem indexRun_inv (steps : List IndexStep) :
    ∀ st : Client, IndexInv st.bookmarkIndex → indexAdmissible st steps →
      IndexInv (indexRun st steps).bookmarkIndex := by
  induction steps with
  | nil => intro st h _; exact h
  | cons a rest ih =>
    intro st h hadm
    exact ih _ (indexStep_inv st a h hadm.1) hadm.2

/-! ## C17 and C18: the identity map stays one-to-one; the contract of `ensureUid` -/

/-- C17: starting from the empty identity map, after any sequence of
`ensureUid` calls (each minting, if it mints, a fresh UID),
`removeMappingByLocal` and `dropTreeMapping` calls, and mappings recorded by
`applyCreate` for local ids the tree has just handed out, `localToUid[l] = u`
holds exactly when `uidToLocal[u] = l`. -/
theorem identity_map_stays_inverse (st0 : Client) (steps : List IndexStep)
    (hempty : st0.bookmarkIndex = {}) (hadm : indexAdmissible st0 steps) :
    ∀ l u, dictGet (indexRun st0 steps).bookmarkIndex.localToUid l = some u
      ↔ dictGet (indexRun st0 steps).bookmarkIndex.uidToLocal u = some l :=
  (indexRun_inv steps st0 (hempty ▸ indexInv_empty) hadm).1

/-- Witness for C17: the sample steps, then a removal, a recursive drop and
one more `ensureUid`. -/
theorem identity_map_stays_inverse_witness :
    indexAdmissible {}
        (sampleIndexSteps ++ [IndexStep.remove 6,
          IndexStep.dropTree (NodeTree.mk 5 [NodeTree.mk 7 []]), IndexStep.ensure 8 "u8"])
      ∧ (dictGet (indexRun {}
            (sampleIndexSteps ++ [IndexStep.remove 6,
              IndexStep.dropTree (NodeTree.mk 5 [NodeTree.mk 7 []]),
              IndexStep.ensure 8 "u8"])).bookmarkIndex.localToUid 8 = some "u8"
          ↔ dictGet (indexRun {}
            (sampleIndexSteps ++ [IndexStep.remove 6,
              IndexStep.dropTree (NodeTree.mk 5 [NodeTree.mk 7 []]),
              IndexStep.ensure 8 "u8"])).bookmarkIndex.uidToLocal "u8" = some 8) :=
  ⟨by decide, identity_map_stays_inverse {} _ rfl (by decide) 8 "u8"⟩

/-- C18: for every identity map and every non-empty `localId`, `ensureUid`
returns the fixed well-known UID when `localId` is a root id, otherwise the
UID already mapped to `localId` (leaving the state unchanged), otherwise the
newly minted UID, recorded so that `lookupLocalId` of it returns `localId`;
in all cases a second `ensureUid(localId)` returns the same UID and changes
nothing. -/
theorem ensureUid_contract (st : Client) (l : Nat) (mint : String) (hmint : mint ≠ "") :
    (l ∈ ROOT_LOCAL_IDS →
        (ensureUid st mint (some l)).2 = dictGet ROOT_UID_OVERRIDES l
          ∧ (ensureUid st mint (some l)).2 ≠ none)
      ∧ (l ∉ ROOT_LOCAL_IDS → ∀ u, nonEmpty? (dictGet st.bookmarkIndex.localToUid l) = some u →
          ensureUid st mint (some l) = (st, some u))
      ∧ (l ∉ ROOT_LOCAL_IDS → nonEmpty? (dictGet st.bookmarkIndex.localToUid l) = none →
          (ensureUid st mint (some l)).2 = some mint
            ∧ lookupLocalId (ensureUid st mint (some l)).1 (some mint) = some l)
      ∧ (∀ mint2, ensureUid (ensureUid st mint (some l)).1 mint2 (some l)
          = ((ensureUid st mint (some l)).1, (ensureUid st mint (some l)).2)) := by
  refine ⟨?_, ?_, ?_, ?_⟩
  · intro hroot
    obtain ⟨f, hf⟩ := root_of_mem hroot
    rw [ensureUid_root st mint l f hf, hf]
    split <;> simp
  · intro hroot u hu
    exact ensureUid_mapped st mint l u (not_root_none hroot) hu
  · intro hroot hu
    rw [ensureUid_mint st mint l (not_root_none hroot) hu]
    refine ⟨rfl, ?_⟩
    unfold lookupLocalId setMapping
    simp only [nonEmpty?_some hmint, dictGet_dictSet]
  · intro mint2
    cases hr : dictGet ROOT_UID_OVERRIDES l with
    | some f =>
      rw [ensureUid_root st mint l f hr]
      by_cases hcur : dictGet st.bookmarkIndex.uidToLocal f ≠ some l
      · rw [if_pos hcur, ensureUid_root _ mint2 l f hr, if_neg]
        simp only [dictGet_dictSet, ne_eq, not_true_eq_false, not_false_eq_true]
      · rw [if_neg hcur, ensureUid_root _ mint2 l f hr, if_neg hcur]
    | none =>
      cases hn : nonEmpty? (dictGet st.bookmarkIndex.localToUid l) with
      | some u =>
        rw [ensureUid_mapped st mint l u hr hn]
        exact ensureUid_mapped st mint2 l u hr hn
      | none =>
        rw [ensureUid_mint st mint l hr hn]
        apply ensureUid_mapped _ mint2 l mint hr
        unfold setMapping
        simp only [dictGet_dictSet, nonEmpty?_some hmint]

/-- Witness for C18: `ensureUid(5)` on the empty identity map mints "u5"; a
second call, that would mint "other", returns "u5" and changes nothing. -/
theorem ensureUid_contract_witness :
    "u5" ≠ ""
      ∧ ensureUid (ensureUid {} "u5" (some 5)).1 "other" (some 5)
        = ((ensureUid {} "u5" (some 5)).1, (ensureUid {} "u5" (some 5)).2) :=
  ⟨by decide, (ensureUid_contract {} 5 "u5" (by decide)).2.2.2 "other"⟩

/-! ## C19: the recursive drop -/

/-- C19: for every identity map (the two dictionaries inverse of each other,
no UID empty) and every node tree `t`, after `dropTreeMapping(t)` no non-root
local id occurring in `t` has a `localToUid` entry and none of their former
UIDs has a `uidToLocal` entry, while the mapping of every root local id and of
every local id not occurring in `t` is unchanged in both dictionaries. -/
theorem dropTreeMapping_spares_roots_and_outside (st : Client) (t : NodeTree)
    (hinv : Inverse st.bookmarkIndex) (huids : UidsNonEmpty st.bookmarkIndex) :
    (∀ l ∈ t.ids, l ∉ ROOT_LOCAL_IDS →
        dictGet (dropTreeMapping st t).bookmarkIndex.localToUid l = none
          ∧ ∀ u, dictGet st.bookmarkIndex.localToUid l = some u →
              dictGet (dropTreeMapping st t).bookmarkIndex.uidToLocal u = none)
      ∧ (∀ l, l ∈ ROOT_LOCAL_IDS ∨ l ∉ t.ids →
          dictGet (dropTreeMapping st t).bookmarkIndex.localToUid l
              = dictGet st.bookmarkIndex.localToUid l
            ∧ ∀ u, dictGet st.bookmarkIndex.localToUid l = some u →
                dictGet (dropTreeMapping st t).bookmarkIndex.uidToLocal u = some l) := by
  rw [dropTreeMapping_eq_foldl]
  obtain ⟨ha, hb, hc, hd⟩ := foldl_remove_spec t.ids st huids
  constructor
  · intro l hl hroot
    exact ⟨ha l hl hroot, fun u hu => hc u ⟨l, hl, hu, hroot⟩⟩
  · intro l hl
    refine ⟨hb l (Or.symm hl), ?_⟩
    intro u hu
    rw [hd u, (hinv l u).mp hu]
    intro l0 hl0 hroot0 hu0
    have h1 := (hinv l0 u).mp hu0
    rw [(hinv l u).mp hu] at h1
    have hll : l = l0 := Option.some.inj h1
    rcases hl with h | h
    · exact hroot0 (hll ▸ h)
    · exact h (hll ▸ hl0)

/-- Witness for C19: local ids 5, 6 and 7 and the bookmarks bar (root 1) are
mapped; the tree dropped is node 5 with the children 6 and 1. Node 6 loses its
mapping, the bookmarks bar keeps its own. -/
theorem dropTreeMapping_spares_roots_and_outside_witness :
    Inverse sampleMapped.bookmarkIndex ∧ UidsNonEmpty sampleMapped.bookmarkIndex
      ∧ dictGet (dropTreeMapping sampleMapped sampleSubtree).bookmarkIndex.localToUid 6 = none
      ∧ dictGet (dropTreeMapping sampleMapped sampleSubtree).bookmarkIndex.localToUid 1
          = dictGet sampleMapped.bookmarkIndex.localToUid 1 :=
  ⟨(indexRun_inv sampleIndexSteps {} indexInv_empty (by decide)).1,
    (indexRun_inv sampleIndexSteps {} indexInv_empty (by decide)).2.1,
    ((dropTreeMapping_spares_roots_and_outside sampleMapped sampleSubtree
      (indexRun_inv sampleIndexSteps {} indexInv_empty (by decide)).1
      (indexRun_inv sampleIndexSteps {} indexInv_empty (by decide)).2.1).1 6
        (by decide) (by decide)).1,
    ((dropTreeMapping_spares_roots_and_outside sampleMapped sampleSubtree
      (indexRun_inv sampleIndexSteps {} indexInv_empty (by decide)).1
      (indexRun_inv sampleIndexSteps {} indexInv_empty (by decide)).2.1).2 1
        (Or.inl (by decide))).1⟩

/-! ## C14 and C15: what a push does to the queue -/

theorem foldl_enqueueOp (e : List RawOp) :
    ∀ st : Client, (e.foldl enqueueOp st).opQueue = st.opQueue ++ e := by
  induction e with
  | nil => intro st; simp
  | cons a rest ih =>
    intro st
    rw [List.foldl_cons, ih]
    simp [enqueueOp]

/-- C14: for every queue `q` at the moment `pushOps` takes its batch and every
list `e` of operations enqueued while the request is in flight, after the push
succeeds the queue equals `e` (the queue the listeners built, `q` followed by
`e`, without its first `|q|` entries), whatever the response says was
accepted; against the server, whose answer is always a success and whose
accepted count depends on its dedup set, the queue is `e` as well. -/
theorem pushOps_confirms_what_was_sent {σ : Type}
    (post : σ → Int → List RawOp → σ × Option PushData) (remote remote1 : σ) (w : World)
    (e : List RawOp) (data : PushData)
    (hfree : w.st.pushInFlight = false) (hq : w.st.opQueue ≠ [])
    (hok : post remote w.st.lastVersion w.st.opQueue = (remote1, some data)) :
    (pushOps post e remote w).2.1.st.opQueue = e
      ∧ (pushOps post e remote w).2.1.st.opQueue
          = (e.foldl enqueueOp w.st).opQueue.drop w.st.opQueue.length
      ∧ (pushOps post e remote w).2.2 = Outcome.completed
      ∧ (pushOps post e remote w).2.1.st.pushInFlight = false
      ∧ ∀ (cfg : Config) (h : Host) (s : Server),
          (pushOps (serverPost cfg h) e s w).2.1.st.opQueue = e := by
  have hq2 : w.st.opQueue.isEmpty = false := by
    cases hw : w.st.opQueue with
    | nil => exact absurd hw hq
    | cons a rest => rfl
  have key : ∀ {τ : Type} (post2 : τ → Int → List RawOp → τ × Option PushData) (r r1 : τ)
      (d : PushData), post2 r w.st.lastVersion w.st.opQueue = (r1, some d) →
      pushOps post2 e r w
        = (r1,
            { w with
              st :=
                { w.st with
                  opQueue := (w.st.opQueue ++ e).drop w.st.opQueue.length
                  lastVersion := d.newVersion.getD w.st.lastVersion
                  pushInFlight := false } },
            Outcome.completed) := by
    intro τ post2 r r1 d h
    unfold pushOps
    simp only [hfree, hq2, Bool.false_eq_true, if_false, h]
  rw [key post remote remote1 data hok]
  refine ⟨by simp, ?_, rfl, rfl, ?_⟩
  · rw [foldl_enqueueOp]
  · intro cfg h s
    rw [key (serverPost cfg h) s _ _ rfl]
    simp

/-- Witness for C14: device "B" has one operation queued and a second one is
enqueued while the push is in flight; the server already holds the queued
operation (opId "b"), so it accepts nothing, and the queue is the second
operation alone. -/
theorem pushOps_confirms_what_was_sent_witness :
    (push {} sampleHost { version := 1, ops := [sampleOp "v" "b" "B" 1], opLookup := ["b"] }
        [some (sampleRaw "v" "b" "B")]).2.accepted = 0
      ∧ (pushOps (serverPost {} sampleHost) [sampleRaw "w" "c" "B"]
          { version := 1, ops := [sampleOp "v" "b" "B" 1], opLookup := ["b"] }
          { sampleWorld 200 with
            st := { (sampleWorld 200).st with opQueue := [sampleRaw "v" "b" "B"] } }).2.1.st.opQueue
        = [sampleRaw "w" "c" "B"] :=
  ⟨by decide,
    (pushOps_confirms_what_was_sent (serverPost {} sampleHost)
      { version := 1, ops := [sampleOp "v" "b" "B" 1], opLookup := ["b"] } _
      { sampleWorld 200 with
        st := { (sampleWorld 200).st with opQueue := [sampleRaw "v" "b" "B"] } }
      [sampleRaw "w" "c" "B"] _ (by decide) (by decide) rfl).1⟩

/-- C15: when the push request fails (network error or a status that is not
ok), `pushOps` returns normally with the cursor as it was, the queue as it was
(followed by whatever the listeners enqueued meanwhile; exactly as it was when
they enqueued nothing), the tree and every other field of the state untouched,
and `pushInFlight` reset to false; when the queue is empty `pushOps` sends
nothing (the remote is not asked) and changes nothing. -/
theorem pushOps_failure_changes_nothing {σ : Type}
    (post : σ → Int → List RawOp → σ × Option PushData) (remote : σ) (w : World)
    (e : List RawOp) :
    (∀ remote1, w.st.pushInFlight = false → w.st.opQueue ≠ [] →
        post remote w.st.lastVersion w.st.opQueue = (remote1, none) →
        pushOps post e remote w
            = (remote1, { w with st := { w.st with opQueue := w.st.opQueue ++ e } },
                Outcome.transportFailure)
          ∧ (pushOps post e remote w).2.1.st.lastVersion = w.st.lastVersion
          ∧ (pushOps post e remote w).2.1.st.pushInFlight = false
          ∧ (e = [] → (pushOps post e remote w).2.1 = w))
      ∧ (w.st.opQueue = [] → pushOps post e remote w = (remote, w, Outcome.skipped)) := by
  constructor
  · intro remote1 hfree hq hfail
    have hq2 : w.st.opQueue.isEmpty = false := by
      cases hw : w.st.opQueue with
      | nil => exact absurd hw hq
      | cons a rest => rfl
    have key : pushOps post e remote w
        = (remote1,
            { w with st := { w.st with opQueue := w.st.opQueue ++ e, pushInFlight := false } },
            Outcome.transportFailure) := by
      unfold pushOps
      simp only [hfree, hq2, Bool.false_eq_true, if_false, hfail]
    have hsame : ({ w.st with opQueue := w.st.opQueue ++ e, pushInFlight := false } : Client)
        = { w.st with opQueue := w.st.opQueue ++ e } := by
      rw [← hfree]
    rw [key, hsame]
    refine ⟨rfl, rfl, hfree, ?_⟩
    intro he
    rw [he, List.append_nil]
  · intro hq
    unfold pushOps
    by_cases hfl : w.st.pushInFlight = true
    · rw [if_pos hfl]
    · rw [if_neg hfl, if_pos (by rw [hq]; rfl)]

/-- Witness for C15: device "B" has one operation queued and the request
fails; on an empty queue nothing is sent. -/
theorem pushOps_failure_changes_nothing_witness :
    (pushOps (fun (r : Unit) _ _ => (r, none)) [] ()
        { sampleWorld 200 with
          st := { (sampleWorld 200).st with opQueue := [sampleRaw "v" "b" "B"] } }).2.1
        = { sampleWorld 200 with
            st := { (sampleWorld 200).st with opQueue := [sampleRaw "v" "b" "B"] } }
      ∧ pushOps (fun (r : Unit) _ _ => (r, none)) [] () (sampleWorld 200)
        = ((), sampleWorld 200, Outcome.skipped) :=
  ⟨((pushOps_failure_changes_nothing (fun (r : Unit) _ _ => (r, none)) ()
      { sampleWorld 200 with
        st := { (sampleWorld 200).st with opQueue := [sampleRaw "v" "b" "B"] } } []).1 ()
      (by decide) (by decide) rfl).2.2.2 rfl,
    (pushOps_failure_changes_nothing (fun (r : Unit) _ _ => (r, none)) () (sampleWorld 200)
      []).2 (by decide)⟩

/-! ## C20: retention pruning -/

/-- C20 as amended: for a non-negative `MAX_LOG_OPS` and every server state in
which every log entry has a non-empty opId, no two entries share an opId, and
the dedup set equals the set of opIds in the log, after a push with a
non-empty batch (or any push when the log already fits) the log has at most
`MAX_LOG_OPS` entries, is a suffix of the previous log followed by the newly
accepted entries (as many as the response counts), and the dedup set equals
the set of opIds of the retained entries, which again are non-empty and
pairwise different. -/
theorem push_prunes_log_and_dedup_set (cfg : Config) (h : Host) (s : Server)
    (batch : List (Option RawOp)) (hmax : 0 ≤ cfg.MAX_LOG_OPS)
    (hids : ∀ o ∈ s.ops, o.opId ≠ "") (hnodup : (s.ops.map (fun o => o.opId)).Nodup)
    (hset : ∀ x, x ∈ s.opLookup ↔ x ∈ s.ops.map (fun o => o.opId))
    (hbatch : batch ≠ [] ∨ (s.ops.length : Int) ≤ cfg.MAX_LOG_OPS) :
    ((push cfg h s batch).1.ops.length : Int) ≤ cfg.MAX_LOG_OPS
      ∧ (∃ new dropped : List Op, new.length = (push cfg h s batch).2.accepted
          ∧ s.ops ++ new = dropped ++ (push cfg h s batch).1.ops)
      ∧ (∀ x, x ∈ (push cfg h s batch).1.opLookup
          ↔ x ∈ (push cfg h s batch).1.ops.map (fun o => o.opId))
      ∧ (∀ o ∈ (push cfg h s batch).1.ops, o.opId ≠ "")
      ∧ ((push cfg h s batch).1.ops.map (fun o => o.opId)).Nodup := by
  by_cases hne : batch = []
  · have hfit : (s.ops.length : Int) ≤ cfg.MAX_LOG_OPS := by
      rcases hbatch with hb | hb
      · exact absurd hne hb
      · exact hb
    have hp : push cfg h s batch = (s, { ok := true, accepted := 0, newVersion := s.version }) := by
      unfold push
      rw [hne]
      rfl
    rw [hp]
    exact ⟨hfit, ⟨[], [], rfl, by simp⟩, hset, hids, hnodup⟩
  · rw [push_of_nonempty cfg h s batch hne]
    obtain ⟨new, hops, hacc, _, _, hlook, hfresh, hnd⟩ := pushLoop_shape h batch 0 s 0
    have hsplit := pruneOps_ops cfg (pushLoop h 0 batch (s, 0)).1
    have hall : (pushLoop h 0 batch (s, 0)).1.ops.map (fun o => o.opId)
        = s.ops.map (fun o => o.opId) ++ new.map (fun o => o.opId) := by
      rw [hops, List.map_append]
    have hnd2 : ((pushLoop h 0 batch (s, 0)).1.ops.map (fun o => o.opId)).Nodup := by
      rw [hall]
      refine List.Nodup.append hnodup hnd ?_
      intro x hx1 hx2
      obtain ⟨o, ho, hox⟩ := List.mem_map.mp hx2
      exact (hfresh o ho).2 ((hset _).mpr (hox ▸ hx1))
    have hids2 : ∀ o ∈ (pushLoop h 0 batch (s, 0)).1.ops, o.opId ≠ "" := by
      intro o ho
      rw [hops] at ho
      rcases List.mem_append.mp ho with h1 | h1
      · exact hids o h1
      · exact (hfresh o h1).1
    have hnd3 := hnd2
    rw [hsplit, List.map_append] at hnd3
    refine ⟨pruneOps_length cfg _ hmax, ⟨new, pruned cfg (pushLoop h 0 batch (s, 0)).1, ?_, ?_⟩,
      ?_, ?_, ?_⟩
    · simpa using hacc.symm
    · rw [← hops]
      exact hsplit
    · intro x
      show x ∈ (pruneOps cfg (pushLoop h 0 batch (s, 0)).1).opLookup
        ↔ x ∈ (pruneOps cfg (pushLoop h 0 batch (s, 0)).1).ops.map (fun o => o.opId)
      rw [mem_pruneOps_lookup, hlook x]
      have hmem : (x ∈ s.opLookup ∨ x ∈ new.map (fun o => o.opId))
          ↔ x ∈ (pruned cfg (pushLoop h 0 batch (s, 0)).1).map (fun o => o.opId)
            ∨ x ∈ (pruneOps cfg (pushLoop h 0 batch (s, 0)).1).ops.map (fun o => o.opId) := by
        rw [hset x, ← List.mem_append, ← hall, ← List.mem_append, ← List.map_append, ← hsplit]
      rw [hmem]
      constructor
      · rintro ⟨hx, hno⟩
        rcases hx with hx | hx
        · exfalso
          obtain ⟨o, ho, hox⟩ := List.mem_map.mp hx
          have hop : o ∈ (pushLoop h 0 batch (s, 0)).1.ops := by
            rw [hsplit]
            exact List.mem_append_left _ ho
          exact hno o ho (hids2 o hop) hox.symm
        · exact hx
      · intro hx
        refine ⟨Or.inr hx, ?_⟩
        intro o ho _ hxo
        have hd := List.disjoint_of_nodup_append hnd3
        exact hd (List.mem_map.mpr ⟨o, ho, hxo.symm⟩) hx
    · intro o ho
      apply hids2 o
      rw [hsplit]
      exact List.mem_append_right _ ho
    · exact (List.nodup_append.mp hnd3).2.1

/-- Witness for C20: the sample log (opIds "a" and "b") under a cap of two
entries receives one new operation; the oldest entry goes. -/
theorem push_prunes_log_and_dedup_set_witness :
    (0 : Int) ≤ 2 ∧ (∀ o ∈ sampleLog, o.opId ≠ "") ∧ (sampleLog.map (fun o => o.opId)).Nodup
      ∧ ((push { MAX_LOG_OPS := 2 } sampleHost
            { version := 2, ops := sampleLog, opLookup := ["a", "b"] }
            [some (sampleRaw "w" "c" "B")]).1.ops.length : Int) ≤ 2 :=
  ⟨by decide, by decide, by decide,
    (push_prunes_log_and_dedup_set { MAX_LOG_OPS := 2 } sampleHost
      { version := 2, ops := sampleLog, opLookup := ["a", "b"] }
      [some (sampleRaw "w" "c" "B")] (by decide) (by decide) (by decide)
      (by intro x; simp [sampleLog, sampleOp])
      (Or.inl (by decide))).1⟩

/-- C20, counterexamples. First: the sample log (two entries) under a cap of
one entry, as a restart with a lowered cap leaves it; an empty push returns
before `pruneOps` and the log keeps its two entries. Second: a log in which
two entries share the opId "a", dedup set `{"a"}`, under a cap of two; a push
of a new operation prunes the first entry and deletes "a" from the dedup set
although the second entry with opId "a" is retained. -/
theorem push_leaves_long_log_or_forgets_retained_opId :
    ((push { MAX_LOG_OPS := 1 } sampleHost
          { version := 2, ops := sampleLog, opLookup := ["a", "b"] } []).1.ops.length = 2)
      ∧ ((push { MAX_LOG_OPS := 2 } sampleHost
            { version := 2, ops := [sampleOp "u" "a" "A" 1, sampleOp "v" "a" "A" 2]
              opLookup := ["a"] }
            [some (sampleRaw "w" "c" "B")]).1.ops.map (fun o => o.opId) = ["a", "c"]
        ∧ (push { MAX_LOG_OPS := 2 } sampleHost
            { version := 2, ops := [sampleOp "u" "a" "A" 1, sampleOp "v" "a" "A" 2]
              opLookup := ["a"] }
            [some (sampleRaw "w" "c" "B")]).1.opLookup = ["c"]) := by
  decide

/-! ## C16: what push stores of an accepted operation -/

/-- C16, the code at a failing input: device "B" pushes the update that
`handleChanged` builds for a bookmark (`index` null, `type` "bookmark") to an
empty log. Push accepts it; the entry that pull returns carries version 1,
`index` 0 instead of null, and no `type`: it is not the pushed operation with
a version added. -/
theorem push_stores_index_zero_and_no_type :
    (push {} sampleHost Server.empty [some sampleUpdate]).2.accepted = 1
      ∧ (pull {} (push {} sampleHost Server.empty [some sampleUpdate]).1 (some 0) none).ops.map
          Op.toRaw
        = [{ sampleUpdate with index := JIndex.num 0, type := none, version := some 1 }]
      ∧ (pull {} (push {} sampleHost Server.empty [some sampleUpdate]).1 (some 0) none).ops.map
          Op.toRaw
        ≠ [{ sampleUpdate with version := some 1 }] := by
  decide

/-! ## C12: the snapshot round trip -/

/-- A stored snapshot whose payload carries a `data` value and a numeric
version, or no version property at all, reads back with that data and with
that version, or the version counter. -/
theorem putSnapshot_get (now : String) (st : Store) (payload : SnapshotPayload) (d : SnapData)
    (hd : payload.data = JField.val d) :
    (∀ n, payload.version = JField.val n →
        (getSnapshot (putSnapshot now st (some payload)).1).map (fun s => (s.data, s.version))
          = some (some d, n))
      ∧ (payload.version = JField.undefined →
        (getSnapshot (putSnapshot now st (some payload)).1).map (fun s => (s.data, s.version))
          = some (some d, st.log.version)) := by
  constructor
  · intro n hn
    simp [getSnapshot, putSnapshot, hd, hn]
  · intro hn
    simp [getSnapshot, putSnapshot, hd, hn]

/-- C12, the code at a failing input: the log's version counter is 2, no
snapshot is stored, and the body of the PUT is
`{ "version": null, "data": { "nodes": [] } }`, which supplies data and no
version. The GET that follows returns that data with version 0, not with the
version counter. -/
theorem putSnapshot_null_version_reads_zero :
    sampleStore.log.version = 2
      ∧ (getSnapshot (putSnapshot "now" sampleStore
            (some { data := JField.val (SnapData.withNodes []), version := JField.null })).1).map
          (fun s => (s.data, s.version))
        = some (some (SnapData.withNodes []), 0) := by
  decide

/-! ## The apply engine leaves the sync driver's fields alone -/

theorem bookmarksGet_st (w : World) (id : Nat) : (bookmarksGet w id).1.st = w.st := rfl

theorem bookmarksCreate_st (w : World) (p : Nat) (i : Option Int) (t : String)
    (u : Option String) : (bookmarksCreate w p i t u).1.st = w.st := by
  unfold bookmarksCreate
  split <;> rfl

theorem bookmarksUpdate_st (w : World) (id : Nat) (t u : Option String) :
    (bookmarksUpdate w id t u).1.st = w.st := by
  unfold bookmarksUpdate
  split <;> rfl

theorem bookmarksMove_st (w : World) (id p : Nat) (i : Option Int) :
    (bookmarksMove w id p i).1.st = w.st := by
  unfold bookmarksMove
  split <;> rfl

theorem bookmarksRemove_st (w : World) (id : Nat) : (bookmarksRemove w id).1.st = w.st := by
  unfold bookmarksRemove
  split <;> rfl

theorem bookmarksRemoveTree_st (w : World) (id : Nat) :
    (bookmarksRemoveTree w id).1.st = w.st := by
  unfold bookmarksRemoveTree
  split <;> rfl

theorem maybeUpdateNode_st (w : World) (l : Nat) (op : RawOp) (f : Bool) :
    (maybeUpdateNode w l op f).st = w.st := by
  unfold maybeUpdateNode
  simp only
  generalize (if f = true then none else op.url) = url
  split
  · rfl
  · exact bookmarksUpdate_st _ _ _ _

theorem maybeMove_st (w : World) (l p : Nat) (i : JIndex) : (maybeMove w l p i).st = w.st := by
  unfold maybeMove
  have hg := bookmarksGet_st w l
  cases hb : bookmarksGet w l with
  | mk w1 node =>
    rw [hb] at hg
    cases node with
    | none => exact hg
    | some n =>
      simp only
      split
      · exact hg
      · rw [bookmarksMove_st]
        exact hg

theorem createConflictFolder_driver (w : World) :
    (createConflictFolder w).1.st.driver = w.st.driver := by
  unfold createConflictFolder
  have hc := bookmarksCreate_st w DEFAULT_ROOT_ID none CONFLICT_FOLDER_TITLE none
  cases hb : bookmarksCreate w DEFAULT_ROOT_ID none CONFLICT_FOLDER_TITLE none with
  | mk w2 r =>
    rw [hb] at hc
    cases r with
    | none => simp only; rw [hc]
    | some folder => simp only [Client.driver]; rw [hc]

theorem ensureConflictFolder_driver (w : World) :
    (ensureConflictFolder w).1.st.driver = w.st.driver := by
  unfold ensureConflictFolder
  cases hc : w.st.conflictFolderLocalId with
  | none => simp only; exact createConflictFolder_driver w
  | some id =>
    simp only
    have hg := bookmarksGet_st w id
    cases hb : bookmarksGet w id with
    | mk w1 r =>
      rw [hb] at hg
      cases r with
      | none =>
        simp only
        rw [createConflictFolder_driver, hg]
      | some n =>
        simp only
        rw [hg]

theorem resolveParentLocalId_driver (w : World) (p : Option String) :
    (resolveParentLocalId w p).1.st.driver = w.st.driver := by
  unfold resolveParentLocalId
  split
  · rfl
  · split
    · rfl
    · exact ensureConflictFolder_driver w

theorem setMapping_driver (st : Client) (l : Nat) (u : String) :
    (setMapping st l u).driver = st.driver := rfl

theorem persist_driver (st : Client) : (persistBookmarkIndex st).driver = st.driver := by
  unfold persistBookmarkIndex
  split <;> rfl

theorem removeMappingByLocal_driver (st : Client) (l : Nat) :
    (removeMappingByLocal st l).driver = st.driver := by
  unfold removeMappingByLocal
  split
  · rfl
  · split <;> rfl

theorem dropTreeMapping_driver (st : Client) (t : NodeTree) :
    (dropTreeMapping st t).driver = st.driver := by
  rw [dropTreeMapping_eq_foldl]
  generalize t.ids = ids
  induction ids generalizing st with
  | nil => rfl
  | cons a rest ih => rw [List.foldl_cons, ih, removeMappingByLocal_driver]

theorem applyCreate_driver (w : World) (op : RawOp) :
    (applyCreate w op).1.st.driver = w.st.driver := by
  unfold applyCreate
  simp only
  have hr := resolveParentLocalId_driver w op.parentUid
  cases hb : resolveParentLocalId w op.parentUid with
  | mk w1 r =>
    rw [hb] at hr
    cases r with
    | none => exact hr
    | some parentId =>
      simp only
      cases hl : lookupLocalId w.st op.uid with
      | some lid =>
        simp only
        rw [maybeMove_st, maybeUpdateNode_st]
        exact hr
      | none =>
        simp only
        have hc := bookmarksCreate_st w1 parentId (finiteIndex op.index)
          ((nonEmpty? op.title).getD "") (if isFolderOp op then none else nonEmpty? op.url)
        cases hb2 : bookmarksCreate w1 parentId (finiteIndex op.index)
            ((nonEmpty? op.title).getD "") (if isFolderOp op then none else nonEmpty? op.url) with
        | mk w2 r2 =>
          rw [hb2] at hc
          cases r2 with
          | none => simp only; rw [hc]; exact hr
          | some created =>
            simp only
            rw [persist_driver, setMapping_driver, hc]
            exact hr

theorem applyUpdate_driver (w : World) (op : RawOp) :
    (applyUpdate w op).st.driver = w.st.driver := by
  unfold applyUpdate
  split
  · rfl
  · rw [maybeUpdateNode_st]

theorem applyMove_driver (w : World) (op : RawOp) :
    (applyMove w op).1.st.driver = w.st.driver := by
  unfold applyMove
  split
  · rfl
  · have hr := resolveParentLocalId_driver w op.parentUid
    cases hb : resolveParentLocalId w op.parentUid with
    | mk w1 r =>
      rw [hb] at hr
      cases r with
      | none => exact hr
      | some parentId =>
        simp only
        rw [maybeMove_st]
        exact hr

theorem applyRemove_driver (w : World) (op : RawOp) :
    (applyRemove w op).st.driver = w.st.driver := by
  unfold applyRemove
  split
  · rfl
  · rename_i lid _
    have hg : (getNode w lid).1.st = w.st := bookmarksGet_st w lid
    cases hb : getNode w lid with
    | mk w1 r =>
      rw [hb] at hg
      cases r with
      | none => simp only; rw [hg]
      | some node =>
        simp only
        have hr : (if truthy node.url then bookmarksRemove w1 lid
            else bookmarksRemoveTree w1 lid).1.st = w1.st := by
          split
          · exact bookmarksRemove_st _ _
          · exact bookmarksRemoveTree_st _ _
        generalize (if truthy node.url then bookmarksRemove w1 lid
            else bookmarksRemoveTree w1 lid) = r at hr ⊢
        split
        · simp only
          rw [persist_driver, dropTreeMapping_driver, hr, hg]
        · rw [hr, hg]

theorem applyKind_driver (w : World) (op : RawOp) :
    (applyKind w op).1.st.driver = w.st.driver := by
  unfold applyKind
  split
  · exact applyCreate_driver w op
  · split
    · exact applyUpdate_driver w op
    · split
      · exact applyMove_driver w op
      · split
        · exact applyRemove_driver w op
        · rfl

/-- `applyOp` assigns none of `initialized`, `settings`, `opQueue`,
`lastVersion`, `deviceId`, `pushInFlight`, `pullInFlight`, `snapshotHydrated`. -/
theorem applyOp_driver (w : World) (op : RawOp) :
    (applyOp w op).1.st.driver = w.st.driver := by
  unfold applyOp
  split
  · rfl
  · split
    · rfl
    · unfold withReplay
      simp only
      have := applyKind_driver { w with st := { w.st with replayDepth := w.st.replayDepth + 1 } } op
      exact this

theorem applyPage_driver : ∀ (ops : List Op) (w : World),
    (applyPage w ops).1.st.driver = w.st.driver := by
  intro ops
  induction ops with
  | nil => intro w; rfl
  | cons o rest ih =>
    intro w
    unfold applyPage
    have h := applyOp_driver w o.toRaw
    cases hb : applyOp w o.toRaw with
    | mk w1 ok =>
      rw [hb] at h
      cases ok with
      | false => exact h
      | true =>
        simp only
        rw [ih, h]

theorem hydrateLoop_driver (now : Int) : ∀ (fuel : Nat) (w : World) (pending : List SnapNode),
    (hydrateLoop now fuel w pending).1.st.driver = w.st.driver := by
  intro fuel
  induction fuel with
  | zero => intro w pending; rfl
  | succ n ih =>
    intro w pending
    cases pending with
    | nil => rfl
    | cons node rest =>
      unfold hydrateLoop
      split
      · have h := applyOp_driver w (snapshotOp now node)
        cases hb : applyOp w (snapshotOp now node) with
        | mk w1 ok =>
          rw [hb] at h
          cases ok with
          | false => exact h
          | true =>
            simp only
            rw [ih, h]
      · exact ih _ _

theorem hydrateRest_driver (now : Int) : ∀ (pending : List SnapNode) (w : World),
    (hydrateRest now w pending).1.st.driver = w.st.driver := by
  intro pending
  induction pending with
  | nil => intro w; rfl
  | cons node rest ih =>
    intro w
    unfold hydrateRest
    have h := applyOp_driver w (snapshotOp now node)
    cases hb : applyOp w (snapshotOp now node) with
    | mk w1 ok =>
      rw [hb] at h
      cases ok with
      | false => exact h
      | true =>
        simp only
        rw [ih, h]

/-! ## Lemmas on the cursor of a client running against the server -/

theorem driver_lastVersion {a b : Client} (h : a.driver = b.driver) :
    a.lastVersion = b.lastVersion :=
  congrArg (fun d => d.2.2.2.1) h

/-- After `hydrateFromSnapshot` the cursor is what it was or the version of
the snapshot fetched. -/
theorem hydrateFromSnapshot_cursor (now : Int) (snapshot : Option Snapshot) (w : World) :
    (hydrateFromSnapshot now snapshot w).1.st.lastVersion = w.st.lastVersion
      ∨ ∃ snap, snapshot = some snap
          ∧ (hydrateFromSnapshot now snapshot w).1.st.lastVersion = snap.version := by
  unfold hydrateFromSnapshot
  cases snapshot with
  | none => left; rfl
  | some snap =>
    simp only
    cases hd : snap.data with
    | none => left; rfl
    | some d =>
      cases d with
      | other j => left; rfl
      | withNodes nodes =>
        simp only
        have h1 := driver_lastVersion (hydrateLoop_driver now (nodes.length * 3) w nodes)
        split
        · left; exact h1
        · have h2 := driver_lastVersion (hydrateRest_driver now
            (hydrateLoop now (nodes.length * 3) w nodes).2.1
            (hydrateLoop now (nodes.length * 3) w nodes).1)
          split
          · left
            simp only
            rw [h2, h1]
          · right
            exact ⟨snap, rfl, rfl⟩

theorem adoptVersion_cursor (P : Int → Prop) (w : World) (v : Option Int)
    (hw : P w.st.lastVersion) (hv : ∀ n, v = some n → P n) :
    P (adoptVersion w v).st.lastVersion := by
  unfold adoptVersion
  cases v with
  | none => exact hw
  | some n => exact hv n rfl

/-- The loop of `pullOps` against a remote that its requests do not change
and whose answers carry a `latest` within `P`: the remote is as before and the
cursor is within `P` if it was. -/
theorem pullLoop_cursor {σ : Type} (fetch : σ → Int → Int → σ × Option PullData)
    (pageSize : Int) (P : Int → Prop) (r : σ) (hfix : ∀ a l, (fetch r a l).1 = r)
    (hP : ∀ a l d n, (fetch r a l).2 = some d → d.latest = some n → P n) :
    ∀ (fuel : Nat) (w : World) (trace : List Op) (res : σ × World × List Op × Outcome),
      P w.st.lastVersion → pullLoop fetch pageSize fuel r w trace = some res →
      res.1 = r ∧ P res.2.1.st.lastVersion := by
  intro fuel
  induction fuel with
  | zero =>
    intro w trace res _ h
    simp [pullLoop] at h
  | succ n ih =>
    intro w trace res hw h
    unfold pullLoop at h
    have h1 := hfix w.st.lastVersion pageSize
    have h2 := hP w.st.lastVersion pageSize
    cases hf : fetch r w.st.lastVersion pageSize with
    | mk r1 od =>
      rw [hf] at h h1 h2
      simp only at h1
      subst h1
      cases od with
      | none =>
        simp only at h
        rw [← Option.some.inj h]
        exact ⟨rfl, hw⟩
      | some data =>
        simp only at h
        have hpage : P (applyPage w data.ops).1.st.lastVersion := by
          rw [driver_lastVersion (applyPage_driver data.ops w)]
          exact hw
        split at h
        · rw [← Option.some.inj h]
          exact ⟨rfl, adoptVersion_cursor P w data.latest hw (fun n hn => h2 data n rfl hn)⟩
        · split at h
          · rw [← Option.some.inj h]
            exact ⟨rfl, hpage⟩
          · split at h
            · rw [← Option.some.inj h]
              exact ⟨rfl, adoptVersion_cursor P _ data.latest hpage
                (fun n hn => h2 data n rfl hn)⟩
            · exact ih _ _ res
                (adoptVersion_cursor P _ data.latest hpage (fun n hn => h2 data n rfl hn)) h

/-- Likewise for `pullOps`. -/
theorem pullOps_cursor {σ : Type} (fetch : σ → Int → Int → σ × Option PullData)
    (P : Int → Prop) (r : σ) (hfix : ∀ a l, (fetch r a l).1 = r)
    (hP : ∀ a l d n, (fetch r a l).2 = some d → d.latest = some n → P n)
    (fuel : Nat) (w : World) (res : σ × World × List Op × Outcome)
    (hw : P w.st.lastVersion) (h : pullOps fetch fuel r w = some res) :
    res.1 = r ∧ P res.2.1.st.lastVersion := by
  unfold pullOps at h
  split at h
  · rw [← Option.some.inj h]
    exact ⟨rfl, hw⟩
  · cases hl : pullLoop fetch (pageSizeOf w.st.settings) fuel r
        { w with st := { w.st with pullInFlight := true } } [] with
    | none =>
      rw [hl] at h
      cases h
    | some res1 =>
      rw [hl] at h
      obtain ⟨k1, k2⟩ := pullLoop_cursor fetch _ P r hfix hP fuel
        { w with st := { w.st with pullInFlight := true } } [] res1 hw hl
      obtain ⟨r1, w1, tr, out⟩ := res1
      simp only at h
      rw [← Option.some.inj h]
      exact ⟨k1, k2⟩

theorem push_newVersion (cfg : Config) (h : Host) (s : Server) (b : List (Option RawOp)) :
    (push cfg h s b).2.newVersion = (push cfg h s b).1.version := by
  unfold push
  split <;> rfl

theorem push_version_ge (cfg : Config) (h : Host) (s : Server) (b : List (Option RawOp)) :
    s.version ≤ (push cfg h s b).1.version := by
  by_cases hb : b = []
  · rw [hb]
    exact le_refl _
  · rw [push_of_nonempty cfg h s b hb]
    simp only [pruneOps_version]
    obtain ⟨new, _, _, hv, _⟩ := pushLoop_shape h b 0 s 0
    rw [hv]
    omega

theorem push_entries_le (cfg : Config) (h : Host) (s : Server) (b : List (Option RawOp))
    (hle : ∀ o ∈ s.ops, o.version ≤ s.version) :
    ∀ o ∈ (push cfg h s b).1.ops, o.version ≤ (push cfg h s b).1.version := by
  by_cases hb : b = []
  · rw [hb]
    exact hle
  · rw [push_of_nonempty cfg h s b hb]
    simp only [pruneOps_version]
    obtain ⟨new, hops, _, hv, hvs, _⟩ := pushLoop_shape h b 0 s 0
    intro o ho
    have ho2 : o ∈ (pushLoop h 0 b (s, 0)).1.ops := by
      rw [pruneOps_ops cfg (pushLoop h 0 b (s, 0)).1]
      exact List.mem_append_right _ ho
    rw [hops] at ho2
    rw [hv]
    rcases List.mem_append.mp ho2 with h1 | h1
    · have := hle o h1
      omega
    · have hm : o.version ∈ new.map (fun o => o.version) := List.mem_map.mpr ⟨o, h1, rfl⟩
      rw [hvs] at hm
      obtain ⟨j, hj, hjv⟩ := List.mem_map.mp hm
      have := List.mem_range.mp hj
      omega

/-- What `pushOps` does to the remote and the cursor. -/
theorem pushOps_cursor {σ : Type} (post : σ → Int → List RawOp → σ × Option PushData)
    (e : List RawOp) (r : σ) (w : World) :
    ((pushOps post e r w).1 = r
        ∧ (pushOps post e r w).2.1.st.lastVersion = w.st.lastVersion)
      ∨ ((pushOps post e r w).1 = (post r w.st.lastVersion w.st.opQueue).1
        ∧ ((pushOps post e r w).2.1.st.lastVersion = w.st.lastVersion
          ∨ ∃ d, (post r w.st.lastVersion w.st.opQueue).2 = some d
              ∧ d.newVersion = some (pushOps post e r w).2.1.st.lastVersion)) := by
  unfold pushOps
  split
  · left; exact ⟨rfl, rfl⟩
  · split
    · left; exact ⟨rfl, rfl⟩
    · right
      simp only
      cases hp : post r w.st.lastVersion w.st.opQueue with
      | mk r1 od =>
        cases od with
        | none => exact ⟨rfl, Or.inl rfl⟩
        | some d =>
          simp only
          refine ⟨trivial, ?_⟩
          cases hn : d.newVersion with
          | none => left; rfl
          | some n => right; exact ⟨d, rfl, by rw [hn]; rfl⟩

theorem pull_empty_after_counter (cfg : Config) (s : Server) (limit : Option Int)
    (hle : ∀ o ∈ s.ops, o.version ≤ s.version) :
    (pull cfg s (some s.version) limit).ops = [] := by
  unfold pull
  simp only [Option.getD_some]
  have : s.ops.filter (fun op => decide (op.version > s.version)) = [] := by
    rw [List.filter_eq_nil_iff]
    intro o ho
    have := hle o ho
    simp only [gt_iff_lt, decide_eq_true_eq, not_lt]
    exact this
  rw [this]
  exact List.take_nil

/-- Against a server whose entries lie within its version counter, the loop of
`pullOps` ends within two requests. -/
theorem pullLoop_terminates (cfg : Config) (s : Server) (pageSize : Int)
    (hle : ∀ o ∈ s.ops, o.version ≤ s.version) (fuel : Nat) (w : World) (trace : List Op) :
    pullLoop (serverFetch cfg) pageSize (fuel + 2) s w trace ≠ none := by
  unfold pullLoop
  simp only [serverFetch]
  split
  · simp
  · split
    · simp
    · split
      · simp
      · unfold pullLoop
        simp only [serverFetch]
        have hcur : (adoptVersion (applyPage w
              (pull cfg s (some w.st.lastVersion) (some pageSize)).ops).1
            (some (pull cfg s (some w.st.lastVersion) (some pageSize)).latest)).st.lastVersion
            = s.version := rfl
        rw [hcur, pull_empty_after_counter cfg s _ hle]
        simp

/-! ## C13: the cursor over a run -/

theorem sysInv_of (sys : Sys) (log1 : Server) (w1 : World) (hinv : SysInv sys)
    (hv : sys.store.log.version ≤ log1.version)
    (hc1 : sys.client.st.lastVersion ≤ w1.st.lastVersion)
    (hc2 : w1.st.lastVersion ≤ log1.version)
    (he : ∀ o ∈ log1.ops, o.version ≤ log1.version) :
    SysInv { store := { sys.store with log := log1 }, client := w1 }
      ∧ sys.client.st.lastVersion ≤ w1.st.lastVersion := by
  refine ⟨⟨le_trans hinv.counter_nonneg hv, hc2, ?_, he⟩, hc1⟩
  intro snap hsnap
  obtain ⟨k1, k2⟩ := hinv.snapshot_le snap hsnap
  exact ⟨k1, le_trans k2 hv⟩

/-- What `pushOps` brings about against the server, reachable or not. -/
theorem pushOps_facts (cfg : Config) (h : Host) (online : Bool) (e : List RawOp) (s : Server)
    (w : World) (hle : ∀ o ∈ s.ops, o.version ≤ s.version)
    (hcur : w.st.lastVersion ≤ s.version) :
    s.version
        ≤ (pushOps (if online = true then serverPost cfg h else fun s _ _ => (s, none)) e s w).1.version
      ∧ w.st.lastVersion
        ≤ (pushOps (if online = true then serverPost cfg h
            else fun s _ _ => (s, none)) e s w).2.1.st.lastVersion
      ∧ (pushOps (if online = true then serverPost cfg h
            else fun s _ _ => (s, none)) e s w).2.1.st.lastVersion
        ≤ (pushOps (if online = true then serverPost cfg h
            else fun s _ _ => (s, none)) e s w).1.version
      ∧ ∀ o ∈ (pushOps (if online = true then serverPost cfg h
            else fun s _ _ => (s, none)) e s w).1.ops,
          o.version ≤ (pushOps (if online = true then serverPost cfg h
            else fun s _ _ => (s, none)) e s w).1.version := by
  generalize hpost : (if online = true then serverPost cfg h else fun s _ _ => (s, none)) = post
  have hcases : (post s w.st.lastVersion w.st.opQueue = (s, none))
      ∨ (post s w.st.lastVersion w.st.opQueue
          = ((push cfg h s (w.st.opQueue.map some)).1,
              some { newVersion := some (push cfg h s (w.st.opQueue.map some)).1.version })) := by
    rw [← hpost]
    cases online with
    | false => left; rfl
    | true =>
      right
      show serverPost cfg h s w.st.lastVersion w.st.opQueue = _
      unfold serverPost
      rw [push_newVersion]
  have hge := push_version_ge cfg h s (w.st.opQueue.map some)
  rcases pushOps_cursor post e s w with ⟨h1, h2⟩ | ⟨h1, h2⟩
  · rw [h1, h2]
    exact ⟨le_refl _, le_refl _, hcur, hle⟩
  · rcases hcases with hc | hc
    · rw [hc] at h1 h2
      have h2 : (pushOps post e s w).2.1.st.lastVersion = w.st.lastVersion := by
        rcases h2 with h2 | ⟨d, hd, _⟩
        · exact h2
        · cases hd
      rw [h1, h2]
      exact ⟨le_refl _, le_refl _, hcur, hle⟩
    · rw [hc] at h1 h2
      rw [h1]
      have h3 : w.st.lastVersion ≤ (pushOps post e s w).2.1.st.lastVersion
          ∧ (pushOps post e s w).2.1.st.lastVersion
            ≤ (push cfg h s (w.st.opQueue.map some)).1.version := by
        rcases h2 with h2 | ⟨d, hd, hn⟩
        · rw [h2]
          exact ⟨le_refl _, le_trans hcur hge⟩
        · have hd : some _ = some d := hd
          have hd2 := congrArg PushData.newVersion (Option.some.inj hd)
          simp only at hd2
          rw [hn] at hd2
          rw [← Option.some.inj hd2]
          exact ⟨le_trans hcur hge, le_refl _⟩
      exact ⟨hge, h3.1, h3.2, push_entries_le cfg h s _ hle⟩

/-- One step of a run keeps the invariant and does not lower the cursor,
provided a snapshot, if the step stores one, is stored with a version within
the counter. -/
theorem sysStep_inv (cfg : Config) (sys sys1 : Sys) (a : Action) (hinv : SysInv sys)
    (hok : a.versionOk sys) (hs : sysStep cfg sys a = some sys1) :
    SysInv sys1 ∧ sys.client.st.lastVersion ≤ sys1.client.st.lastVersion := by
  cases a with
  | remotePush h batch =>
    have := Option.some.inj hs
    subst this
    refine ⟨⟨?_, ?_, ?_, ?_⟩, le_refl _⟩
    · exact le_trans hinv.counter_nonneg (push_version_ge cfg h _ batch)
    · exact le_trans hinv.cursor_le (push_version_ge cfg h _ batch)
    · intro snap hsnap
      obtain ⟨h1, h2⟩ := hinv.snapshot_le snap hsnap
      exact ⟨h1, le_trans h2 (push_version_ge cfg h _ batch)⟩
    · exact push_entries_le cfg h _ batch hinv.entries_le
  | storeSnapshot now body =>
    have := Option.some.inj hs
    subst this
    cases body with
    | none => exact ⟨hinv, le_refl _⟩
    | some payload =>
      refine ⟨⟨hinv.counter_nonneg, hinv.cursor_le, ?_, hinv.entries_le⟩, le_refl _⟩
      intro snap hsnap
      have hsnap : some _ = some snap := hsnap
      have hv := congrArg Snapshot.version (Option.some.inj hsnap)
      simp only at hv
      rw [← hv]
      have hok : (match payload.version with
          | JField.val n => 0 ≤ n ∧ n ≤ sys.store.log.version
          | _ => True) := hok
      cases hpv : payload.version with
      | val n =>
        rw [hpv] at hok
        exact hok
      | null => exact ⟨le_refl _, hinv.counter_nonneg⟩
      | undefined => exact ⟨hinv.counter_nonneg, le_refl _⟩
  | enqueue op =>
    have := Option.some.inj hs
    subst this
    exact ⟨⟨hinv.counter_nonneg, hinv.cursor_le, hinv.snapshot_le, hinv.entries_le⟩, le_refl _⟩
  | hydrate now online =>
    have := Option.some.inj hs
    subst this
    have key : (initHydrate now (if online = true then getSnapshot sys.store else none)
          sys.client).st.lastVersion = sys.client.st.lastVersion
        ∨ (sys.client.st.lastVersion = 0 ∧ ∃ snap, sys.store.snapshot = some snap
            ∧ (initHydrate now (if online = true then getSnapshot sys.store else none)
                sys.client).st.lastVersion = snap.version) := by
      unfold initHydrate
      split
      · rename_i hg
        have h0 : sys.client.st.lastVersion = 0 := by
          simp only [Bool.and_eq_true, decide_eq_true_eq] at hg
          exact hg.2
        rcases hydrateFromSnapshot_cursor now
            (if online = true then getSnapshot sys.store else none) sys.client with h1 | h1
        · left; exact h1
        · right
          obtain ⟨snap, hsnap, hv⟩ := h1
          refine ⟨h0, snap, ?_, hv⟩
          cases online with
          | false => simp at hsnap
          | true => simpa [getSnapshot] using hsnap
      · left; rfl
    rcases key with h1 | ⟨h0, snap, hsnap, hv⟩
    · exact ⟨⟨hinv.counter_nonneg, by show _ ≤ _; rw [h1]; exact hinv.cursor_le,
        hinv.snapshot_le, hinv.entries_le⟩, by rw [h1]⟩
    · obtain ⟨k1, k2⟩ := hinv.snapshot_le snap hsnap
      exact ⟨⟨hinv.counter_nonneg, by show _ ≤ _; rw [hv]; exact k2,
        hinv.snapshot_le, hinv.entries_le⟩, by rw [hv, h0]; exact k1⟩
  | push h enqueued online =>
    have := Option.some.inj hs
    subst this
    obtain ⟨k1, k2, k3, k4⟩ := pushOps_facts cfg h online enqueued sys.store.log sys.client
      hinv.entries_le hinv.cursor_le
    exact sysInv_of sys _ _ hinv k1 k2 k3 k4
  | pull fuel online =>
    have hs : (match pullOps (if online = true then serverFetch cfg
          else fun s _ _ => (s, none)) fuel sys.store.log sys.client with
        | none => none
        | some r => some { store := { sys.store with log := r.1 }, client := r.2.1 })
        = some sys1 := hs
    cases hp : pullOps (if online = true then serverFetch cfg else fun s _ _ => (s, none)) fuel
        sys.store.log sys.client with
    | none =>
      rw [hp] at hs
      cases hs
    | some res =>
      rw [hp] at hs
      have := Option.some.inj hs
      subst this
      obtain ⟨k1, k2⟩ := pullOps_cursor
        (if online = true then serverFetch cfg else fun s _ _ => (s, none))
        (fun v => sys.client.st.lastVersion ≤ v ∧ v ≤ sys.store.log.version) sys.store.log
        (by intro a l; cases online <;> rfl)
        (by
          intro a l d n hd hn
          cases online with
          | false => cases hd
          | true =>
            have hd : some _ = some d := hd
            have hl := congrArg PullData.latest (Option.some.inj hd)
            simp only at hl
            rw [hn] at hl
            have hl : sys.store.log.version = n := Option.some.inj hl
            rw [← hl]
            exact ⟨hinv.cursor_le, le_refl _⟩)
        fuel sys.client res ⟨le_refl _, hinv.cursor_le⟩ hp
      have k := sysInv_of sys res.1 res.2.1 hinv (by rw [k1]) k2.1 (by rw [k1]; exact k2.2)
        (by rw [k1]; exact hinv.entries_le)
      exact k
/-- A step whose pull, if it is one, has fuel for two requests does not get
stuck. -/
theorem sysStep_progress (cfg : Config) (sys : Sys) (a : Action) (hinv : SysInv sys)
    (hf : a.fuelOk) : sysStep cfg sys a ≠ none := by
  cases a with
  | remotePush h batch => simp [sysStep]
  | storeSnapshot now body => simp [sysStep]
  | enqueue op => simp [sysStep]
  | hydrate now online => simp [sysStep]
  | push h enqueued online => simp [sysStep]
  | pull fuel online =>
    have hf : 2 ≤ fuel := hf
    obtain ⟨k, rfl⟩ : ∃ k, fuel = k + 2 := ⟨fuel - 2, by omega⟩
    have hp : pullOps (if online = true then serverFetch cfg else fun s _ _ => (s, none))
        (k + 2) sys.store.log sys.client ≠ none := by
      unfold pullOps
      split
      · simp
      · have hl : pullLoop (if online = true then serverFetch cfg else fun s _ _ => (s, none))
            (pageSizeOf sys.client.st.settings) (k + 2) sys.store.log
            { sys.client with st := { sys.client.st with pullInFlight := true } } [] ≠ none := by
          cases online with
          | true => exact pullLoop_terminates cfg _ _ hinv.entries_le k _ _
          | false =>
            unfold pullLoop
            simp
        cases hc : pullLoop (if online = true then serverFetch cfg else fun s _ _ => (s, none))
            (pageSizeOf sys.client.st.settings) (k + 2) sys.store.log
            { sys.client with st := { sys.client.st with pullInFlight := true } } [] with
        | none => exact absurd hc hl
        | some r => simp
    show (match pullOps (if online = true then serverFetch cfg else fun s _ _ => (s, none))
        (k + 2) sys.store.log sys.client with
      | none => (none : Option Sys)
      | some r => some { store := { sys.store with log := r.1 }, client := r.2.1 }) ≠ none
    cases hc : pullOps (if online = true then serverFetch cfg else fun s _ _ => (s, none))
        (k + 2) sys.store.log sys.client with
    | none => exact absurd hc hp
    | some r => simp

theorem sysRun_spec (cfg : Config) (actions : List Action) :
    ∀ sys : Sys, SysInv sys → versionsOk cfg sys actions →
      List.Chain (fun a b => a ≤ b) sys.client.st.lastVersion
          ((sysRun cfg sys actions).map (fun s => s.client.st.lastVersion))
        ∧ ((∀ a ∈ actions, a.fuelOk) → (sysRun cfg sys actions).length = actions.length) := by
  induction actions with
  | nil =>
    intro sys _ _
    exact ⟨List.Chain.nil, fun _ => rfl⟩
  | cons a rest ih =>
    intro sys hinv hok
    have hok : a.versionOk sys ∧
        (match sysStep cfg sys a with
          | none => True
          | some sys1 => versionsOk cfg sys1 rest) := hok
    cases hs : sysStep cfg sys a with
    | none =>
      have hr : sysRun cfg sys (a :: rest) = [] := by
        unfold sysRun
        rw [hs]
      rw [hr]
      refine ⟨List.Chain.nil, ?_⟩
      intro hf
      exact absurd hs (sysStep_progress cfg sys a hinv (hf a (List.mem_cons_self _ _)))
    | some sys1 =>
      have hr : sysRun cfg sys (a :: rest) = sys1 :: sysRun cfg sys1 rest := by
        conv_lhs => unfold sysRun
        rw [hs]
      rw [hs] at hok
      obtain ⟨hinv1, hle⟩ := sysStep_inv cfg sys sys1 a hinv hok.1 hs
      obtain ⟨k1, k2⟩ := ih sys1 hinv1 hok.2
      rw [hr]
      refine ⟨List.Chain.cons hle k1, ?_⟩
      intro hf
      simp only [List.length_cons]
      rw [k2 (fun b hb => hf b (List.mem_cons_of_mem _ hb))]

/-- C13 as amended: in every run of a client against the server made of its
guarded `hydrateFromSnapshot`, `pushOps` and `pullOps` steps, other devices'
pushes, local changes being enqueued and snapshots stored through
`PUT /v1/snapshot`, started where the cursor and the stored snapshot's
version lie within the server's version counter, the cursor `lastVersion`
never decreases from one step to the next, provided every snapshot is stored
with a version between 0 and the version counter of that moment (or with
none); and no step gets stuck when every pull may issue two requests. -/
theorem cursor_never_decreases (cfg : Config) (sys : Sys) (actions : List Action)
    (hinv : SysInv sys) (hok : versionsOk cfg sys actions) :
    List.Chain (fun a b => a ≤ b) sys.client.st.lastVersion
        ((sysRun cfg sys actions).map (fun s => s.client.st.lastVersion))
      ∧ ((∀ a ∈ actions, a.fuelOk) → (sysRun cfg sys actions).length = actions.length) :=
  sysRun_spec cfg actions sys hinv hok

/-- Witness for C13: the sample run with a snapshot of version 1 against the
sample server, whose counter is 2; the cursor goes 0, 1, 1, 1, 4, 4. -/
theorem cursor_never_decreases_witness :
    SysInv sampleSys ∧ versionsOk {} sampleSys (sampleRun 1)
      ∧ (sysRun {} sampleSys (sampleRun 1)).map (fun s => s.client.st.lastVersion)
        = [0, 1, 1, 1, 4, 4]
      ∧ List.Chain (fun a b => a ≤ b) sampleSys.client.st.lastVersion
          ((sysRun {} sampleSys (sampleRun 1)).map (fun s => s.client.st.lastVersion)) :=
  ⟨⟨by decide, by decide, fun _ h => (by cases h), by decide⟩, by decide, by decide,
    (cursor_never_decreases {} sampleSys (sampleRun 1)
      ⟨by decide, by decide, fun _ h => (by cases h), by decide⟩ (by decide)).1⟩

/-- C13, counterexample: the sample server's version counter is 2 and a
snapshot is stored with version 99. The client, at cursor 0, hydrates from it
and its cursor becomes 99; the pull that follows reads `latest` 2 and the
cursor falls to 2. -/
theorem cursor_falls_after_snapshot_beyond_counter :
    (sysRun {} sampleSys
        [Action.storeSnapshot "now" (some (sampleBody 99)), Action.hydrate 0 true,
          Action.pull 3 true]).map
        (fun s => (s.store.log.version, s.client.st.lastVersion))
      = [(2, 0), (2, 99), (2, 2)] := by
  decide

/-! ## C11: two devices pulling the same log -/

/-- C11, the code at a failing input: devices "B" (page size 50) and "C"
(page size 200) start from the same tree and the same, empty, identity map.
The server log holds 51 entries of device "A", the last one creating the
bookmark "n". Both devices pull from cursor 0 and end at cursor 51, the
latest version; "C" holds the UID "n" (local id 3, under the bookmarks bar at
index 0), "B" does not hold it. -/
theorem pullOps_devices_diverge_on_page_size :
    (sampleWorld 50).tree = (sampleWorldC 200).tree
      ∧ (sampleWorld 50).st.bookmarkIndex = (sampleWorldC 200).st.bookmarkIndex
      ∧ (sampleLongLog.ops.all (fun o => decide (o.deviceId = some "A"))) = true
      ∧ (pullOps (serverFetch {}) 3 sampleLongLog (sampleWorld 50)).map
          (fun r => (r.2.1.st.lastVersion, r.2.2.2, lookupLocalId r.2.1.st (some "n")))
        = some (51, Outcome.completed, none)
      ∧ (pullOps (serverFetch {}) 3 sampleLongLog (sampleWorldC 200)).map
          (fun r => (r.2.1.st.lastVersion, r.2.2.2, lookupLocalId r.2.1.st (some "n")))
        = some (51, Outcome.completed, some 3)
      ∧ (pullOps (serverFetch {}) 3 sampleLongLog (sampleWorldC 200)).map
          (fun r => r.2.1.tree.get 3)
        = some (some { id := 3, parentId := some 1, index := 0, title := "Node"
                       url := some "https://example.com" }) := by
  decide

/-! ## C24: what a remove drops from the identity map -/

theorem truthy_of_nonEmpty? {v : Option String} {u : String} (h : nonEmpty? v = some u) :
    truthy v = true := by
  unfold truthy
  rw [h]
  rfl

theorem withReplay_same (w : World) (fn : World → World × Bool)
    (h : fn { w with st := { w.st with replayDepth := w.st.replayDepth + 1 } }
      = ({ w with st := { w.st with replayDepth := w.st.replayDepth + 1 } }, true)) :
    withReplay w fn = (w, true) := by
  unfold withReplay
  rw [h]
  simp

theorem withReplay_index (w : World) (fn : World → World × Bool) :
    (withReplay w fn).1.st.bookmarkIndex
        = (fn { w with st := { w.st with replayDepth := w.st.replayDepth + 1 } }).1.st.bookmarkIndex
      ∧ (withReplay w fn).1.tree
        = (fn { w with st := { w.st with replayDepth := w.st.replayDepth + 1 } }).1.tree
      ∧ (withReplay w fn).2
        = (fn { w with st := { w.st with replayDepth := w.st.replayDepth + 1 } }).2 :=
  ⟨rfl, rfl, rfl⟩

/-- A remove of a mapped node that the tree accepts: the tree after it and the
identity map after it. -/
theorem applyRemove_accepted (w : World) (op : RawOp) (l : Nat) (node : BNode) (t1 : Tree)
    (hl : lookupLocalId w.st op.uid = some l) (hg : w.tree.get l = some node)
    (hrm : (if truthy node.url then w.tree.remove l else w.tree.removeTree l) = some t1) :
    (applyRemove w op).tree = t1
      ∧ (applyRemove w op).st.bookmarkIndex = (removeMappingByLocal w.st l).bookmarkIndex := by
  have hid : node.id = l := (Tree.get_spec hg).choose_spec.2.2
  unfold applyRemove
  simp only [hl, getNode, bookmarksGet, hg]
  by_cases hurl : truthy node.url = true
  · rw [if_pos hurl] at hrm
    simp only [hurl, if_true, bookmarksRemove, hrm]
    simp only [if_true, BNode.toNodeTree, hid, dropTreeMapping, dropTreeMappings, persist_index]
    exact ⟨trivial, trivial⟩
  · rw [if_neg hurl] at hrm
    simp only [hurl, Bool.false_eq_true, if_false, bookmarksRemoveTree, hrm]
    simp only [if_true, BNode.toNodeTree, hid, dropTreeMapping, dropTreeMappings, persist_index]
    exact ⟨trivial, trivial⟩

theorem removeMappingByLocal_congr {st1 st2 : Client}
    (h : st1.bookmarkIndex = st2.bookmarkIndex) (l : Nat) :
    (removeMappingByLocal st1 l).bookmarkIndex = (removeMappingByLocal st2 l).bookmarkIndex := by
  by_cases hroot : l ∈ ROOT_LOCAL_IDS
  · rw [removeMappingByLocal_unmapped st1 l (Or.inl hroot),
      removeMappingByLocal_unmapped st2 l (Or.inl hroot), h]
  · cases hn : nonEmpty? (dictGet st1.bookmarkIndex.localToUid l) with
    | none =>
      rw [removeMappingByLocal_unmapped st1 l (Or.inr hn),
        removeMappingByLocal_unmapped st2 l (Or.inr (h ▸ hn)), h]
    | some u =>
      rw [removeMappingByLocal_mapped st1 l u hroot hn,
        removeMappingByLocal_mapped st2 l u hroot (h ▸ hn), h]
/-- C24 as amended: for every client state whose identity map is one-to-one
and every remove operation from another device whose uid (not a well-known
root UID) maps to a local node, when the tree accepts the removal `applyOp`
returns normally, the node is removed from the tree, and the node has no
entry in `localToUid` nor its uid in `uidToLocal` any more; a remove for an
unmapped uid changes nothing. -/
theorem applyOp_remove_drops_node_mapping (w : World) (op : RawOp) (u : String)
    (hkind : op.op = some "remove") (hu : nonEmpty? op.uid = some u)
    (hother : ¬ (truthy op.deviceId = true ∧ op.deviceId = w.st.deviceId)) :
    (∀ l node t1, IndexInv w.st.bookmarkIndex → dictGet ROOT_UID_TO_LOCAL u = none →
        lookupLocalId w.st op.uid = some l → w.tree.get l = some node →
        (if truthy node.url then w.tree.remove l else w.tree.removeTree l) = some t1 →
        (applyOp w op).2 = true
          ∧ (applyOp w op).1.tree = t1
          ∧ dictGet (applyOp w op).1.st.bookmarkIndex.localToUid l = none
          ∧ dictGet (applyOp w op).1.st.bookmarkIndex.uidToLocal u = none
          ∧ lookupLocalId (applyOp w op).1.st op.uid = none)
      ∧ (lookupLocalId w.st op.uid = none → applyOp w op = (w, true)) := by
  have hop : truthy op.op = true := by rw [hkind]; decide
  have hfor := applyOp_foreign w op (truthy_of_nonEmpty? hu) hop hother
  have hk : ∀ w1 : World, applyKind w1 op = (applyRemove w1 op, true) := by
    intro w1
    unfold applyKind
    rw [hkind]
    simp
  constructor
  · intro l node t1 hinv hnotroot hl hg hrm
    obtain ⟨h1, h2, h3⟩ := withReplay_index w (fun w1 => applyKind w1 op)
    obtain ⟨k1, k2⟩ := applyRemove_accepted
      { w with st := { w.st with replayDepth := w.st.replayDepth + 1 } } op l node t1 hl hg hrm
    have hidx : (applyOp w op).1.st.bookmarkIndex
        = (removeMappingByLocal w.st l).bookmarkIndex := by
      rw [hfor, h1, hk]
      show (applyRemove _ op).st.bookmarkIndex = _
      rw [k2]
      exact @removeMappingByLocal_congr { w.st with replayDepth := w.st.replayDepth + 1 } w.st
        rfl l
    have htree : (applyOp w op).1.tree = t1 := by
      rw [hfor, h2, hk]
      exact k1
    have hflag : (applyOp w op).2 = true := by
      rw [hfor, h3, hk]
    have hne : u ≠ "" := nonEmpty?_ne hu
    have hul : dictGet w.st.bookmarkIndex.uidToLocal u = some l := by
      have := hl
      unfold lookupLocalId at this
      rw [hu] at this
      cases hd : dictGet w.st.bookmarkIndex.uidToLocal u with
      | some l2 =>
        simp only [hd] at this
        rw [Option.some.inj this]
      | none =>
        simp only [hd] at this
        rw [hnotroot] at this
        cases this
    have hlu : dictGet w.st.bookmarkIndex.localToUid l = some u := (hinv.1 l u).mpr hul
    have hroot : l ∉ ROOT_LOCAL_IDS := by
      intro hr
      obtain ⟨f, hf⟩ := root_of_mem hr
      have hfu := (hinv.2.2 l f hf).1 u hlu
      have := (root_uid_known hf).1
      rw [← hfu, hnotroot] at this
      cases this
    have e1 : dictGet (removeMappingByLocal w.st l).bookmarkIndex.localToUid l = none := by
      rw [removeMappingByLocal_localToUid w.st l l hinv.2.1, if_pos ⟨rfl, hroot⟩]
    have e2 : dictGet (removeMappingByLocal w.st l).bookmarkIndex.uidToLocal u = none := by
      rw [removeMappingByLocal_uidToLocal w.st l u hinv.2.1, if_pos ⟨hlu, hroot⟩]
    refine ⟨hflag, htree, by rw [hidx]; exact e1, by rw [hidx]; exact e2, ?_⟩
    rw [lookupLocalId_congr hidx]
    unfold lookupLocalId
    rw [hu]
    simp only [e2, hnotroot]
  · intro hl
    rw [hfor]
    apply withReplay_same
    rw [hk]
    unfold applyRemove
    have : lookupLocalId ({ w with st := { w.st with replayDepth := w.st.replayDepth + 1 } } :
        World).st op.uid = none := hl
    simp only [this]

/-- Witness for C24: device "B" applies the remove of the bookmark "b" sent by
device "A"; the bookmark's mapping is gone. -/
theorem applyOp_remove_drops_node_mapping_witness :
    IndexInv sampleFolderWorld.st.bookmarkIndex
      ∧ lookupLocalId sampleFolderWorld.st (some "b") = some 5
      ∧ dictGet (applyOp sampleFolderWorld (sampleRemove "b")).1.st.bookmarkIndex.localToUid 5
        = none :=
  ⟨indexRun_inv sampleFolderSteps {} indexInv_empty (by decide), by decide,
    ((applyOp_remove_drops_node_mapping sampleFolderWorld (sampleRemove "b") "b" rfl rfl
      (by decide)).1 5 _ _ (indexRun_inv sampleFolderSteps {} indexInv_empty (by decide))
      (by decide) (by decide) rfl rfl).2.2.1⟩

/-- C24, counterexamples. Device "B" applies the remove of the folder "f",
which holds the mapped bookmark "b" (local id 5): the tree removes folder and
bookmark, the folder's mapping is dropped, and the bookmark keeps its entries
in both dictionaries, `chrome.bookmarks.get` having returned the folder
without `children`. And when the host does not allow bookmarks to be edited,
the removal is rejected and folder and bookmark both keep their entries. -/
theorem applyOp_remove_keeps_descendant_mappings :
    (((applyOp sampleFolderWorld (sampleRemove "f")).1.tree.find 4,
        (applyOp sampleFolderWorld (sampleRemove "f")).1.tree.find 5) = (none, none)
      ∧ dictGet (applyOp sampleFolderWorld (sampleRemove "f")).1.st.bookmarkIndex.localToUid 4
        = none
      ∧ dictGet (applyOp sampleFolderWorld (sampleRemove "f")).1.st.bookmarkIndex.localToUid 5
        = some "b"
      ∧ dictGet (applyOp sampleFolderWorld (sampleRemove "f")).1.st.bookmarkIndex.uidToLocal "b"
        = some 5)
      ∧ (applyOp { sampleFolderWorld with tree := { sampleFolderTree with editable := false } }
          (sampleRemove "f")).1.st.bookmarkIndex = sampleFolderWorld.st.bookmarkIndex := by
  decide

/-! ## C22: replay and the listeners -/

theorem createConflictFolder_replayDepth (w : World) :
    (createConflictFolder w).1.st.replayDepth = w.st.replayDepth := by
  unfold createConflictFolder
  have hc := bookmarksCreate_st w DEFAULT_ROOT_ID none CONFLICT_FOLDER_TITLE none
  cases hb : bookmarksCreate w DEFAULT_ROOT_ID none CONFLICT_FOLDER_TITLE none with
  | mk w2 r =>
    rw [hb] at hc
    cases r with
    | none => simp only; rw [hc]
    | some folder => simp only; rw [hc]

theorem ensureConflictFolder_replayDepth (w : World) :
    (ensureConflictFolder w).1.st.replayDepth = w.st.replayDepth := by
  unfold ensureConflictFolder
  cases hc : w.st.conflictFolderLocalId with
  | none => simp only; exact createConflictFolder_replayDepth w
  | some id =>
    simp only
    have hg := bookmarksGet_st w id
    cases hb : bookmarksGet w id with
    | mk w1 r =>
      rw [hb] at hg
      cases r with
      | none =>
        simp only
        rw [createConflictFolder_replayDepth, hg]
      | some n =>
        simp only
        rw [hg]

theorem resolveParentLocalId_replayDepth (w : World) (p : Option String) :
    (resolveParentLocalId w p).1.st.replayDepth = w.st.replayDepth := by
  unfold resolveParentLocalId
  split
  · rfl
  · split
    · rfl
    · exact ensureConflictFolder_replayDepth w

theorem persist_replayDepth (st : Client) :
    (persistBookmarkIndex st).replayDepth = st.replayDepth := by
  unfold persistBookmarkIndex
  split <;> rfl

theorem removeMappingByLocal_replayDepth (st : Client) (l : Nat) :
    (removeMappingByLocal st l).replayDepth = st.replayDepth := by
  unfold removeMappingByLocal
  split
  · rfl
  · split <;> rfl

theorem dropTreeMapping_replayDepth (st : Client) (t : NodeTree) :
    (dropTreeMapping st t).replayDepth = st.replayDepth := by
  rw [dropTreeMapping_eq_foldl]
  generalize t.ids = ids
  induction ids generalizing st with
  | nil => rfl
  | cons a rest ih => rw [List.foldl_cons, ih, removeMappingByLocal_replayDepth]

theorem applyCreate_replayDepth (w : World) (op : RawOp) :
    (applyCreate w op).1.st.replayDepth = w.st.replayDepth := by
  unfold applyCreate
  simp only
  have hr := resolveParentLocalId_replayDepth w op.parentUid
  cases hb : resolveParentLocalId w op.parentUid with
  | mk w1 r =>
    rw [hb] at hr
    cases r with
    | none => exact hr
    | some parentId =>
      simp only
      cases hl : lookupLocalId w.st op.uid with
      | some lid =>
        simp only
        rw [maybeMove_st, maybeUpdateNode_st]
        exact hr
      | none =>
        simp only
        have hc := bookmarksCreate_st w1 parentId (finiteIndex op.index)
          ((nonEmpty? op.title).getD "") (if isFolderOp op then none else nonEmpty? op.url)
        cases hb2 : bookmarksCreate w1 parentId (finiteIndex op.index)
            ((nonEmpty? op.title).getD "") (if isFolderOp op then none else nonEmpty? op.url) with
        | mk w2 r2 =>
          rw [hb2] at hc
          cases r2 with
          | none => simp only; rw [hc]; exact hr
          | some created =>
            simp only
            rw [persist_replayDepth]
            show w2.st.replayDepth = _
            rw [hc]
            exact hr

theorem applyMove_replayDepth (w : World) (op : RawOp) :
    (applyMove w op).1.st.replayDepth = w.st.replayDepth := by
  unfold applyMove
  split
  · rfl
  · have hr := resolveParentLocalId_replayDepth w op.parentUid
    cases hb : resolveParentLocalId w op.parentUid with
    | mk w1 r =>
      rw [hb] at hr
      cases r with
      | none => exact hr
      | some parentId =>
        simp only
        rw [maybeMove_st]
        exact hr

theorem applyRemove_replayDepth (w : World) (op : RawOp) :
    (applyRemove w op).st.replayDepth = w.st.replayDepth := by
  unfold applyRemove
  split
  · rfl
  · rename_i lid _
    have hg : (getNode w lid).1.st = w.st := bookmarksGet_st w lid
    cases hb : getNode w lid with
    | mk w1 r =>
      rw [hb] at hg
      cases r with
      | none => simp only; rw [hg]
      | some node =>
        simp only
        have hr : (if truthy node.url then bookmarksRemove w1 lid
            else bookmarksRemoveTree w1 lid).1.st = w1.st := by
          split
          · exact bookmarksRemove_st _ _
          · exact bookmarksRemoveTree_st _ _
        generalize (if truthy node.url then bookmarksRemove w1 lid
            else bookmarksRemoveTree w1 lid) = r at hr ⊢
        split
        · simp only
          rw [persist_replayDepth, dropTreeMapping_replayDepth, hr, hg]
        · rw [hr, hg]

/-- The handlers leave `replayDepth` alone, also when they throw. -/
theorem applyKind_replayDepth (w : World) (op : RawOp) :
    (applyKind w op).1.st.replayDepth = w.st.replayDepth := by
  unfold applyKind
  split
  · exact applyCreate_replayDepth w op
  · split
    · show (applyUpdate w op).st.replayDepth = _
      unfold applyUpdate
      split
      · rfl
      · rw [maybeUpdateNode_st]
    · split
      · exact applyMove_replayDepth w op
      · split
        · exact applyRemove_replayDepth w op
        · rfl

/-- The second half of C22: `applyOp` runs its handler with `replayDepth` one
higher than on entry, whatever the depth on entry, and on return the depth
is the one on entry, also when the handler throws. -/
theorem applyOp_restores_replayDepth (w : World) (op : RawOp) :
    (applyOp w op).1.st.replayDepth = w.st.replayDepth
      ∧ (truthy op.uid = true → truthy op.op = true →
          ¬ (truthy op.deviceId = true ∧ op.deviceId = w.st.deviceId) →
          (applyOp w op).2
            = (applyKind { w with st := { w.st with replayDepth := w.st.replayDepth + 1 } }
                op).2) := by
  constructor
  · unfold applyOp
    split
    · rfl
    · split
      · rfl
      · unfold withReplay
        simp only
        rw [applyKind_replayDepth]
        simp
  · intro h1 h2 h3
    rw [applyOp_foreign w op h1 h2 h3]
    rfl

/-- In an initialised state with `replayDepth > 0` the task of a listener
changes nothing. -/
theorem listener_suppressed (d : Draws) (settled w : World) (n : Notification)
    (hinit : w.st.initialized = true) (hdepth : w.st.replayDepth > 0) :
    listener d settled w n = w := by
  unfold listener
  simp only [hinit, if_true]
  rw [if_pos hdepth]

/-- C22, the code at a failing input: a fresh service worker runs
`initialize` while the server holds a snapshot with one folder.
`hydrateFromSnapshot` applies the folder's create inside the replay scope:
the tree creates node 4 while `replayDepth` is 1, the state is not
initialised yet and the queue is empty. The task of the `onCreated` listener
for node 4 awaits `ensureInit()`, so it goes on when `initialize` has
returned, where `replayDepth` is 0: it enqueues a create operation for the
folder. -/
theorem listener_echoes_snapshot_creation :
    (sampleReplaying.st.replayDepth, sampleReplaying.st.initialized,
        sampleReplaying.st.opQueue) = (1, false, [])
      ∧ sampleReplaying.tree.get 4
        = some { id := 4, parentId := some 1, index := 0, title := "Folder", url := none }
      ∧ (sampleSettled.st.replayDepth, sampleSettled.st.initialized,
          sampleSettled.st.opQueue) = (0, true, [])
      ∧ (listener sampleDraws sampleSettled sampleReplaying
          (Notification.created 4
            { id := 4, parentId := some 1, index := 0, title := "Folder"
              url := none })).st.opQueue
        = [{ op := some "create", uid := some "f", parentUid := some "root-bookmarks-bar"
             index := JIndex.num 0, title := some "Folder", url := none
             type := some "folder", ts := some 7, deviceId := some "D", opId := some "o1" }] := by
  decide

/-! ## C21: malformed entries of a batch -/

theorem normalizeOp_congr (h1 h2 : Host) (i1 i2 : Nat) (e : Option RawOp)
    (hu : h1.randomUUID i1 = h2.randomUUID i2) (hn : h1.now i1 = h2.now i2) :
    normalizeOp h1 i1 e = normalizeOp h2 i2 e := by
  unfold normalizeOp
  rw [hu, hn]

theorem pushOne_congr (h1 h2 : Host) (i1 i2 : Nat) (s : Server) (e : Option RawOp)
    (hu : h1.randomUUID i1 = h2.randomUUID i2) (hn : h1.now i1 = h2.now i2) :
    pushOne h1 i1 s e = pushOne h2 i2 s e := by
  unfold pushOne
  rw [normalizeOp_congr h1 h2 i1 i2 e hu hn]

theorem normalizeOp_malformed (h : Host) (i : Nat) (e : Option RawOp)
    (hw : wellFormed e = false) : normalizeOp h i e = none := by
  cases e with
  | none => rfl
  | some r =>
    have := normalizeOp_isSome_iff h i r
    have hw : (truthy r.uid && truthy r.op) = false := hw
    rw [hw] at this
    cases hn : normalizeOp h i (some r) with
    | none => rfl
    | some op => rw [hn] at this; cases this

theorem wellFormed_of_normalizeOp {h : Host} {i : Nat} {e : Option RawOp} {op : NormOp}
    (hn : normalizeOp h i e = some op) : wellFormed e = true := by
  cases hw : wellFormed e with
  | true => rfl
  | false =>
    rw [normalizeOp_malformed h i e hw] at hn
    cases hn

theorem length_wellFormedPositions (batch : List (Option RawOp)) :
    ∀ i, (wellFormedPositions i batch).length = (batch.filter wellFormed).length := by
  induction batch with
  | nil => intro i; rfl
  | cons e rest ih =>
    intro i
    unfold wellFormedPositions
    cases hw : wellFormed e with
    | true => simp [hw, List.filter_cons, ih]
    | false => simp [hw, List.filter_cons, ih]

/-- The push loop skips the malformed entries: it does to the state what it
does on the batch without them, the host answering each remaining entry as
before. -/
theorem pushLoop_filter (h h2 : Host) (batch : List (Option RawOp)) :
    ∀ (i j : Nat) (acc : Server × Nat),
      (∀ k, k < (wellFormedPositions i batch).length →
        h2.randomUUID (j + k) = h.randomUUID ((wellFormedPositions i batch).getD k 0)
          ∧ h2.now (j + k) = h.now ((wellFormedPositions i batch).getD k 0)) →
      pushLoop h2 j (batch.filter wellFormed) acc = pushLoop h i batch acc := by
  induction batch with
  | nil => intro i j acc _; rfl
  | cons e rest ih =>
    intro i j acc hh
    obtain ⟨s, a⟩ := acc
    cases hw : wellFormed e with
    | false =>
      have hp : wellFormedPositions i (e :: rest) = wellFormedPositions (i + 1) rest := by
        conv_lhs => unfold wellFormedPositions
        simp [hw]
      rw [hp] at hh
      have hskip : pushOne h i s e = none := by
        unfold pushOne
        rw [normalizeOp_malformed h i e hw]
      rw [List.filter_cons_of_neg (by simp [hw]), pushLoop_cons, hskip]
      exact ih (i + 1) j (s, a) hh
    | true =>
      have hp : wellFormedPositions i (e :: rest) = i :: wellFormedPositions (i + 1) rest := by
        conv_lhs => unfold wellFormedPositions
        simp [hw]
      rw [hp] at hh
      have h0 := hh 0 (by simp)
      simp only [Nat.add_zero, List.getD_cons_zero] at h0
      rw [List.filter_cons_of_pos hw, pushLoop_cons, pushLoop_cons,
        pushOne_congr h2 h j i s e h0.1 h0.2]
      have hrest : ∀ k, k < (wellFormedPositions (i + 1) rest).length →
          h2.randomUUID (j + 1 + k)
              = h.randomUUID ((wellFormedPositions (i + 1) rest).getD k 0)
            ∧ h2.now (j + 1 + k) = h.now ((wellFormedPositions (i + 1) rest).getD k 0) := by
        intro k hk
        have := hh (k + 1) (by simp; omega)
        simp only [List.getD_cons_succ] at this
        have e1 : j + 1 + k = j + (k + 1) := by omega
        rw [e1]
        exact this
      cases pushOne h i s e with
      | none => exact ih (i + 1) (j + 1) (s, a) hrest
      | some s1 => exact ih (i + 1) (j + 1) (s1, a + 1) hrest

theorem pushLoop_filter_atPositions (h : Host) (batch : List (Option RawOp))
    (acc : Server × Nat) :
    pushLoop (h.atPositions (wellFormedPositions 0 batch)) 0 (batch.filter wellFormed) acc
      = pushLoop h 0 batch acc := by
  apply pushLoop_filter
  intro k hk
  simp only [Nat.zero_add, Host.atPositions]
  have e1 : (wellFormedPositions 0 batch).getD k k = (wellFormedPositions 0 batch).getD k 0 := by
    rw [List.getD_eq_getElem _ _ hk, List.getD_eq_getElem _ _ hk]
  rw [e1]
  exact ⟨rfl, rfl⟩

/-- Every entry of the log after the push loop was in the log before or is
what `normalizeOp` returns for an entry of the batch. -/
theorem pushLoop_mem (h : Host) (batch : List (Option RawOp)) :
    ∀ (i : Nat) (s : Server) (a : Nat) (o : Op), o ∈ (pushLoop h i batch (s, a)).1.ops →
      o ∈ s.ops ∨ ∃ e ∈ batch, ∃ k, normalizeOp h k e = some o.toNormOp := by
  induction batch with
  | nil => intro i s a o ho; exact Or.inl ho
  | cons e rest ih =>
    intro i s a o ho
    rw [pushLoop_cons] at ho
    cases hp : pushOne h i s e with
    | none =>
      rw [hp] at ho
      rcases ih (i + 1) s a o ho with h1 | ⟨e2, he2, k, hk⟩
      · exact Or.inl h1
      · exact Or.inr ⟨e2, List.mem_cons_of_mem _ he2, k, hk⟩
    | some s1 =>
      rw [hp] at ho
      obtain ⟨op, hn, _, hs1⟩ := pushOne_some hp
      rcases ih (i + 1) s1 (a + 1) o ho with h1 | ⟨e2, he2, k, hk⟩
      · rw [hs1] at h1
        rcases List.mem_append.mp h1 with h2 | h2
        · exact Or.inl h2
        · right
          have : o = { toNormOp := op, version := s.version + 1 } := by simpa using h2
          exact ⟨e, List.mem_cons_self _ _, i, by rw [hn, this]⟩
      · exact Or.inr ⟨e2, List.mem_cons_of_mem _ he2, k, hk⟩
/-- C21 as amended: for every server state and every push batch that is
empty, holds a well-formed entry, or meets a log of at most `MAX_LOG_OPS`
entries, the resulting state (log, version counter, dedup set) and response
(accepted count, new version) are the same as for the batch with every entry
removed that is not an object or lacks `uid` or `op`, the host answering the
remaining entries as before; every entry of the resulting log was in the log
before or is the normal form of a well-formed entry of the batch, and no more
entries are accepted than the batch has well-formed ones. -/
theorem push_skips_malformed (cfg : Config) (h : Host) (s : Server)
    (batch : List (Option RawOp))
    (hcase : batch = [] ∨ (∃ e ∈ batch, wellFormed e = true)
      ∨ (s.ops.length : Int) ≤ cfg.MAX_LOG_OPS) :
    push cfg (h.atPositions (wellFormedPositions 0 batch)) s (batch.filter wellFormed)
        = push cfg h s batch
      ∧ (∀ o ∈ (push cfg h s batch).1.ops,
          o ∈ s.ops ∨ ∃ e ∈ batch, wellFormed e = true ∧ ∃ k, normalizeOp h k e = some o.toNormOp)
      ∧ (push cfg h s batch).2.accepted ≤ (batch.filter wellFormed).length := by
  have hloop := pushLoop_filter_atPositions h batch (s, 0)
  refine ⟨?_, ?_, ?_⟩
  · by_cases hb : batch = []
    · rw [hb]
      rfl
    · by_cases hf : batch.filter wellFormed = []
      · have hfit : (s.ops.length : Int) ≤ cfg.MAX_LOG_OPS := by
          rcases hcase with h1 | ⟨e, he, hw⟩ | h3
          · exact absurd h1 hb
          · have : e ∈ batch.filter wellFormed := List.mem_filter.mpr ⟨he, hw⟩
            rw [hf] at this
            cases this
          · exact h3
        rw [hf] at hloop
        have hsame : pushLoop h 0 batch (s, 0) = (s, 0) := hloop.symm
        rw [push_of_nonempty cfg h s batch hb, hsame, hf, pruneOps_of_fits cfg s hfit]
        rfl
      · rw [push_of_nonempty cfg h s batch hb, push_of_nonempty cfg _ s _ hf, hloop]
  · intro o ho
    have hmem : o ∈ (pushLoop h 0 batch (s, 0)).1.ops := by
      by_cases hb : batch = []
      · rw [hb] at ho ⊢
        exact ho
      · rw [push_of_nonempty cfg h s batch hb] at ho
        rw [pruneOps_ops cfg (pushLoop h 0 batch (s, 0)).1]
        exact List.mem_append_right _ ho
    rcases pushLoop_mem h batch 0 s 0 o hmem with h1 | ⟨e, he, k, hk⟩
    · exact Or.inl h1
    · exact Or.inr ⟨e, he, wellFormed_of_normalizeOp hk, k, hk⟩
  · have hacc : (push cfg h s batch).2.accepted = (pushLoop h 0 batch (s, 0)).2 := by
      by_cases hb : batch = []
      · rw [hb]
        rfl
      · rw [push_of_nonempty cfg h s batch hb]
    rw [hacc, ← hloop]
    obtain ⟨new, hops, hn, _⟩ := pushLoop_shape (h.atPositions (wellFormedPositions 0 batch))
      (batch.filter wellFormed) 0 s 0
    have hle : ∀ (l : List (Option RawOp)) (g : Host) (i : Nat) (s0 : Server) (a : Nat),
        (pushLoop g i l (s0, a)).2 ≤ a + l.length := by
      intro l
      induction l with
      | nil => intro g i s0 a; exact le_refl _
      | cons e rest ih =>
        intro g i s0 a
        rw [pushLoop_cons]
        cases pushOne g i s0 e with
        | none =>
          have := ih g (i + 1) s0 a
          simp only [List.length_cons]
          omega
        | some s1 =>
          have := ih g (i + 1) s1 (a + 1)
          simp only [List.length_cons]
          omega
    have := hle (batch.filter wellFormed) (h.atPositions (wellFormedPositions 0 batch)) 0 s 0
    omega

/-- Witness for C21: a batch of a non-object, an operation and an entry
without `uid` does to the sample server what the operation alone does. -/
theorem push_skips_malformed_witness :
    (∃ e ∈ [none, some (sampleRaw "w" "c" "B"), some { op := some "create" }],
        wellFormed e = true)
      ∧ push {} (sampleHost.atPositions
            (wellFormedPositions 0
              [none, some (sampleRaw "w" "c" "B"), some { op := some "create" }]))
          { version := 2, ops := sampleLog, opLookup := ["a", "b"] }
          ([none, some (sampleRaw "w" "c" "B"), some { op := some "create" }].filter wellFormed)
        = push {} sampleHost { version := 2, ops := sampleLog, opLookup := ["a", "b"] }
            [none, some (sampleRaw "w" "c" "B"), some { op := some "create" }] :=
  ⟨⟨some (sampleRaw "w" "c" "B"), by simp, by decide⟩,
    (push_skips_malformed {} sampleHost { version := 2, ops := sampleLog, opLookup := ["a", "b"] }
      [none, some (sampleRaw "w" "c" "B"), some { op := some "create" }]
      (Or.inr (Or.inl ⟨some (sampleRaw "w" "c" "B"), by simp, by decide⟩))).1⟩

/-- C21, counterexample: the sample log (two entries) under a cap of one
entry, as a restart with a lowered cap leaves it. A batch holding one entry
that is not an object prunes the log to one entry; the batch without that
entry is empty, and the push returns before `pruneOps` with the two entries
in the log. -/
theorem push_of_malformed_alone_prunes :
    ([none].filter wellFormed = [])
      ∧ (push { MAX_LOG_OPS := 1 } sampleHost
          { version := 2, ops := sampleLog, opLookup := ["a", "b"] } [none]).1.ops.length = 1
      ∧ (push { MAX_LOG_OPS := 1 } sampleHost
          { version := 2, ops := sampleLog, opLookup := ["a", "b"] }
          ([none].filter wellFormed)).1.ops.length = 2 := by
  decide

/-! ## C25: the work list of `hydrateFromSnapshot` -/

theorem hydrateLoopTrace_le (now : Int) : ∀ (fuel : Nat) (w : World) (pending : List SnapNode),
    (hydrateLoopTrace now fuel w pending).1 ≤ fuel := by
  intro fuel
  induction fuel with
  | zero => intro w pending; exact le_refl _
  | succ n ih =>
    intro w pending
    cases pending with
    | nil => exact Nat.zero_le _
    | cons node rest =>
      unfold hydrateLoopTrace
      split
      · cases hb : applyOp w (snapshotOp now node) with
        | mk w1 ok =>
          cases ok with
          | false => simp
          | true =>
            simp only
            have := ih w1 rest
            omega
      · simp only
        have := ih w (rest ++ [node])
        omega

theorem hydrateLoopTrace_applied (now : Int) :
    ∀ (fuel : Nat) (w : World) (pending : List SnapNode),
      (hydrateLoop now fuel w pending).2.2.1
        = (hydrateLoopTrace now fuel w pending).2.map (fun p => snapshotOp now p.2) := by
  intro fuel
  induction fuel with
  | zero => intro w pending; rfl
  | succ n ih =>
    intro w pending
    cases pending with
    | nil => rfl
    | cons node rest =>
      unfold hydrateLoop hydrateLoopTrace
      split
      · cases hb : applyOp w (snapshotOp now node) with
        | mk w1 ok =>
          cases ok with
          | false => rfl
          | true =>
            simp only [List.map_cons]
            rw [ih w1 rest]
      · exact ih w (rest ++ [node])

theorem hydrateLoopTrace_ready (now : Int) :
    ∀ (fuel : Nat) (w : World) (pending : List SnapNode),
      ∀ p ∈ (hydrateLoopTrace now fuel w pending).2,
        truthy p.2.parentUid = false ∨ (lookupLocalId p.1.st p.2.parentUid).isSome = true := by
  intro fuel
  induction fuel with
  | zero => intro w pending p hp; cases hp
  | succ n ih =>
    intro w pending
    cases pending with
    | nil => intro p hp; cases hp
    | cons node rest =>
      unfold hydrateLoopTrace
      split
      · rename_i hready
        have hr : truthy node.parentUid = false
            ∨ (lookupLocalId w.st node.parentUid).isSome = true := by
          simpa using hready
        cases hb : applyOp w (snapshotOp now node) with
        | mk w1 ok =>
          cases ok with
          | false =>
            intro p hp
            simp only [List.mem_singleton] at hp
            rw [hp]
            exact hr
          | true =>
            intro p hp
            simp only [List.mem_cons] at hp
            rcases hp with hp | hp
            · rw [hp]
              exact hr
            · exact ih w1 rest p hp
      · exact ih w (rest ++ [node])

/-- The work-list loop neither drops nor repeats a node: what it handed to
`applyOp` and what it left pending make up the list it started from. -/
theorem hydrateLoop_perm (now : Int) : ∀ (fuel : Nat) (w : World) (pending : List SnapNode),
    List.Perm
      ((hydrateLoop now fuel w pending).2.2.1
        ++ (hydrateLoop now fuel w pending).2.1.map (snapshotOp now))
      (pending.map (snapshotOp now)) := by
  intro fuel
  induction fuel with
  | zero => intro w pending; exact List.Perm.refl _
  | succ n ih =>
    intro w pending
    cases pending with
    | nil => exact List.Perm.refl _
    | cons node rest =>
      unfold hydrateLoop
      split
      · cases hb : applyOp w (snapshotOp now node) with
        | mk w1 ok =>
          cases ok with
          | false => exact List.Perm.refl _
          | true =>
            simp only [List.map_cons, List.cons_append]
            exact List.Perm.cons _ (ih w1 rest)
      · refine List.Perm.trans (ih w (rest ++ [node])) ?_
        rw [List.map_append, List.map_cons, List.map_cons, List.map_nil]
        exact List.perm_append_singleton _ _

/-- The second loop hands the pending nodes to `applyOp` in order, up to the
first call that throws. -/
theorem hydrateRest_applied (now : Int) : ∀ (pending : List SnapNode) (w : World),
    (hydrateRest now w pending).2.1 <+: pending.map (snapshotOp now)
      ∧ ((hydrateRest now w pending).2.2 = true →
          (hydrateRest now w pending).2.1 = pending.map (snapshotOp now)) := by
  intro pending
  induction pending with
  | nil => intro w; exact ⟨List.prefix_refl _, fun _ => rfl⟩
  | cons node rest ih =>
    intro w
    unfold hydrateRest
    cases hb : applyOp w (snapshotOp now node) with
    | mk w1 ok =>
      cases ok with
      | false =>
        simp only [List.map_cons]
        refine ⟨?_, fun h => by cases h⟩
        exact ⟨rest.map (snapshotOp now), rfl⟩
      | true =>
        simp only [List.map_cons]
        obtain ⟨h1, h2⟩ := ih w1
        refine ⟨?_, ?_⟩
        · obtain ⟨t, ht⟩ := h1
          exact ⟨t, by rw [List.cons_append, ht]⟩
        · intro h
          rw [h2 h]
theorem hydrateFromSnapshot_applied (now : Int) (snap : Snapshot) (nodes : List SnapNode)
    (w : World) (hdata : snap.data = some (SnapData.withNodes nodes)) :
    (hydrateFromSnapshot now (some snap) w).2
      = if (hydrateLoop now (nodes.length * 3) w nodes).2.2.2 = false then
          (hydrateLoop now (nodes.length * 3) w nodes).2.2.1
        else
          (hydrateLoop now (nodes.length * 3) w nodes).2.2.1
            ++ (hydrateRest now (hydrateLoop now (nodes.length * 3) w nodes).1
                (hydrateLoop now (nodes.length * 3) w nodes).2.1).2.1 := by
  unfold hydrateFromSnapshot
  simp only [hdata]
  split
  · rfl
  · split <;> rfl

/-- C25 as amended: for every snapshot node list of length n, whatever its
`parentUid` references, the work-list loop of `hydrateFromSnapshot` runs at
most 3n iterations and the hydration ends; every node applied inside the
loop had a `parentUid` that was falsy or resolvable at that moment; no node
is handed to `applyOp` twice, each as a create with deviceId "snapshot"; and
when no call of `applyOp` throws, exactly one such operation is handed to
`applyOp` for each node of the list. -/
theorem hydrate_work_list_bounded_and_complete (now : Int) (snap : Snapshot)
    (nodes : List SnapNode) (w : World) (hdata : snap.data = some (SnapData.withNodes nodes)) :
    (hydrateLoopTrace now (nodes.length * 3) w nodes).1 ≤ 3 * nodes.length
      ∧ (hydrateLoop now (nodes.length * 3) w nodes).2.2.1
          = (hydrateLoopTrace now (nodes.length * 3) w nodes).2.map
              (fun p => snapshotOp now p.2)
      ∧ (∀ p ∈ (hydrateLoopTrace now (nodes.length * 3) w nodes).2,
          truthy p.2.parentUid = false ∨ (lookupLocalId p.1.st p.2.parentUid).isSome = true)
      ∧ List.Subperm (hydrateFromSnapshot now (some snap) w).2 (nodes.map (snapshotOp now))
      ∧ (∀ op ∈ (hydrateFromSnapshot now (some snap) w).2,
          op.deviceId = some "snapshot" ∧ op.op = some "create")
      ∧ ((hydrateLoop now (nodes.length * 3) w nodes).2.2.2 = true →
          (hydrateRest now (hydrateLoop now (nodes.length * 3) w nodes).1
            (hydrateLoop now (nodes.length * 3) w nodes).2.1).2.2 = true →
          List.Perm (hydrateFromSnapshot now (some snap) w).2
            (nodes.map (snapshotOp now))) := by
  have hperm := hydrateLoop_perm now (nodes.length * 3) w nodes
  obtain ⟨hpre, hall⟩ := hydrateRest_applied now (hydrateLoop now (nodes.length * 3) w nodes).2.1
    (hydrateLoop now (nodes.length * 3) w nodes).1
  have happ := hydrateFromSnapshot_applied now snap nodes w hdata
  have hsub : List.Subperm (hydrateFromSnapshot now (some snap) w).2
      (nodes.map (snapshotOp now)) := by
    rw [happ]
    split
    · exact (List.sublist_append_left _ _).subperm.trans hperm.subperm
    · exact (List.Sublist.append_left hpre.sublist _).subperm.trans hperm.subperm
  refine ⟨by have := hydrateLoopTrace_le now (nodes.length * 3) w nodes; omega,
    hydrateLoopTrace_applied now _ w nodes, hydrateLoopTrace_ready now _ w nodes, hsub, ?_, ?_⟩
  · intro op hop
    have := hsub.subset hop
    obtain ⟨node, _, hnode⟩ := List.mem_map.mp this
    rw [← hnode]
    exact ⟨rfl, rfl⟩
  · intro h1 h2
    rw [happ, if_neg (by rw [h1]; simp), hall h2]
    exact hperm

/-- Witness for C25: the sample device hydrates from two nodes listed child
first; both are handed to `applyOp`, the parent first. -/
theorem hydrate_work_list_bounded_and_complete_witness :
    (hydrateFromSnapshot 0
        (some { version := 1, takenAt := "t"
                data := some (SnapData.withNodes
                  [{ sampleSnapFolder with uid := some "g", parentUid := some "f" },
                    sampleSnapFolder]) })
        sampleDevice).2
      = [snapshotOp 0 sampleSnapFolder,
          snapshotOp 0 { sampleSnapFolder with uid := some "g", parentUid := some "f" }]
      ∧ List.Subperm
        (hydrateFromSnapshot 0
          (some { version := 1, takenAt := "t"
                  data := some (SnapData.withNodes
                    [{ sampleSnapFolder with uid := some "g", parentUid := some "f" },
                      sampleSnapFolder]) })
          sampleDevice).2
        ([{ sampleSnapFolder with uid := some "g", parentUid := some "f" },
            sampleSnapFolder].map (snapshotOp 0)) :=
  ⟨by decide,
    (hydrate_work_list_bounded_and_complete 0
      { version := 1, takenAt := "t"
        data := some (SnapData.withNodes
          [{ sampleSnapFolder with uid := some "g", parentUid := some "f" },
            sampleSnapFolder]) }
      [{ sampleSnapFolder with uid := some "g", parentUid := some "f" }, sampleSnapFolder]
      sampleDevice rfl).2.2.2.1⟩

/-- C25, counterexample: the host of the sample device does not allow
bookmarks to be edited, and the snapshot holds two nodes whose parent is
unknown. The loop defers them for its six iterations; the first forced
`applyOp` throws when the conflict container is rejected, the hydration ends
in its `catch`, and the second node is never handed to `applyOp`. -/
theorem hydrate_drops_nodes_after_throw :
    (hydrateLoopTrace 0 6
        { sampleDevice with tree := { sampleDeviceTree with editable := false } }
        [sampleDangling "a", sampleDangling "b"]).1 = 6
      ∧ (hydrateFromSnapshot 0
          (some { version := 1, takenAt := "t"
                  data := some (SnapData.withNodes [sampleDangling "a", sampleDangling "b"]) })
          { sampleDevice with tree := { sampleDeviceTree with editable := false } }).2
        = [snapshotOp 0 (sampleDangling "a")] := by
  decide

/-! ## C23: a create applied twice -/

theorem mem_insertAt (x : TNode) : ∀ (nodes : List TNode) (pid i : Nat) (m : TNode),
    m ∈ insertAt nodes pid i x → m = x ∨ m ∈ nodes := by
  intro nodes
  induction nodes with
  | nil =>
    intro pid i m hm
    simp [insertAt] at hm
    exact Or.inl hm
  | cons y ys ih =>
    intro pid i m hm
    unfold insertAt at hm
    by_cases hp : y.parentId = some pid
    · rw [if_pos hp] at hm
      cases i with
      | zero =>
        simp only [List.mem_cons] at hm ⊢
        exact hm
      | succ k =>
        simp only [List.mem_cons] at hm ⊢
        rcases hm with h | h
        · exact Or.inr (Or.inl h)
        · rcases ih pid k m h with h1 | h1
          · exact Or.inl h1
          · exact Or.inr (Or.inr h1)
    · rw [if_neg hp] at hm
      simp only [List.mem_cons] at hm ⊢
      rcases hm with h | h
      · exact Or.inr (Or.inl h)
      · rcases ih pid i m h with h1 | h1
        · exact Or.inl h1
        · exact Or.inr (Or.inr h1)

theorem indexIn_insertAt (x : TNode) (pid : Nat) :
    ∀ (nodes : List TNode) (i : Nat), (∀ m ∈ nodes, m.id ≠ x.id) →
      i ≤ (nodes.filter (fun m => decide (m.parentId = some pid))).length →
      indexIn (insertAt nodes pid i x) x.id (some pid) = i := by
  intro nodes
  induction nodes with
  | nil =>
    intro i _ hi
    simp at hi
    subst hi
    simp [insertAt, indexIn]
  | cons y ys ih =>
    intro i hne hi
    have hy : y.id ≠ x.id := hne y (List.mem_cons_self _ _)
    have hys : ∀ m ∈ ys, m.id ≠ x.id := fun m hm => hne m (List.mem_cons_of_mem _ hm)
    unfold insertAt
    by_cases hp : y.parentId = some pid
    · rw [if_pos hp]
      cases i with
      | zero => simp [indexIn]
      | succ k =>
        have hk : k ≤ (ys.filter (fun m => decide (m.parentId = some pid))).length := by
          simpa [List.filter_cons, hp] using hi
        simp only [indexIn, hy, if_false, hp, if_true]
        rw [ih k hys hk]
        omega
    · rw [if_neg hp]
      have hk : i ≤ (ys.filter (fun m => decide (m.parentId = some pid))).length := by
        simpa [List.filter_cons, hp] using hi
      simp only [indexIn, hy, hp, if_false]
      rw [ih i hys hk]
      omega

/-- The node list an accepted `create` leaves, and the position of the new node. -/
theorem Tree.create_nodes {t t1 : Tree} {parentId : Nat} {index : Option Int} {title : String}
    {url : Option String} {b : BNode} (h : t.create parentId index title url = some (t1, b)) :
    ∃ pos : Nat,
      t1.nodes = insertAt t.nodes parentId pos
          { id := b.id, parentId := some parentId, title := title, url := url }
        ∧ pos ≤ (t.nodes.filter (fun m => decide (m.parentId = some parentId))).length
        ∧ (∀ i, index = some i → i = (pos : Int))
        ∧ ∀ m ∈ t.nodes, m.id ≠ b.id := by
  unfold Tree.create at h
  cases hp : t.find parentId with
  | none => simp [hp] at h
  | some p =>
    simp only [hp] at h
    split at h
    · cases h
    · split at h
      · cases h
      · rename_i hpos
        simp only [Option.some.injEq, Prod.mk.injEq] at h
        obtain ⟨ht, hb⟩ := h
        subst ht hb
        refine ⟨(index.getD ((t.children parentId).length : Int)).toNat, rfl, ?_, ?_, ?_⟩
        · unfold Tree.children at hpos ⊢
          omega
        · intro i hi
          subst hi
          simp only [Option.getD_some] at hpos ⊢
          omega
        · intro m hm
          have := lt_freshId t m hm
          simp only [ne_eq]
          omega

/-- An accepted `create` puts the new node where it was asked to: what `get`
returns for it, and that no other node has its id. -/
theorem Tree.create_get {t t1 : Tree} {parentId : Nat} {index : Option Int} {title : String}
    {url : Option String} {b : BNode} (h : t.create parentId index title url = some (t1, b)) :
    (∃ node, t1.get b.id = some node ∧ node.parentId = some parentId
        ∧ ∀ i, index = some i → node.index = i)
      ∧ ∀ m ∈ t1.nodes, m.id = b.id →
          m = { id := b.id, parentId := some parentId, title := title, url := url } := by
  obtain ⟨pos, hnodes, hle, hidx, hfresh⟩ := Tree.create_nodes h
  have hfind := (Tree.create_spec h).2.2.1
  constructor
  · refine ⟨{ id := b.id, parentId := some parentId, title := title, url := url,
               index := ((indexIn t1.nodes b.id (some parentId) : Nat) : Int) }, ?_, rfl, ?_⟩
    · unfold Tree.get
      rw [hfind]
      rfl
    · intro i hi
      show ((indexIn t1.nodes b.id (some parentId) : Nat) : Int) = i
      rw [hnodes, hidx i hi]
      have := indexIn_insertAt
        { id := b.id, parentId := some parentId, title := title, url := url } parentId
        t.nodes pos hfresh hle
      simp only at this
      rw [this]
  · intro m hm hid
    rw [hnodes] at hm
    rcases mem_insertAt _ _ _ _ _ hm with h1 | h1
    · exact h1
    · exact absurd hid (hfresh m h1)

/-- An accepted `update` that assigns every node what it already has leaves
the tree as it was. -/
theorem Tree.update_same {t t1 : Tree} {id : Nat} {title url : Option String}
    (hsame : ∀ m ∈ t.nodes, m.id = id →
      title.getD m.title = m.title ∧ (if url.isSome then url else m.url) = m.url)
    (h : t.update id title url = some t1) : t1 = t := by
  unfold Tree.update at h
  cases hf : t.find id with
  | none => simp [hf] at h
  | some n =>
    simp only [hf] at h
    split at h
    · cases h
    · simp only [Option.some.injEq] at h
      subst h
      have hmap : t.nodes.map (fun n =>
          if n.id = id then
            { n with title := title.getD n.title, url := if url.isSome then url else n.url }
          else n) = t.nodes := by
        conv_rhs => rw [← List.map_id t.nodes]
        apply List.map_congr_left
        intro m hm
        by_cases hid : m.id = id
        · rw [if_pos hid]
          obtain ⟨h1, h2⟩ := hsame m hm hid
          rw [h1, h2]
          rfl
        · rw [if_neg hid]
          rfl
      rw [hmap]

/-- The host refuses to move a node under itself. -/
theorem Tree.move_self (t : Tree) (id : Nat) (index : Option Int) :
    t.move id id index = none := by
  unfold Tree.move
  cases hf : t.find id with
  | none => rfl
  | some n =>
    have hu : t.under id (t.nodes.length + 1) id = true := by simp [Tree.under]
    simp only [hu]
    simp
theorem maybeUpdateNode_tree_same (w : World) (l : Nat) (op : RawOp) (f : Bool)
    (hsame : ∀ m ∈ w.tree.nodes, m.id = l →
      op.title.getD m.title = m.title
        ∧ (if (if f then none else op.url).isSome then (if f then none else op.url) else m.url)
            = m.url) :
    (maybeUpdateNode w l op f).tree = w.tree := by
  unfold maybeUpdateNode
  simp only
  generalize (if f then none else op.url) = url at hsame ⊢
  by_cases hc : op.title.isNone ∧ url.isNone
  · rw [if_pos hc]
  · rw [if_neg hc]
    unfold bookmarksUpdate
    cases hup : w.tree.update l op.title url with
    | none => rfl
    | some t1 => exact Tree.update_same hsame hup

theorem maybeMove_tree_same (w : World) (l p : Nat) (idx : JIndex)
    (h : p = l ∨ ∀ node, w.tree.get l = some node →
      node.parentId = some p ∧ ∀ i, finiteIndex idx = some i → node.index = i) :
    (maybeMove w l p idx).tree = w.tree := by
  unfold maybeMove bookmarksGet
  cases hg : w.tree.get l with
  | none => rfl
  | some node =>
    simp only
    split
    · rfl
    · rename_i hneeds
      unfold bookmarksMove
      simp only
      rcases h with h | h
      · subst h
        rw [Tree.move_self]
      · exfalso
        obtain ⟨hp, hi⟩ := h node hg
        apply hneeds
        cases hfi : finiteIndex idx with
        | none => simp [hp]
        | some i => simp [hp, hi i hfi]

theorem createConflictFolder_depth (w : World) (d : Int) :
    createConflictFolder { w with st := { w.st with replayDepth := d } }
      = ({ (createConflictFolder w).1 with
            st := { (createConflictFolder w).1.st with replayDepth := d } },
          (createConflictFolder w).2) := by
  simp only [createConflictFolder, bookmarksCreate]
  cases h : w.tree.create DEFAULT_ROOT_ID none CONFLICT_FOLDER_TITLE none with
  | none => rfl
  | some r => rfl

theorem ensureConflictFolder_depth (w : World) (d : Int) :
    ensureConflictFolder { w with st := { w.st with replayDepth := d } }
      = ({ (ensureConflictFolder w).1 with
            st := { (ensureConflictFolder w).1.st with replayDepth := d } },
          (ensureConflictFolder w).2) := by
  unfold ensureConflictFolder
  cases hc : w.st.conflictFolderLocalId with
  | none => exact createConflictFolder_depth w d
  | some c =>
    simp only [bookmarksGet]
    cases hg : w.tree.get c with
    | none =>
      exact createConflictFolder_depth
        { w with calls := w.calls ++ [(Call.get c, (none : Option BNode).isSome)] } d
    | some node => rfl

theorem resolveParentLocalId_depth (w : World) (d : Int) (pu : Option String) :
    resolveParentLocalId { w with st := { w.st with replayDepth := d } } pu
      = ({ (resolveParentLocalId w pu).1 with
            st := { (resolveParentLocalId w pu).1.st with replayDepth := d } },
          (resolveParentLocalId w pu).2) := by
  unfold resolveParentLocalId
  by_cases ht : truthy pu = true
  · simp only [ht, Bool.not_true, Bool.false_eq_true, if_false]
    have hl : lookupLocalId { w.st with replayDepth := d } pu = lookupLocalId w.st pu := rfl
    rw [hl]
    cases hlk : lookupLocalId w.st pu with
    | none => exact ensureConflictFolder_depth w d
    | some l => rfl
  · simp only [ht, Bool.not_false, if_true]

/-- The conflict container `ensureConflictFolder` returns exists in the tree. -/
theorem ensureConflictFolder_exists (w : World) (c : Nat)
    (h : (ensureConflictFolder w).2 = some c) :
    ((ensureConflictFolder w).1.tree.get c).isSome = true := by
  have hcreate : ∀ v : World, (createConflictFolder v).2 = some c →
      ((createConflictFolder v).1.tree.get c).isSome = true := by
    intro v hv
    unfold createConflictFolder bookmarksCreate at hv ⊢
    cases hcr : v.tree.create DEFAULT_ROOT_ID none CONFLICT_FOLDER_TITLE none with
    | none => simp [hcr] at hv
    | some r =>
      obtain ⟨t1, b⟩ := r
      simp only [hcr, Option.some.injEq] at hv ⊢
      subst hv
      unfold Tree.get
      rw [(Tree.create_spec hcr).2.2.1]
      rfl
  unfold ensureConflictFolder at h ⊢
  cases hc : w.st.conflictFolderLocalId with
  | none =>
    simp only [hc] at h ⊢
    exact hcreate w h
  | some cached =>
    simp only [hc, bookmarksGet] at h ⊢
    cases hg : w.tree.get cached with
    | none =>
      simp only [hg] at h ⊢
      exact hcreate _ h
    | some node =>
      simp only [hg, Option.some.injEq] at h ⊢
      subst h
      rw [hg]
      rfl

theorem lookupLocalId_same_key (st : Client) {a b : Option String}
    (h : nonEmpty? a = nonEmpty? b) : lookupLocalId st a = lookupLocalId st b := by
  unfold lookupLocalId
  rw [h]

theorem lookupLocalId_setMapping_other (st : Client) (l : Nat) (u : String)
    (pu : Option String) (h : nonEmpty? pu ≠ some u) :
    lookupLocalId (setMapping st l u) pu = lookupLocalId st pu := by
  unfold lookupLocalId setMapping
  cases hn : nonEmpty? pu with
  | none => rfl
  | some x =>
    have hx : x ≠ u := by
      intro e
      apply h
      rw [hn, e]
    simp only [dictGet_dictSet_ne _ _ _ _ hx]

theorem created_title_same (op : RawOp) :
    op.title.getD ((nonEmpty? op.title).getD "") = (nonEmpty? op.title).getD "" := by
  cases ht : op.title with
  | none => rfl
  | some s =>
    by_cases hs : s = ""
    · simp [nonEmpty?, hs]
    · simp [nonEmpty?, hs]

theorem created_url_same (op : RawOp) :
    (if (if isFolderOp op then none else op.url).isSome then
        (if isFolderOp op then none else op.url)
      else (if isFolderOp op then none else nonEmpty? op.url))
      = (if isFolderOp op then none else nonEmpty? op.url) := by
  by_cases hf : isFolderOp op = true
  · simp [hf]
  · have hurl : truthy op.url = true := by
      unfold isFolderOp at hf
      cases ht : truthy op.url with
      | true => rfl
      | false => simp [ht] at hf
    unfold truthy at hurl
    cases hn : nonEmpty? op.url with
    | none => rw [hn] at hurl; simp at hurl
    | some x =>
      have := nonEmpty?_eq hn
      simp [hf, this, hn]
/-- What a resolved parent is: the default root, the mapped node, or the
conflict container, which then exists and is cached. -/
theorem resolveParentLocalId_some (w wp : World) (pu : Option String) (p : Nat)
    (hres : resolveParentLocalId w pu = (wp, some p)) :
    wp.st.bookmarkIndex = w.st.bookmarkIndex
      ∧ (∀ id n, w.tree.find id = some n → wp.tree.find id = some n)
      ∧ ((truthy pu = false ∧ wp = w ∧ p = DEFAULT_ROOT_ID)
          ∨ (truthy pu = true ∧ lookupLocalId w.st pu = some p ∧ wp = w)
          ∨ (truthy pu = true ∧ lookupLocalId w.st pu = none
              ∧ wp.st.conflictFolderLocalId = some p ∧ (wp.tree.get p).isSome = true)) := by
  unfold resolveParentLocalId at hres
  by_cases ht : truthy pu = true
  · simp only [ht, Bool.not_true, Bool.false_eq_true, if_false] at hres
    cases hl : lookupLocalId w.st pu with
    | some l =>
      simp only [hl, Prod.mk.injEq, Option.some.injEq] at hres
      obtain ⟨h1, h2⟩ := hres
      subst h1 h2
      exact ⟨rfl, fun _ _ h => h, Or.inr (Or.inl ⟨ht, rfl, rfl⟩)⟩
    | none =>
      simp only [hl] at hres
      have h2 : (ensureConflictFolder w).2 = some p := by rw [hres]
      have h1 : (ensureConflictFolder w).1 = wp := by rw [hres]
      obtain ⟨l, _, _, hs⟩ := ensureConflictFolder_spec w
      obtain ⟨hst, hfind⟩ := hs p h2
      have hex := ensureConflictFolder_exists w p h2
      rw [h1] at hst hfind hex
      refine ⟨by rw [hst], hfind, Or.inr (Or.inr ⟨ht, rfl, by rw [hst], hex⟩)⟩
  · have hf : truthy pu = false := by
      cases h : truthy pu with
      | true => exact absurd h ht
      | false => rfl
    simp only [hf, Bool.not_false, if_true, Prod.mk.injEq, Option.some.injEq] at hres
    obtain ⟨h1, h2⟩ := hres
    subst h1 h2
    exact ⟨rfl, fun _ _ h => h, Or.inl ⟨hf, rfl, rfl⟩⟩

/-- A create from another device for a UID without mapping, whose parent
resolves: the answer of the tree to the create call decides the outcome. -/
theorem applyOp_create_fresh (w wp : World) (op : RawOp) (u : String) (p : Nat)
    (hkind : op.op = some "create") (hu : nonEmpty? op.uid = some u)
    (hother : ¬ (truthy op.deviceId = true ∧ op.deviceId = w.st.deviceId))
    (hnew : lookupLocalId w.st op.uid = none)
    (hres : resolveParentLocalId w op.parentUid = (wp, some p)) :
    (∀ t1 created,
        wp.tree.create p (finiteIndex op.index) ((nonEmpty? op.title).getD "")
            (if isFolderOp op then none else nonEmpty? op.url) = some (t1, created) →
        (applyOp w op).2 = true
          ∧ (applyOp w op).1.tree = t1
          ∧ (applyOp w op).1.st.bookmarkIndex = (setMapping wp.st created.id u).bookmarkIndex
          ∧ (applyOp w op).1.st.conflictFolderLocalId = wp.st.conflictFolderLocalId
          ∧ (applyOp w op).1.calls
              = wp.calls ++ [(Call.create p (finiteIndex op.index) ((nonEmpty? op.title).getD "")
                  (if isFolderOp op then none else nonEmpty? op.url), true)])
      ∧ (wp.tree.create p (finiteIndex op.index) ((nonEmpty? op.title).getD "")
            (if isFolderOp op then none else nonEmpty? op.url) = none →
          (applyOp w op).1.calls
              = wp.calls ++ [(Call.create p (finiteIndex op.index) ((nonEmpty? op.title).getD "")
                  (if isFolderOp op then none else nonEmpty? op.url), false)]
            ∧ (applyOp w op).1.st.bookmarkIndex = w.st.bookmarkIndex
            ∧ (applyOp w op).2 = true) := by
  have hop : truthy op.op = true := by rw [hkind]; rfl
  have huid : op.uid = some u := nonEmpty?_eq hu
  have hl : lookupLocalId { w.st with replayDepth := w.st.replayDepth + 1 } op.uid = none := hnew
  rw [applyOp_foreign w op (truthy_of_nonEmpty? hu) hop hother]
  unfold withReplay applyKind
  simp only [hkind, if_true]
  unfold applyCreate
  simp only [resolveParentLocalId_depth, hres, hl, bookmarksCreate]
  constructor
  · intro t1 created hcr
    simp only [hcr, huid, Option.getD_some, persist_index, persist_conflict]
    exact ⟨trivial, trivial, rfl, rfl, trivial⟩
  · intro hcr
    simp only [hcr]
    exact ⟨trivial, (resolveParentLocalId_some w wp op.parentUid p hres).1, trivial⟩

/-- An upsert that finds the node where the operation wants it changes neither
the tree nor the client state. -/
theorem applyCreate_upsert_same (v v2 : World) (op : RawOp) (l p2 : Nat)
    (hmap : lookupLocalId v.st op.uid = some l)
    (hres : resolveParentLocalId v op.parentUid = (v2, some p2))
    (htree : v2.tree = v.tree) (hst : v2.st = v.st)
    (hsame : ∀ m ∈ v.tree.nodes, m.id = l →
      op.title.getD m.title = m.title
        ∧ (if (if isFolderOp op then none else op.url).isSome then
              (if isFolderOp op then none else op.url)
            else m.url) = m.url)
    (hpos : p2 = l ∨ ∀ node, v.tree.get l = some node →
      node.parentId = some p2 ∧ ∀ i, finiteIndex op.index = some i → node.index = i) :
    (applyCreate v op).2 = true ∧ (applyCreate v op).1.tree = v.tree
      ∧ (applyCreate v op).1.st = v.st := by
  have hup : (maybeUpdateNode v2 l op (isFolderOp op)).tree = v.tree := by
    rw [maybeUpdateNode_tree_same _ _ _ _ (by rw [htree]; exact hsame), htree]
  unfold applyCreate
  simp only [hmap, hres]
  refine ⟨trivial, ?_, ?_⟩
  · rw [maybeMove_tree_same _ _ _ _ (by rw [hup]; exact hpos), hup]
  · rw [maybeMove_st, maybeUpdateNode_st, hst]

/-- The parent of a create resolves again, without a call that modifies the
tree, once the create has been applied: to the same node, or to the created
node itself when the operation names its own UID as parent. -/
theorem resolveParentLocalId_again (w wp w1 : World) (op : RawOp) (u : String) (p l : Nat)
    (hu : nonEmpty? op.uid = some u) (hnew : lookupLocalId w.st op.uid = none)
    (hres : resolveParentLocalId w op.parentUid = (wp, some p))
    (hidx : w1.st.bookmarkIndex = (setMapping wp.st l u).bookmarkIndex)
    (hcache : w1.st.conflictFolderLocalId = wp.st.conflictFolderLocalId)
    (hfind : ∀ id n, wp.tree.find id = some n → w1.tree.find id = some n) :
    ∃ w2 p2, resolveParentLocalId w1 op.parentUid = (w2, some p2) ∧ w2.tree = w1.tree
      ∧ w2.st = w1.st ∧ (p2 = l ∨ p2 = p) := by
  obtain ⟨hix, _, hcase⟩ := resolveParentLocalId_some w wp op.parentUid p hres
  have hself : lookupLocalId w1.st op.uid = some l := by
    rw [lookupLocalId_congr hidx]
    unfold lookupLocalId setMapping
    simp only [hu, dictGet_dictSet]
  have hothers : nonEmpty? op.parentUid ≠ some u →
      lookupLocalId w1.st op.parentUid = lookupLocalId w.st op.parentUid := by
    intro hne
    rw [lookupLocalId_congr hidx, lookupLocalId_setMapping_other _ _ _ _ hne,
      lookupLocalId_congr hix]
  rcases hcase with ⟨ht, hw, hp⟩ | ⟨ht, hl, hw⟩ | ⟨ht, hl, hc, hex⟩
  · refine ⟨w1, p, ?_, rfl, rfl, Or.inr rfl⟩
    unfold resolveParentLocalId
    simp only [ht, Bool.not_false, if_true, hp]
  · have hne : nonEmpty? op.parentUid ≠ some u := by
      intro e
      have := lookupLocalId_same_key w.st (e.trans hu.symm)
      rw [hl, hnew] at this
      cases this
    refine ⟨w1, p, ?_, rfl, rfl, Or.inr rfl⟩
    unfold resolveParentLocalId
    simp only [ht, Bool.not_true, Bool.false_eq_true, if_false, hothers hne, hl]
  · by_cases he : nonEmpty? op.parentUid = some u
    · refine ⟨w1, l, ?_, rfl, rfl, Or.inl rfl⟩
      unfold resolveParentLocalId
      simp only [ht, Bool.not_true, Bool.false_eq_true, if_false,
        lookupLocalId_same_key w1.st (he.trans hu.symm), hself]
    · have hg : (w1.tree.get p).isSome = true := by
        unfold Tree.get at hex ⊢
        cases hf : wp.tree.find p with
        | none => rw [hf] at hex; simp at hex
        | some n => rw [hfind p n hf]; rfl
      cases hgn : w1.tree.get p with
      | none => rw [hgn] at hg; simp at hg
      | some node =>
        refine ⟨{ w1 with calls := w1.calls ++ [(Call.get p, true)] }, p, ?_, rfl, rfl,
          Or.inr rfl⟩
        unfold resolveParentLocalId ensureConflictFolder bookmarksGet
        simp only [ht, Bool.not_true, Bool.false_eq_true, if_false, hothers he, hl, hcache, hc,
          hgn, Option.isSome_some]

/-- C23 as amended: a create sent by another device for a UID that has no
mapping yet, whose parent resolves (to the mapped node, to the default root or
to the conflict container) and whose create call the tree accepts, is an
idempotent upsert. The first application leaves the created node, absent
before, in the tree and maps the UID to it in both directions; the second
application leaves the tree (its nodes, their order and the next id: no node
is created) and the identity map as the first left them. -/
theorem applyOp_create_twice_same (w wp : World) (op : RawOp) (u : String) (p : Nat)
    (t1 : Tree) (created : BNode)
    (hkind : op.op = some "create") (hu : nonEmpty? op.uid = some u)
    (hother : ¬ (truthy op.deviceId = true ∧ op.deviceId = w.st.deviceId))
    (hnew : lookupLocalId w.st op.uid = none)
    (hres : resolveParentLocalId w op.parentUid = (wp, some p))
    (hcr : wp.tree.create p (finiteIndex op.index) ((nonEmpty? op.title).getD "")
        (if isFolderOp op then none else nonEmpty? op.url) = some (t1, created)) :
    (applyOp w op).2 = true
      ∧ (applyOp w op).1.tree = t1
      ∧ w.tree.find created.id = none
      ∧ t1.find created.id
          = some { id := created.id, parentId := some p, title := (nonEmpty? op.title).getD ""
                   url := if isFolderOp op then none else nonEmpty? op.url }
      ∧ lookupLocalId (applyOp w op).1.st op.uid = some created.id
      ∧ dictGet (applyOp w op).1.st.bookmarkIndex.localToUid created.id = some u
      ∧ (applyOp (applyOp w op).1 op).2 = true
      ∧ (applyOp (applyOp w op).1 op).1.tree = t1
      ∧ (applyOp (applyOp w op).1 op).1.st.bookmarkIndex
          = (applyOp w op).1.st.bookmarkIndex := by
  obtain ⟨hflag, htree, hidx, hcache, _⟩ :=
    (applyOp_create_fresh w wp op u p hkind hu hother hnew hres).1 t1 created hcr
  obtain ⟨_, hfresh, hfound, hkeep⟩ := Tree.create_spec hcr
  obtain ⟨hget, huniq⟩ := Tree.create_get hcr
  obtain ⟨_, hwfind, _⟩ := resolveParentLocalId_some w wp op.parentUid p hres
  have hop : truthy op.op = true := by rw [hkind]; rfl
  have hdev : (applyOp w op).1.st.deviceId = w.st.deviceId :=
    congrArg (fun d => d.2.2.2.2.1) (applyOp_driver w op)
  have hother1 : ¬ (truthy op.deviceId = true ∧ op.deviceId = (applyOp w op).1.st.deviceId) := by
    rw [hdev]
    exact hother
  have hmap : lookupLocalId (applyOp w op).1.st op.uid = some created.id := by
    rw [lookupLocalId_congr hidx]
    unfold lookupLocalId setMapping
    simp only [hu, dictGet_dictSet]
  obtain ⟨w2, p2, hres2, htree2, hst2, hp2⟩ :=
    resolveParentLocalId_again w wp (applyOp w op).1 op u p created.id hu hnew hres hidx hcache
      (fun id n h => by rw [htree]; exact hkeep id n h)
  have hsecond := applyCreate_upsert_same
    { (applyOp w op).1 with
      st := { (applyOp w op).1.st with replayDepth := (applyOp w op).1.st.replayDepth + 1 } }
    { w2 with st := { w2.st with replayDepth := (applyOp w op).1.st.replayDepth + 1 } }
    op created.id p2 hmap
    (by rw [resolveParentLocalId_depth, hres2])
    htree2 (by rw [hst2])
    (by
      intro m hm hid
      have hm1 : m ∈ t1.nodes := by rw [← htree]; exact hm
      rw [huniq m hm1 hid]
      exact ⟨created_title_same op, created_url_same op⟩)
    (by
      rcases hp2 with h | h
      · exact Or.inl h
      · right
        intro node hnode
        obtain ⟨node1, hn1, hpar, hi⟩ := hget
        have hnode1 : t1.get created.id = some node := by rw [← htree]; exact hnode
        rw [hn1] at hnode1
        cases hnode1
        rw [h]
        exact ⟨hpar, hi⟩)
  refine ⟨hflag, htree, ?_, hfound, hmap, ?_, ?_, ?_, ?_⟩
  · cases hf : w.tree.find created.id with
    | none => rfl
    | some n => rw [hwfind _ _ hf] at hfresh; cases hfresh
  · rw [hidx]
    unfold setMapping
    simp only [dictGet_dictSet]
  · rw [applyOp_foreign _ op (truthy_of_nonEmpty? hu) hop hother1]
    unfold withReplay applyKind
    simp only [hkind, if_true]
    exact hsecond.1
  · rw [applyOp_foreign _ op (truthy_of_nonEmpty? hu) hop hother1]
    unfold withReplay applyKind
    simp only [hkind, if_true]
    rw [hsecond.2.1]
    exact htree
  · rw [applyOp_foreign _ op (truthy_of_nonEmpty? hu) hop hother1]
    unfold withReplay applyKind
    simp only [hkind, if_true]
    rw [hsecond.2.2]

/-- The sample create applied once and twice to a device that has not seen its
UID: one node, mapped to the UID, and the second application changes nothing. -/
theorem applyOp_create_twice_same_witness :
    lookupLocalId sampleDevice.st (some "n") = none
      ∧ (applyOp sampleDevice (sampleCreate "n" "root-other-bookmarks")).1.tree.find 4
          = some { id := 4, parentId := some 2, title := "x", url := some "https://example.com" }
      ∧ lookupLocalId (applyOp sampleDevice (sampleCreate "n" "root-other-bookmarks")).1.st
          (some "n") = some 4
      ∧ (applyOp (applyOp sampleDevice (sampleCreate "n" "root-other-bookmarks")).1
          (sampleCreate "n" "root-other-bookmarks")).1.tree
          = (applyOp sampleDevice (sampleCreate "n" "root-other-bookmarks")).1.tree
      ∧ (applyOp (applyOp sampleDevice (sampleCreate "n" "root-other-bookmarks")).1
          (sampleCreate "n" "root-other-bookmarks")).1.st.bookmarkIndex
          = (applyOp sampleDevice (sampleCreate "n" "root-other-bookmarks")).1.st.bookmarkIndex :=
  have h := applyOp_create_twice_same sampleDevice sampleDevice
    (sampleCreate "n" "root-other-bookmarks") "n" 2
    { nodes := [{ id := 0, parentId := none, title := "", url := none },
                { id := 1, parentId := some 0, title := "Bookmarks bar", url := none },
                { id := 2, parentId := some 0, title := "Other bookmarks", url := none },
                { id := 3, parentId := some 0, title := "Mobile bookmarks", url := none },
                { id := 4, parentId := some 2, title := "x", url := some "https://example.com" }]
      nextId := 5 }
    { id := 4, parentId := some 2, index := 0, title := "x", url := some "https://example.com" }
    (by decide) (by decide) (by decide) (by decide) (by decide) (by decide)
  ⟨by decide, by rw [h.2.1]; exact h.2.2.2.1, h.2.2.2.2.1, h.2.2.2.2.2.2.2.1.trans h.2.1.symm,
    h.2.2.2.2.2.2.2.2⟩

/-- C23, counterexamples. On a device where the UID "n" is mapped to a
bookmark at the front of the bookmarks bar, the sample create (parent: the
other-bookmarks folder, index 0) moves the node behind the two bookmarks of
that folder, and applied again moves it to the front: twice is not once. And on
a device whose tree rejects the creation, no node is mapped to the UID, after
one application and after two. -/
theorem applyOp_create_twice_differs :
    lookupLocalId sampleMoveWorld.st (some "n") = some 4
      ∧ ((applyOp sampleMoveWorld (sampleCreate "n" "root-other-bookmarks")).1.tree.get 4).map
          (fun n => (n.parentId, n.index)) = some (some 2, 2)
      ∧ ((applyOp (applyOp sampleMoveWorld (sampleCreate "n" "root-other-bookmarks")).1
          (sampleCreate "n" "root-other-bookmarks")).1.tree.get 4).map
          (fun n => (n.parentId, n.index)) = some (some 2, 0)
      ∧ (applyOp (applyOp sampleMoveWorld (sampleCreate "n" "root-other-bookmarks")).1
          (sampleCreate "n" "root-other-bookmarks")).1.tree
          ≠ (applyOp sampleMoveWorld (sampleCreate "n" "root-other-bookmarks")).1.tree
      ∧ lookupLocalId
          (applyOp { sampleDevice with tree := { sampleDeviceTree with editable := false } }
            (sampleCreate "n" "root-other-bookmarks")).1.st (some "n") = none
      ∧ lookupLocalId
          (applyOp
            (applyOp { sampleDevice with tree := { sampleDeviceTree with editable := false } }
              (sampleCreate "n" "root-other-bookmarks")).1
            (sampleCreate "n" "root-other-bookmarks")).1.st (some "n") = none := by
  decide

/-! ## C26: a snapshot rebuilt with its own parent links -/

theorem resolveParentLocalId_calls (w : World) (pu : Option String) :
    ∃ l, (resolveParentLocalId w pu).1.calls = w.calls ++ l := by
  unfold resolveParentLocalId
  split
  · exact ⟨[], by simp⟩
  · split
    · exact ⟨[], by simp⟩
    · obtain ⟨l, hl, _⟩ := ensureConflictFolder_spec w
      exact ⟨l, hl⟩

theorem applyCreate_calls (w : World) (op : RawOp) :
    ∃ l, (applyCreate w op).1.calls = w.calls ++ l := by
  obtain ⟨l0, h0⟩ := resolveParentLocalId_calls w op.parentUid
  unfold applyCreate
  simp only
  cases hr : resolveParentLocalId w op.parentUid with
  | mk w1 r =>
    rw [hr] at h0
    simp only at h0
    cases r with
    | none => exact ⟨l0, h0⟩
    | some parentId =>
      simp only
      cases hl : lookupLocalId w.st op.uid with
      | some lid =>
        simp only
        obtain ⟨l1, h1⟩ := (maybeUpdateNode_spec w1 lid op (isFolderOp op)).2
        obtain ⟨l2, h2, _⟩ :=
          (maybeMove_spec (maybeUpdateNode w1 lid op (isFolderOp op)) lid parentId op.index).2
        exact ⟨l0 ++ (l1 ++ l2), by rw [h2, h1, h0, List.append_assoc, List.append_assoc]⟩
      | none =>
        simp only [bookmarksCreate]
        cases hc : w1.tree.create parentId (finiteIndex op.index) ((nonEmpty? op.title).getD "")
            (if isFolderOp op then none else nonEmpty? op.url) with
        | none =>
          simp only [h0, List.append_assoc]
          exact ⟨_, rfl⟩
        | some r =>
          obtain ⟨t1, b⟩ := r
          simp only [h0, List.append_assoc]
          exact ⟨_, rfl⟩

theorem applyUpdate_calls (w : World) (op : RawOp) :
    ∃ l, (applyUpdate w op).calls = w.calls ++ l := by
  unfold applyUpdate
  split
  · exact ⟨[], by simp⟩
  · exact (maybeUpdateNode_spec _ _ _ _).2

theorem applyMove_calls (w : World) (op : RawOp) :
    ∃ l, (applyMove w op).1.calls = w.calls ++ l := by
  obtain ⟨l0, h0⟩ := resolveParentLocalId_calls w op.parentUid
  unfold applyMove
  cases hl : lookupLocalId w.st op.uid with
  | none => exact ⟨[], by simp⟩
  | some lid =>
    simp only
    cases hr : resolveParentLocalId w op.parentUid with
    | mk w1 r =>
      rw [hr] at h0
      simp only at h0
      cases r with
      | none => exact ⟨l0, h0⟩
      | some parentId =>
        simp only
        obtain ⟨l2, h2, _⟩ := (maybeMove_spec w1 lid parentId op.index).2
        exact ⟨l0 ++ l2, by rw [h2, h0, List.append_assoc]⟩

theorem applyRemove_calls (w : World) (op : RawOp) :
    ∃ l, (applyRemove w op).calls = w.calls ++ l := by
  unfold applyRemove
  cases hl : lookupLocalId w.st op.uid with
  | none => exact ⟨[], by simp⟩
  | some lid =>
    simp only [getNode, bookmarksGet]
    cases hg : w.tree.get lid with
    | none => exact ⟨_, rfl⟩
    | some node =>
      simp only
      by_cases hurl : truthy node.url = true
      · simp only [hurl, if_true, bookmarksRemove]
        cases hrm : w.tree.remove lid with
        | none =>
          simp only [Bool.false_eq_true, if_false, List.append_assoc]
          exact ⟨_, rfl⟩
        | some t1 =>
          simp only [if_true, List.append_assoc]
          exact ⟨_, rfl⟩
      · simp only [hurl, Bool.false_eq_true, if_false, bookmarksRemoveTree]
        cases hrm : w.tree.removeTree lid with
        | none =>
          simp only [Bool.false_eq_true, if_false, List.append_assoc]
          exact ⟨_, rfl⟩
        | some t1 =>
          simp only [if_true, List.append_assoc]
          exact ⟨_, rfl⟩

/-- The call record only grows: `applyOp` appends the calls it issues. -/
theorem applyOp_calls (w : World) (op : RawOp) :
    ∃ l, (applyOp w op).1.calls = w.calls ++ l := by
  unfold applyOp
  split
  · exact ⟨[], by simp⟩
  · split
    · exact ⟨[], by simp⟩
    · unfold withReplay applyKind
      simp only
      split
      · exact applyCreate_calls _ op
      · split
        · exact applyUpdate_calls _ op
        · split
          · exact applyMove_calls _ op
          · split
            · exact applyRemove_calls _ op
            · exact ⟨[], by simp⟩

theorem hydrateLoop_calls (now : Int) : ∀ (fuel : Nat) (w : World) (pending : List SnapNode),
    ∃ l, (hydrateLoop now fuel w pending).1.calls = w.calls ++ l := by
  intro fuel
  induction fuel with
  | zero => intro w pending; exact ⟨[], by simp [hydrateLoop]⟩
  | succ fuel ih =>
    intro w pending
    cases pending with
    | nil => exact ⟨[], by simp [hydrateLoop]⟩
    | cons node rest =>
      unfold hydrateLoop
      split
      · obtain ⟨l1, h1⟩ := applyOp_calls w (snapshotOp now node)
        cases hr : applyOp w (snapshotOp now node) with
        | mk w1 ok =>
          rw [hr] at h1
          simp only at h1
          cases ok with
          | false => exact ⟨l1, h1⟩
          | true =>
            obtain ⟨l2, h2⟩ := ih w1 rest
            exact ⟨l1 ++ l2, by simp only [h2, h1, List.append_assoc]⟩
      · exact ih w (rest ++ [node])

theorem hydrateRest_calls (now : Int) : ∀ (pending : List SnapNode) (w : World),
    ∃ l, (hydrateRest now w pending).1.calls = w.calls ++ l := by
  intro pending
  induction pending with
  | nil => intro w; exact ⟨[], by simp [hydrateRest]⟩
  | cons node rest ih =>
    intro w
    unfold hydrateRest
    obtain ⟨l1, h1⟩ := applyOp_calls w (snapshotOp now node)
    cases hr : applyOp w (snapshotOp now node) with
    | mk w1 ok =>
      rw [hr] at h1
      simp only at h1
      cases ok with
      | false => exact ⟨l1, h1⟩
      | true =>
        obtain ⟨l2, h2⟩ := ih w1
        exact ⟨l1 ++ l2, by simp only [h2, h1, List.append_assoc]⟩

theorem resolveParentLocalId_ready (w : World) (pu : Option String)
    (h : (!truthy pu || (lookupLocalId w.st pu).isSome) = true) :
    ∃ p, resolveParentLocalId w pu = (w, some p)
      ∧ some p = (if truthy pu then lookupLocalId w.st pu else some DEFAULT_ROOT_ID) := by
  unfold resolveParentLocalId
  by_cases ht : truthy pu = true
  · simp only [ht, Bool.not_true, Bool.false_or] at h
    cases hl : lookupLocalId w.st pu with
    | none => rw [hl] at h; simp at h
    | some l => exact ⟨l, by simp [ht], by simp [ht]⟩
  · exact ⟨DEFAULT_ROOT_ID, by simp [ht], by simp [ht]⟩

theorem hydrateLoop_nil (now : Int) (fuel : Nat) (w : World) :
    hydrateLoop now fuel w [] = (w, [], [], true) := by
  cases fuel <;> rfl

theorem hydrateLoop_cons_ready (now : Int) (fuel : Nat) (w : World) (x : SnapNode)
    (rest : List SnapNode)
    (hready : (!truthy x.parentUid || (lookupLocalId w.st x.parentUid).isSome) = true)
    (hflag : (applyOp w (snapshotOp now x)).2 = true) :
    hydrateLoop now (fuel + 1) w (x :: rest)
      = ((hydrateLoop now fuel (applyOp w (snapshotOp now x)).1 rest).1,
          (hydrateLoop now fuel (applyOp w (snapshotOp now x)).1 rest).2.1,
          snapshotOp now x :: (hydrateLoop now fuel (applyOp w (snapshotOp now x)).1 rest).2.2.1,
          (hydrateLoop now fuel (applyOp w (snapshotOp now x)).1 rest).2.2.2) := by
  conv_lhs => unfold hydrateLoop
  rw [if_pos hready]
  cases hr : applyOp w (snapshotOp now x) with
  | mk w1 ok =>
    rw [hr] at hflag
    simp only at hflag
    subst hflag
    rfl

theorem lookupLocalId_setMapping_stable (st st1 : Client) (l : Nat) (u : String)
    (uid : Option String) (hu : nonEmpty? uid = some u) (hnew : lookupLocalId st uid = none)
    (hidx : st1.bookmarkIndex = (setMapping st l u).bookmarkIndex) :
    lookupLocalId st1 uid = some l
      ∧ (∀ v, nonEmpty? v ≠ some u → lookupLocalId st1 v = lookupLocalId st v)
      ∧ ∀ v k, lookupLocalId st v = some k → lookupLocalId st1 v = some k := by
  have hother : ∀ v, nonEmpty? v ≠ some u → lookupLocalId st1 v = lookupLocalId st v := by
    intro v hne
    rw [lookupLocalId_congr hidx, lookupLocalId_setMapping_other _ _ _ _ hne]
  refine ⟨?_, hother, ?_⟩
  · rw [lookupLocalId_congr hidx]
    unfold lookupLocalId setMapping
    simp only [hu, dictGet_dictSet]
  · intro v k hv
    have hne : nonEmpty? v ≠ some u := by
      intro e
      have := lookupLocalId_same_key st (e.trans hu.symm)
      rw [hv, hnew] at this
      cases this
    rw [hother v hne, hv]

/-- Replaying a list in which parents come before their children, on a device
that knows none of its UIDs, while the tree accepts every call: every node is
applied at its turn and lands under the node its `parentUid` is mapped to. -/
theorem hydrateLoop_parentsFirst (now : Int) :
    ∀ (nodes : List SnapNode) (fuel : Nat) (w : World) (known : List String)
      (new : List (Call × Bool)) (r : World × List SnapNode × List RawOp × Bool),
      hydrateLoop now fuel w nodes = r →
      nodes.length ≤ fuel →
      w.st.deviceId ≠ some "snapshot" →
      (∀ x ∈ nodes, truthy x.uid = true ∧ lookupLocalId w.st x.uid = none) →
      (nodes.map (fun x => x.uid)).Nodup →
      (∀ k ∈ known, (lookupLocalId w.st (some k)).isSome = true) →
      parentsFirst known nodes = true →
      r.1.calls = w.calls ++ new →
      (∀ c ∈ new, c.2 = true) →
      r.2.1 = [] ∧ r.2.2.1 = nodes.map (snapshotOp now) ∧ r.2.2.2 = true
        ∧ r.1.st.conflictFolderLocalId = w.st.conflictFolderLocalId
        ∧ (∀ id n, w.tree.find id = some n → r.1.tree.find id = some n)
        ∧ (∀ v l, lookupLocalId w.st v = some l → lookupLocalId r.1.st v = some l)
        ∧ new.length = nodes.length
        ∧ ∀ x ∈ nodes, ∃ l n,
            lookupLocalId r.1.st x.uid = some l
              ∧ r.1.tree.find l = some n
              ∧ w.tree.find l = none
              ∧ n.parentId
                  = (if truthy x.parentUid then lookupLocalId r.1.st x.parentUid
                     else some DEFAULT_ROOT_ID) := by
  intro nodes
  induction nodes with
  | nil =>
    intro fuel w known new r hr _ _ _ _ _ _ hcalls _
    rw [hydrateLoop_nil] at hr
    subst hr
    simp only at hcalls
    have hnew : new = [] := by
      have := congrArg List.length hcalls
      simp only [List.length_append] at this
      exact List.length_eq_zero.mp (by omega)
    subst hnew
    exact ⟨rfl, rfl, rfl, rfl, fun _ _ h => h, fun _ _ h => h, rfl,
      fun x hx => by cases hx⟩
  | cons x rest ih =>
    intro fuel w known new r hr hlen hdev hfresh hnodup hknown hord hcalls hacc
    cases fuel with
    | zero => simp at hlen
    | succ f =>
      have hlen1 : rest.length ≤ f := by
        simp only [List.length_cons] at hlen
        omega
      obtain ⟨hxu, hxnew⟩ := hfresh x (List.mem_cons_self _ _)
      obtain ⟨u, hu⟩ : ∃ u, nonEmpty? x.uid = some u := by
        unfold truthy at hxu
        cases hn : nonEmpty? x.uid with
        | none => rw [hn] at hxu; simp at hxu
        | some u => exact ⟨u, rfl⟩
      have hxuid : x.uid = some u := nonEmpty?_eq hu
      simp only [parentsFirst, Bool.and_eq_true, Bool.or_eq_true, Bool.not_eq_true',
        List.any_eq_true, decide_eq_true_eq] at hord
      obtain ⟨hpar, hord1⟩ := hord
      have hready : (!truthy x.parentUid || (lookupLocalId w.st x.parentUid).isSome) = true := by
        rcases hpar with h | ⟨k, hk, hpk⟩
        · simp [h]
        · rw [hpk, hknown k hk]
          simp
      obtain ⟨p, hres, hp⟩ := resolveParentLocalId_ready w x.parentUid hready
      have hother : ¬ (truthy (snapshotOp now x).deviceId = true
          ∧ (snapshotOp now x).deviceId = w.st.deviceId) := by
        intro h
        exact hdev h.2.symm
      have hfr := applyOp_create_fresh w w (snapshotOp now x) u p rfl hu hother hxnew hres
      obtain ⟨l2, hl2⟩ := hydrateLoop_calls now f (applyOp w (snapshotOp now x)).1 rest
      cases hc : w.tree.create p (finiteIndex (snapshotOp now x).index)
          ((nonEmpty? (snapshotOp now x).title).getD "")
          (if isFolderOp (snapshotOp now x) then none else nonEmpty? (snapshotOp now x).url) with
      | none =>
        exfalso
        obtain ⟨hcl, _, hflag⟩ := hfr.2 hc
        rw [hydrateLoop_cons_ready now f w x rest hready hflag] at hr
        subst hr
        simp only at hcalls
        rw [hl2, hcl, List.append_assoc] at hcalls
        have := List.append_cancel_left hcalls
        have hbad := hacc _ (by rw [← this]; exact List.mem_cons_self _ _)
        simp at hbad
      | some res =>
        obtain ⟨t1, created⟩ := res
        obtain ⟨hflag, htree, hidx, hcache, hcl⟩ := hfr.1 t1 created hc
        obtain ⟨_, hfreshid, hfound, hkeep⟩ := Tree.create_spec hc
        obtain ⟨hself, hothers, hstable⟩ := lookupLocalId_setMapping_stable w.st
          (applyOp w (snapshotOp now x)).1.st created.id u x.uid hu hxnew hidx
        rw [hydrateLoop_cons_ready now f w x rest hready hflag] at hr
        subst hr
        simp only at hcalls ⊢
        rw [hl2, hcl, List.append_assoc] at hcalls
        have hnew := List.append_cancel_left hcalls
        have hdev1 : (applyOp w (snapshotOp now x)).1.st.deviceId ≠ some "snapshot" := by
          have : (applyOp w (snapshotOp now x)).1.st.deviceId = w.st.deviceId :=
            congrArg (fun d => d.2.2.2.2.1) (applyOp_driver w (snapshotOp now x))
          rw [this]
          exact hdev
        have hnd := List.nodup_cons.mp hnodup
        have hfresh1 : ∀ y ∈ rest, truthy y.uid = true
            ∧ lookupLocalId (applyOp w (snapshotOp now x)).1.st y.uid = none := by
          intro y hy
          obtain ⟨hyu, hynew⟩ := hfresh y (List.mem_cons_of_mem _ hy)
          refine ⟨hyu, ?_⟩
          have hne : nonEmpty? y.uid ≠ some u := by
            intro e
            have : y.uid = x.uid := by rw [nonEmpty?_eq e, hxuid]
            exact hnd.1 (List.mem_map.mpr ⟨y, hy, this⟩)
          rw [hothers _ hne, hynew]
        have hknown1 : ∀ k ∈ (x.uid.getD "" :: known),
            (lookupLocalId (applyOp w (snapshotOp now x)).1.st (some k)).isSome = true := by
          intro k hk
          rcases List.mem_cons.mp hk with h | h
          · have hk1 : k = u := by rw [h, hxuid]; rfl
            rw [hk1, ← hxuid, hself]
            rfl
          · have := hknown k h
            cases hlk : lookupLocalId w.st (some k) with
            | none => rw [hlk] at this; simp at this
            | some l => rw [hstable _ _ hlk]; rfl
        have hIH := ih f (applyOp w (snapshotOp now x)).1 (x.uid.getD "" :: known) l2 _ rfl
          hlen1 hdev1 hfresh1 hnd.2 hknown1 hord1 hl2
          (fun c hc1 => hacc c (by rw [← hnew]; exact List.mem_cons_of_mem _ hc1))
        obtain ⟨h1, h2, h3, h4, h5, h6, h7, h8⟩ := hIH
        refine ⟨h1, by rw [h2]; rfl, h3, by rw [h4, hcache], ?_, ?_, ?_, ?_⟩
        · intro id n hn
          exact h5 id n (by rw [htree]; exact hkeep id n hn)
        · intro v l hv
          exact h6 v l (hstable v l hv)
        · rw [← hnew]
          simp only [List.length_append, List.length_cons, List.length_nil, h7]
          omega
        · intro y hy
          rcases List.mem_cons.mp hy with h | h
          · subst h
            refine ⟨created.id, _, h6 _ _ hself, h5 _ _ (by rw [htree]; exact hfound), hfreshid,
              ?_⟩
            show some p = _
            rw [hp]
            by_cases ht : truthy y.parentUid = true
            · simp only [ht, if_true]
              cases hlk : lookupLocalId w.st y.parentUid with
              | none =>
                simp only [ht, Bool.not_true, Bool.false_or, hlk] at hready
                simp at hready
              | some l => rw [h6 _ _ (hstable _ _ hlk)]
            · simp only [ht, Bool.false_eq_true, if_false]
          · obtain ⟨l, n, ha, hb, hcn, hd⟩ := h8 y h
            refine ⟨l, n, ha, hb, ?_, hd⟩
            cases hf : w.tree.find l with
            | none => rfl
            | some m =>
              rw [htree, hkeep l m hf] at hcn
              cases hcn

theorem hydrateFromSnapshot_calls (now : Int) (snap : Snapshot) (nodes : List SnapNode)
    (w : World) (hdata : snap.data = some (SnapData.withNodes nodes)) :
    ∃ more, (hydrateFromSnapshot now (some snap) w).1.calls
      = (hydrateLoop now (nodes.length * 3) w nodes).1.calls ++ more := by
  obtain ⟨l, hl⟩ := hydrateRest_calls now (hydrateLoop now (nodes.length * 3) w nodes).2.1
    (hydrateLoop now (nodes.length * 3) w nodes).1
  unfold hydrateFromSnapshot
  simp only [hdata]
  split
  · exact ⟨[], by simp⟩
  · split
    · exact ⟨l, hl⟩
    · exact ⟨l, hl⟩

/-- C26 as amended: a snapshot whose node list names every parent before its
children (each `parentUid` is null, a UID the device resolves already, such as
a well-known root UID, or the UID of an earlier node), with distinct non-empty
UIDs none of which the device resolves yet, hydrated on a device whose id is
not "snapshot" and whose tree accepts every call of the replay: every node is
applied at its turn inside the loop, one create per node and no other call,
nothing is left for the fallback, the cached conflict container is untouched,
and every node is mapped to a node created by the replay whose parent is the
node its `parentUid` is mapped to (the default root when it has none). -/
theorem hydrate_parents_first_rebuilds (now : Int) (snap : Snapshot) (nodes : List SnapNode)
    (known : List String) (w : World)
    (hdata : snap.data = some (SnapData.withNodes nodes))
    (hdev : w.st.deviceId ≠ some "snapshot")
    (hfresh : ∀ x ∈ nodes, truthy x.uid = true ∧ lookupLocalId w.st x.uid = none)
    (hnodup : (nodes.map (fun x => x.uid)).Nodup)
    (hknown : ∀ k ∈ known, (lookupLocalId w.st (some k)).isSome = true)
    (hord : parentsFirst known nodes = true)
    (hacc : ∀ c ∈ (hydrateFromSnapshot now (some snap) w).1.calls.drop w.calls.length,
      c.2 = true) :
    (hydrateFromSnapshot now (some snap) w).2 = nodes.map (snapshotOp now)
      ∧ (hydrateLoop now (nodes.length * 3) w nodes).2.1 = []
      ∧ ((hydrateFromSnapshot now (some snap) w).1.calls.drop w.calls.length).length
          = nodes.length
      ∧ (hydrateFromSnapshot now (some snap) w).1.st.conflictFolderLocalId
          = w.st.conflictFolderLocalId
      ∧ (hydrateFromSnapshot now (some snap) w).1.st.snapshotHydrated = true
      ∧ ∀ x ∈ nodes, ∃ l n,
          lookupLocalId (hydrateFromSnapshot now (some snap) w).1.st x.uid = some l
            ∧ (hydrateFromSnapshot now (some snap) w).1.tree.find l = some n
            ∧ w.tree.find l = none
            ∧ n.parentId
                = (if truthy x.parentUid then
                    lookupLocalId (hydrateFromSnapshot now (some snap) w).1.st x.parentUid
                   else some DEFAULT_ROOT_ID) := by
  obtain ⟨lnew, hlnew⟩ := hydrateLoop_calls now (nodes.length * 3) w nodes
  obtain ⟨more, hmore⟩ := hydrateFromSnapshot_calls now snap nodes w hdata
  have hdrop : (hydrateFromSnapshot now (some snap) w).1.calls.drop w.calls.length
      = lnew ++ more := by
    rw [hmore, hlnew, List.append_assoc, List.drop_left]
  have hloop := hydrateLoop_parentsFirst now nodes (nodes.length * 3) w known lnew _ rfl
    (by omega) hdev hfresh hnodup hknown hord hlnew
    (fun c hc => hacc c (by rw [hdrop]; exact List.mem_append_left _ hc))
  obtain ⟨h1, h2, h3, h4, _, _, h7, h8⟩ := hloop
  have hfinal : hydrateFromSnapshot now (some snap) w
      = ({ (hydrateLoop now (nodes.length * 3) w nodes).1 with
            st := { (hydrateLoop now (nodes.length * 3) w nodes).1.st with
                    lastVersion := snap.version, snapshotHydrated := true } },
          nodes.map (snapshotOp now)) := by
    unfold hydrateFromSnapshot
    simp only [hdata, h1, h2, h3, hydrateRest, Bool.true_eq_false, if_false, List.append_nil]
  rw [hfinal]
  refine ⟨rfl, h1, ?_, h4, rfl, h8⟩
  show (List.drop w.calls.length (hydrateLoop now (nodes.length * 3) w nodes).1.calls).length
    = nodes.length
  rw [hlnew, List.drop_left, h7]

/-- The sample chain, parents first, hydrated on the sample device: every
folder is mapped and sits under the folder its `parentUid` is mapped to. -/
theorem hydrate_parents_first_rebuilds_witness :
    sampleChain.reverse.length = 6
      ∧ (hydrateFromSnapshot 0 (some sampleChainParentsFirst) sampleDevice).1.st.conflictFolderLocalId
          = none
      ∧ ∀ x ∈ sampleChain.reverse, ∃ l n,
          lookupLocalId (hydrateFromSnapshot 0 (some sampleChainParentsFirst) sampleDevice).1.st
              x.uid = some l
            ∧ (hydrateFromSnapshot 0 (some sampleChainParentsFirst) sampleDevice).1.tree.find l
                = some n
            ∧ sampleDevice.tree.find l = none
            ∧ n.parentId
                = (if truthy x.parentUid then
                    lookupLocalId
                      (hydrateFromSnapshot 0 (some sampleChainParentsFirst) sampleDevice).1.st
                      x.parentUid
                   else some DEFAULT_ROOT_ID) :=
  have h := hydrate_parents_first_rebuilds 0 sampleChainParentsFirst sampleChain.reverse
    ["root-bookmarks-bar"] sampleDevice rfl (by decide) (by decide) (by decide) (by decide)
    (by decide) (by decide)
  ⟨by decide, h.2.2.2.1, h.2.2.2.2.2⟩

/-- C26, counterexample. The sample chain of six folders is well formed:
distinct UIDs, the last folder on the bookmarks bar, every other one under the
next, so that listed in reverse every parent comes first. Listed child first
and hydrated on the sample device, whose tree accepts every call, the loop
uses its 18 iterations on four folders and leaves "n6" and "n5" pending; the
fallback then creates the conflict container (local id 8) and puts the folder
"n6" (local id 9) into it, not under the folder "n5" (local id 10). -/
theorem hydrate_child_first_chain_reaches_conflict_container :
    (sampleChain.map (fun x => x.uid)).Nodup
      ∧ parentsFirst ["root-bookmarks-bar"] sampleChain.reverse = true
      ∧ sampleDevice.st.bookmarkIndex = {}
      ∧ (∀ c ∈ (hydrateFromSnapshot 0 (some sampleChainSnapshot) sampleDevice).1.calls,
          c.2 = true)
      ∧ (hydrateLoopTrace 0 (sampleChain.length * 3) sampleDevice sampleChain).1 = 18
      ∧ ((hydrateLoop 0 (sampleChain.length * 3) sampleDevice sampleChain).2.1.map
          (fun x => x.uid)) = [some "n6", some "n5"]
      ∧ (hydrateFromSnapshot 0 (some sampleChainSnapshot) sampleDevice).1.st.conflictFolderLocalId
          = some 8
      ∧ lookupLocalId (hydrateFromSnapshot 0 (some sampleChainSnapshot) sampleDevice).1.st
          (some "n6") = some 9
      ∧ lookupLocalId (hydrateFromSnapshot 0 (some sampleChainSnapshot) sampleDevice).1.st
          (some "n5") = some 10
      ∧ ((hydrateFromSnapshot 0 (some sampleChainSnapshot) sampleDevice).1.tree.find 9).map
          (fun n => (n.title, n.parentId)) = some ("6", some 8)
      ∧ ((hydrateFromSnapshot 0 (some sampleChainSnapshot) sampleDevice).1.tree.find 8).map
          (fun n => (n.title, n.parentId)) = some (CONFLICT_FOLDER_TITLE, some 1) := by
  decide

end BobbySync
